import Mathlib

/-! # Warp9: synthetic file tree, response codec, client walk and server responses

A shallow embedding of `warpsrv/common.go` (the in-memory file tree:
`Add`, `Remove`, `Rename`, `Find`, `CheckPerm`), of `warp9/fcallr.go`
(the response packers), of `warp9/clnt_walk.go` and `warp9/clnt_open.go`
(the walk of a path, `Open`, `Create`, `FCreate`) and of
`warp9/srv_respond.go` (the `Respond...` functions), with theorems about them.

Conventions of the embedding
* a Go `string` is its byte sequence, `List Nat`;
* a Go pointer `*W9File` is `Option Nat`: `none` is `nil`, `some a` is the
  address `a` of a node in the store;
* unsigned machine integers are `Nat`, reduced modulo `2^w` where the source
  can wrap;
* the mutexes are not modelled: every operation is run to completion on its
  own, which is what the locks give the callers;
* the loops over a sibling list take a fuel argument; a call whose loop runs
  out of fuel is `Run.diverge` (on a cyclic list the Go loop does not
  terminate), and the theorems give the fuel that suffices;
* the loop `for { ... }` of the client's `Walk` takes a fuel argument as well;
  any fuel above the number of names of the path suffices;
* a nil pointer dereference or an index out of range is `Run.fault`.
-/

namespace Warp9

/-- A Go string, as its sequence of bytes. -/
abbrev GoString := List Nat

/-- The interface `warp9.Group`, as the value its method `Name()` returns. -/
structure Group where
  Name : GoString
  deriving DecidableEq

/-- The interface `warp9.User`, as the values its methods `Name()` and
`Groups()` return. -/
structure User where
  Name : GoString
  Groups : List Group
  deriving DecidableEq

/-- The type `warp9.Qid`: `Typ` is the field `Type`, a `uint8`, `Version` a `uint32`, `Path` a
`uint64`. -/
structure Qid where
  Typ : Nat
  Version : Nat
  Path : Nat
  deriving DecidableEq

/-- The type `warp9.Dir`, with the fields `W9File.Add` initialises. -/
structure Dir where
  Qid : Qid
  Mode : Nat
  Atime : Nat
  Mtime : Nat
  Length : Nat
  Name : GoString
  Uid : GoString
  Gid : GoString
  Muid : GoString
  ExtAttr : GoString
  deriving DecidableEq

/-- The flag `Fremoved` (`1 << iota` with `iota = 0`). -/
def Fremoved : Nat := 1

/-- The type `W9File`: the embedded `Dir`, the flags, and the links to the
parent, the siblings and the children. `ops` is the opaque `interface{}`. -/
structure W9File where
  Dir : Dir
  flags : Nat
  Parent : Option Nat
  next : Option Nat
  prev : Option Nat
  cfirst : Option Nat
  clast : Option Nat
  ops : Option Nat
  deriving DecidableEq

/-- The memory the tree lives in: the node at every address, and the
package-level counter `qnext` (a `uint64`). -/
structure Store where
  files : Nat → W9File
  qnext : Nat

/-- The errors the tree operations return. -/
inductive TreeErr where
  | Eexist
  deriving DecidableEq

/-- Assignment through a pointer: `*a = g (*a)`. -/
def Store.modify (s : Store) (a : Nat) (g : W9File → W9File) : Store :=
  { s with files := fun b => if b = a then g (s.files a) else s.files b }

/-! ## CheckPerm -/

/-- The loop over `groups` in `CheckPerm`: at the first group whose name is
`gid` the group bits of `mode` are or-ed into `fperm` and the loop breaks. -/
def CheckPerm.groupLoop (gid : GoString) (mode : Nat) (fperm : Nat) : List Group → Nat
  | [] => fperm
  | g :: gs =>
    if gid = g.Name then fperm ||| ((mode >>> 3) &&& 7)
    else CheckPerm.groupLoop gid mode fperm gs

/-- The method `(f *W9File) CheckPerm(user, perm)`; `user = none` is the nil
interface. -/
def CheckPerm (f : W9File) (user : Option User) (perm : Nat) : Bool :=
  match user with
  | none => false
  | some u =>
    let perm := perm &&& 7
    -- other permissions
    let fperm := f.Dir.Mode &&& 7
    if (fperm &&& perm) = perm then true
    else
      -- user permissions
      let fperm := if f.Dir.Uid = u.Name then fperm ||| ((f.Dir.Mode >>> 6) &&& 7) else fperm
      if (fperm &&& perm) = perm then true
      else
        -- group permissions
        let fperm := CheckPerm.groupLoop f.Dir.Gid f.Dir.Mode fperm u.Groups
        if (fperm &&& perm) = perm then true
        else false

/-- The bits the claim accumulates: other, then owner when the file's owner
is the user, then group when the file's group is one of the user's. -/
def permAcc (f : W9File) (u : User) : Nat :=
  (f.Dir.Mode &&& 7)
    ||| (if f.Dir.Uid = u.Name then (f.Dir.Mode >>> 6) &&& 7 else 0)
    ||| (if ∃ g ∈ u.Groups, f.Dir.Gid = g.Name then (f.Dir.Mode >>> 3) &&& 7 else 0)

/-! ## The tree operations -/

/-- The result of a call that can fault, return or not terminate. -/
inductive Run (α : Type) where
  | done (a : α)
  | fault
  | diverge
  deriving DecidableEq

/-- Sequencing of two calls: the second runs on the result of the first when
the first returns. -/
def Run.bind {α β : Type} (r : Run α) (k : α → Run β) : Run β :=
  match r with
  | Run.done a => k a
  | Run.fault => Run.fault
  | Run.diverge => Run.diverge

/-- The scan `for p := start; p != nil; p = p.next { if name == p.Name {...} }`
shared by `Add`, `Rename` and `Find`: `some (some a)` when it stops at the
node `a` whose name is `name`, `some none` when it reaches nil, `none` when
the fuel runs out. -/
def scanName (files : Nat → W9File) (name : GoString) : Nat → Option Nat → Option (Option Nat)
  | 0, _ => none
  | _ + 1, none => some none
  | k + 1, some a =>
    if name = (files a).Dir.Name then some (some a)
    else scanName files name k (files a).next

/-- The first part of `Add` (up to `f.ExtAttr = ""`): a path is taken from the
counter `qnext`, which is incremented, and the fields of the `Dir` of `f` are
set. `now` is the value of `time.Now().Unix()`; the string is "none". -/
def Add.init (s : Store) (f : Nat) (name : GoString) (uid : Option User)
    (gid : Option Group) (mode : Nat) (now : Nat) : Store :=
  let qpath := s.qnext
  let s := { s with qnext := (s.qnext + 1) % 2 ^ 64 }
  s.modify f fun x =>
    { x with
      Dir :=
        { Qid := { Typ := (mode >>> 24) % 2 ^ 8, Version := 0, Path := qpath },
          Mode := mode,
          Atime := now % 2 ^ 32,
          Mtime := now % 2 ^ 32,
          Length := 0,
          Name := name,
          Uid := (match uid with
            | some u => u.Name
            | none => [110, 111, 110, 101]),
          Gid := (match gid with
            | some g => g.Name
            | none => [110, 111, 110, 101]),
          Muid := [],
          ExtAttr := [] } }

/-- The part of `Add` that links `f` at the end of the child list of `dir`
(from `if dir.clast != nil` to `dir.clast = f`). -/
def Add.link (s : Store) (f d : Nat) : Store :=
  let s :=
    match (s.files d).clast with
    | some l => s.modify l fun x => { x with next := some f }
    | none => s.modify d fun x => { x with cfirst := some f }
  let s := s.modify f fun x => { x with prev := (s.files d).clast }
  let s := s.modify f fun x => { x with next := none }
  s.modify d fun x => { x with clast := some f }

/-- The method `(f *W9File) Add(dir, name, uid, gid, mode, ops)`. The result is
the store after the call and the error returned (`none` is the nil error);
the call diverges when the scan of the directory runs out of fuel. -/
def Add (s : Store) (f : Nat) (dir : Option Nat) (name : GoString) (uid : Option User)
    (gid : Option Group) (mode : Nat) (ops : Option Nat) (now : Nat) (fuel : Nat) :
    Run (Store × Option TreeErr) :=
  let s := Add.init s f name uid gid mode now
  match dir with
  | some d =>
    let s := s.modify f fun x => { x with Parent := some d }
    match scanName s.files name fuel (s.files d).cfirst with
    | none => Run.diverge
    | some (some _) => Run.done (s, some TreeErr.Eexist)
    | some none =>
      let s := Add.link s f d
      let s := s.modify f fun x => { x with ops := ops }
      Run.done (s, none)
  | none =>
    let s := s.modify f fun x => { x with Parent := some f }
    let s := s.modify f fun x => { x with ops := ops }
    Run.done (s, none)

/-- The part of `Remove` that unlinks `f` from the child list of its parent
`p` (from `if f.next != nil` to `f.prev = nil`). -/
def Remove.unlink (s : Store) (f p : Nat) : Store :=
  let s :=
    match (s.files f).next with
    | some n => s.modify n fun x => { x with prev := (s.files f).prev }
    | none => s.modify p fun x => { x with clast := (s.files f).prev }
  let s :=
    match (s.files f).prev with
    | some m => s.modify m fun x => { x with next := (s.files f).next }
    | none => s.modify p fun x => { x with cfirst := (s.files f).next }
  let s := s.modify f fun x => { x with next := none }
  s.modify f fun x => { x with prev := none }

/-- The method `(f *W9File) Remove()`: the store after the call. It faults
when `f.Parent` is nil: `p.Lock()` then dereferences a nil pointer. -/
def Remove (s : Store) (f : Nat) : Run Store :=
  if (s.files f).flags &&& Fremoved ≠ 0 then Run.done s
  else
    let s := s.modify f fun x => { x with flags := x.flags ||| Fremoved }
    match (s.files f).Parent with
    | none => Run.fault
    | some p => Run.done (Remove.unlink s f p)

/-- The method `(f *W9File) Rename(name)`: the store after the call and the
error returned. It faults when `f.Parent` is nil and diverges when the scan
runs out of fuel. -/
def Rename (s : Store) (f : Nat) (name : GoString) (fuel : Nat) : Run (Store × Option TreeErr) :=
  match (s.files f).Parent with
  | none => Run.fault
  | some p =>
    match scanName s.files name fuel (s.files p).cfirst with
    | none => Run.diverge
    | some (some _) => Run.done (s, some TreeErr.Eexist)
    | some none => Run.done (s.modify f fun x => { x with Dir := { x.Dir with Name := name } }, none)

/-- The method `(p *W9File) Find(name)`: the store after the call and the
pointer returned; the call diverges when the scan runs out of fuel. `Find`
assigns to nothing but its local `f`. -/
def Find (s : Store) (p : Nat) (name : GoString) (fuel : Nat) : Run (Store × Option Nat) :=
  match scanName s.files name fuel (s.files p).cfirst with
  | none => Run.diverge
  | some r => Run.done (s, r)

/-! ## Sibling lists -/

/-- The nodes reached from the pointer `p` by following `next` up to nil are
the addresses `l`, in order. -/
def IsChain (files : Nat → W9File) : Option Nat → List Nat → Prop
  | p, [] => p = none
  | p, a :: l => p = some a ∧ IsChain files (files a).next l

instance IsChain.decide (files : Nat → W9File) : (p : Option Nat) → (l : List Nat) →
    Decidable (IsChain files p l)
  | p, [] => inferInstanceAs (Decidable (p = none))
  | p, a :: l =>
    @instDecidableAnd (p = some a) (IsChain files (files a).next l) inferInstance
      (IsChain.decide files (files a).next l)

/-- The child list of the directory `d` is `l`: the chain from `d.cfirst` is
`l` and `d.clast` is the last node of `l` (nil when `l` is empty). -/
def Children (s : Store) (d : Nat) (l : List Nat) : Prop :=
  IsChain s.files (s.files d).cfirst l ∧ (s.files d).clast = l.getLast?

instance Children.decide (s : Store) (d : Nat) (l : List Nat) : Decidable (Children s d l) :=
  inferInstanceAs (Decidable (_ ∧ _))

/-- The nodes reached from the pointer `p` by following `next` up to nil are
the addresses `l`, and they are doubly linked: the `prev` of each node is the
node before it, and the `prev` of the first is `before`. -/
def IsDChain (files : Nat → W9File) : Option Nat → Option Nat → List Nat → Prop
  | _, p, [] => p = none
  | before, p, a :: l =>
    p = some a ∧ (files a).prev = before ∧ IsDChain files (some a) (files a).next l

instance IsDChain.decide (files : Nat → W9File) : (before p : Option Nat) → (l : List Nat) →
    Decidable (IsDChain files before p l)
  | _, p, [] => inferInstanceAs (Decidable (p = none))
  | before, p, a :: l =>
    @instDecidableAnd (p = some a) _ inferInstance
      (@instDecidableAnd ((files a).prev = before) _ inferInstance
        (IsDChain.decide files (some a) (files a).next l))

/-- The child list of the directory `d` is `l` and is doubly linked: the chain
from `d.cfirst` is `l`, with the `prev` links, and `d.clast` is the last node
of `l`. -/
def DChildren (s : Store) (d : Nat) (l : List Nat) : Prop :=
  IsDChain s.files none (s.files d).cfirst l ∧ (s.files d).clast = l.getLast?

instance DChildren.decide (s : Store) (d : Nat) (l : List Nat) : Decidable (DChildren s d l) :=
  inferInstanceAs (Decidable (_ ∧ _))

/-- The name of the node at the address `a`. -/
def Store.name (s : Store) (a : Nat) : GoString := (s.files a).Dir.Name

/-- One call of `Add`, with its receiver and arguments. -/
structure AddCall where
  f : Nat
  dir : Option Nat
  name : GoString
  uid : Option User
  gid : Option Group
  mode : Nat
  ops : Option Nat
  now : Nat
  fuel : Nat

/-- A sequence of `Add` calls, one after the other: the final store and the
`Qid.Path` each call left in its node, in call order. -/
def runAdds : Store → List AddCall → Run (Store × List Nat)
  | s, [] => Run.done (s, [])
  | s, c :: cs =>
    (Add s c.f c.dir c.name c.uid c.gid c.mode c.ops c.now c.fuel).bind fun r =>
      (runAdds r.1 cs).bind fun r2 =>
        Run.done (r2.1, (r.1.files c.f).Dir.Qid.Path :: r2.2)

/-! ## The response codec

`fcallr.go` packs a response into the buffer of an `Fcall` through the helpers
`packCommon`, `pint8`, `pint16`, `pint32`, `pint64`, `pstr`, `pqid`, `perr`,
`pstat` and `statsz`, which are declared in other files of the package, as are
the types `Fcall` and `WarpError`, the message type constants and the decoder
`Unpack`. They are modelled here from the specification of the wire format:
every frame is `size[4] type[1] tag[2]` followed by the fields of the message,
integers are little-endian, a string is `length[2] bytes[length]` and a qid is
`type[1] version[4] path[8]`.

A Go `[]byte` of the packers is a window of the buffer `Buf` of the `Fcall`, so
that writes through it are seen by every other window.
-/

/-- Modelled from the spec: the type `WarpError`, built in `srv_respond.go` as
`WarpError{Eio, err.Error()}`: an error code (a `uint16`) and a message. -/
structure WarpError where
  errcode : Nat
  errstr : GoString
  deriving DecidableEq

/-- A Go `error`: a `*WarpError`, or a value of another type with the string
its method `Error()` returns. -/
inductive GoError where
  | warp (e : WarpError)
  | other (msg : GoString)
  deriving DecidableEq

/-- A Go `[]byte` over the buffer of an `Fcall`: the `len` bytes from the
index `off` of the buffer. -/
structure Slice where
  off : Nat
  len : Nat
  deriving DecidableEq

/-- Modelled from the spec: the type `Fcall`, with the fields the response
packers assign. `Typ` is the field `Type`; `Buf` is the content of the buffer
the slices `Pkt` and `Data` are windows of. -/
structure Fcall where
  FcSize : Nat
  Typ : Nat
  Tag : Nat
  Msize : Nat
  Version : GoString
  Qid : Qid
  Error : Option WarpError
  Iounit : Nat
  Count : Nat
  Data : Slice
  Dir : Dir
  Pkt : Slice
  Buf : List Nat
  deriving DecidableEq

/-- The bytes a slice of the buffer of `fc` holds. -/
def Fcall.bytes (fc : Fcall) (sl : Slice) : List Nat := (fc.Buf.drop sl.off).take sl.len

/-- Modelled from the spec: the message type constants of the responses (the
numbering of 9P2000; the theorems use only that they are distinct bytes). -/
def Rversion : Nat := 101

/-- Modelled from the spec: message type constant. -/
def Rauth : Nat := 103

/-- Modelled from the spec: message type constant. -/
def Rattach : Nat := 105

/-- Modelled from the spec: message type constant. -/
def Rerror : Nat := 107

/-- Modelled from the spec: message type constant. -/
def Rflush : Nat := 109

/-- Modelled from the spec: message type constant. -/
def Rwalk : Nat := 111

/-- Modelled from the spec: message type constant. -/
def Ropen : Nat := 113

/-- Modelled from the spec: message type constant. -/
def Rcreate : Nat := 115

/-- Modelled from the spec: message type constant. -/
def Rread : Nat := 117

/-- Modelled from the spec: message type constant. -/
def Rwrite : Nat := 119

/-- Modelled from the spec: message type constant. -/
def Rclunk : Nat := 121

/-- Modelled from the spec: message type constant. -/
def Rremove : Nat := 123

/-- Modelled from the spec: message type constant. -/
def Rstat : Nat := 125

/-- Modelled from the spec: message type constant. -/
def Rwstat : Nat := 127

/-- Modelled from the spec: the tag `NOTAG` of a message that has no tag yet. -/
def NOTAG : Nat := 0xFFFF

/-- The `n` low bytes of `v`, least significant first. -/
def le : Nat → Nat → List Nat
  | 0, _ => []
  | n + 1, v => v % 256 :: le n (v / 256)

/-- The number whose little-endian bytes are `bs`. -/
def unle : List Nat → Nat
  | [] => 0
  | b :: bs => b + 256 * unle bs

/-- Assignment of the bytes `bs` to the first elements of the slice `c.2` of
the buffer of `c.1`; the result is the slice after them. An index out of range
is a fault. -/
def put (bs : List Nat) (c : Fcall × Slice) : Run (Fcall × Slice) :=
  if bs.length ≤ c.2.len then
    Run.done
      ({ c.1 with Buf := c.1.Buf.take c.2.off ++ bs ++ c.1.Buf.drop (c.2.off + bs.length) },
        ⟨c.2.off + bs.length, c.2.len - bs.length⟩)
  else Run.fault

/-- Modelled from the spec: `pint8(val, buf)` writes one byte. -/
def pint8 (val : Nat) (c : Fcall × Slice) : Run (Fcall × Slice) := put (le 1 val) c

/-- Modelled from the spec: `pint16(val, buf)` writes two bytes, little-endian. -/
def pint16 (val : Nat) (c : Fcall × Slice) : Run (Fcall × Slice) := put (le 2 val) c

/-- Modelled from the spec: `pint32(val, buf)` writes four bytes, little-endian. -/
def pint32 (val : Nat) (c : Fcall × Slice) : Run (Fcall × Slice) := put (le 4 val) c

/-- Modelled from the spec: `pint64(val, buf)` writes eight bytes, little-endian. -/
def pint64 (val : Nat) (c : Fcall × Slice) : Run (Fcall × Slice) := put (le 8 val) c

/-- Modelled from the spec: `pstr(val, buf)` writes the length of the string as
a `uint16` and then that many of its bytes. -/
def pstr (val : GoString) (c : Fcall × Slice) : Run (Fcall × Slice) :=
  let n := val.length % 2 ^ 16
  (pint16 n c).bind fun c => put (val.take n) c

/-- Modelled from the spec: `pqid(val, buf)` writes `type[1] version[4] path[8]`. -/
def pqid (q : Qid) (c : Fcall × Slice) : Run (Fcall × Slice) :=
  (pint8 q.Typ c).bind fun c => (pint32 q.Version c).bind fun c => pint64 q.Path c

/-- Modelled from the spec: `perr(err, buf)` writes the error of an `Rerror`,
which `packRerror` declares as `error[2]`: the 16-bit error code. -/
def perr (e : WarpError) (c : Fcall × Slice) : Run (Fcall × Slice) := pint16 e.errcode c

/-- Modelled from the spec: `statsz(d)`, the number of bytes of the stat record
of `d`: the qid, the mode, the two times, the length and the five strings. -/
def statsz (d : Dir) : Nat :=
  13 + 4 + 4 + 4 + 8 + (2 + d.Name.length) + (2 + d.Uid.length) + (2 + d.Gid.length)
    + (2 + d.Muid.length) + (2 + d.ExtAttr.length)

/-- Modelled from the spec: `pstat(d, buf)` writes the stat record of `d`, its
fields in the order of the data model. -/
def pstat (d : Dir) (c : Fcall × Slice) : Run (Fcall × Slice) :=
  (pqid d.Qid c).bind fun c => (pint32 d.Mode c).bind fun c => (pint32 d.Atime c).bind fun c =>
    (pint32 d.Mtime c).bind fun c => (pint64 d.Length c).bind fun c => (pstr d.Name c).bind fun c =>
      (pstr d.Uid c).bind fun c => (pstr d.Gid c).bind fun c => (pstr d.Muid c).bind fun c =>
        pstr d.ExtAttr c

/-- Modelled from the spec: the error of `packCommon` when the size of the
frame does not fit the 32-bit size field ("size overflow"). -/
def ErrSize : GoError := GoError.other [115, 105, 122, 101]

/-- Modelled from the spec: the error of `packCommon` when the `Fcall` has no
buffer for the frame ("no buffer"). -/
def ErrNoBuf : GoError := GoError.other [110, 111, 32, 98, 117, 102]

/-- Modelled from the spec: `fc.packCommon(size, id)` frames a message with
`size` bytes of fields: it fails when the frame size `size + 7` does not fit
the size field or the buffer of `fc`; otherwise it sets the size, the type and
the tag `NOTAG` of `fc`, writes them as `size[4] type[1] tag[2]`, makes `Pkt`
the frame and returns the rest of the buffer after the header. -/
def packCommon (fc : Fcall) (size : Nat) (id : Nat) : Except GoError (Fcall × Slice) :=
  let size := size + 4 + 1 + 2
  if 2 ^ 32 ≤ size then Except.error ErrSize
  else if fc.Buf.length < size then Except.error ErrNoBuf
  else
    Except.ok
      ({ fc with
          FcSize := size, Typ := id, Tag := NOTAG, Pkt := ⟨0, size⟩,
          Buf := le 4 size ++ le 1 id ++ le 2 NOTAG ++ fc.Buf.drop 7 },
        ⟨7, fc.Buf.length - 7⟩)

/-- The method `packRversion(msize, version)`: the `Fcall` after the call and
the error returned. -/
def packRversion (fc : Fcall) (msize : Nat) (version : GoString) : Run (Fcall × Option GoError) :=
  let size := 4 + 2 + version.length
  match packCommon fc size Rversion with
  | Except.error err => Run.done (fc, some err)
  | Except.ok (fc, p) =>
    let fc := { fc with Msize := msize }
    let fc := { fc with Version := version }
    ((pint32 msize (fc, p)).bind (pstr version)).bind fun c => Run.done (c.1, none)

/-- The method `packRauth(aqid)`. -/
def packRauth (fc : Fcall) (aqid : Qid) : Run (Fcall × Option GoError) :=
  let size := 13
  match packCommon fc size Rauth with
  | Except.error err => Run.done (fc, some err)
  | Except.ok (fc, p) =>
    let fc := { fc with Qid := aqid }
    (pqid aqid (fc, p)).bind fun c => Run.done (c.1, none)

/-- The method `packRerror(err)`. -/
def packRerror (fc : Fcall) (err : WarpError) : Run (Fcall × Option GoError) :=
  let size := 2
  match packCommon fc size Rerror with
  | Except.error locerr => Run.done (fc, some locerr)
  | Except.ok (fc, p) =>
    let fc := { fc with Error := some err }
    (perr err (fc, p)).bind fun c => Run.done (c.1, none)

/-- The method `packRflush()`. -/
def packRflush (fc : Fcall) : Run (Fcall × Option GoError) :=
  match packCommon fc 0 Rflush with
  | Except.error err => Run.done (fc, some err)
  | Except.ok (fc, _) => Run.done (fc, none)

/-- The method `packRattach(aqid)`. -/
def packRattach (fc : Fcall) (aqid : Qid) : Run (Fcall × Option GoError) :=
  let size := 13
  match packCommon fc size Rattach with
  | Except.error err => Run.done (fc, some err)
  | Except.ok (fc, p) =>
    let fc := { fc with Qid := aqid }
    (pqid aqid (fc, p)).bind fun c => Run.done (c.1, none)

/-- The method `packRwalk(wqid)`. -/
def packRwalk (fc : Fcall) (wqid : Qid) : Run (Fcall × Option GoError) :=
  let size := 13
  match packCommon fc size Rwalk with
  | Except.error err => Run.done (fc, some err)
  | Except.ok (fc, p) =>
    let fc := { fc with Qid := wqid }
    (pqid wqid (fc, p)).bind fun c => Run.done (c.1, none)

/-- The method `packRopen(qid, iounit)`. -/
def packRopen (fc : Fcall) (qid : Qid) (iounit : Nat) : Run (Fcall × Option GoError) :=
  let size := 13 + 4
  match packCommon fc size Ropen with
  | Except.error err => Run.done (fc, some err)
  | Except.ok (fc, p) =>
    let fc := { fc with Qid := qid }
    let fc := { fc with Iounit := iounit }
    ((pqid qid (fc, p)).bind (pint32 iounit)).bind fun c => Run.done (c.1, none)

/-- The method `packRcreate(qid, iounit)`. -/
def packRcreate (fc : Fcall) (qid : Qid) (iounit : Nat) : Run (Fcall × Option GoError) :=
  let size := 13 + 4
  match packCommon fc size Rcreate with
  | Except.error err => Run.done (fc, some err)
  | Except.ok (fc, p) =>
    let fc := { fc with Qid := qid }
    let fc := { fc with Iounit := iounit }
    ((pqid qid (fc, p)).bind (pint32 iounit)).bind fun c => Run.done (c.1, none)

/-- The method `InitRread(count)`, with `count` a `uint32`: `4 + count` and
`fc.Count + 4` are computed in 32 bits, and the slice expression
`p[4 : fc.Count+4]` faults unless `4 <= fc.Count+4 <= cap(p)`. -/
def InitRread (fc : Fcall) (count : Nat) : Run (Fcall × Option GoError) :=
  let size := (4 + count) % 2 ^ 32
  match packCommon fc size Rread with
  | Except.error err => Run.done (fc, some err)
  | Except.ok (fc, p) =>
    let fc := { fc with Count := count }
    let hi := (fc.Count + 4) % 2 ^ 32
    if 4 ≤ hi ∧ hi ≤ p.len then
      let fc := { fc with Data := ⟨p.off + 4, hi - 4⟩ }
      (pint32 count (fc, p)).bind fun c => Run.done (c.1, none)
    else Run.fault

/-- The method `packRread(data)`: `copy(fc.Data, data)` copies as many bytes
as the shorter of the two slices has. -/
def packRread (fc : Fcall) (data : List Nat) : Run (Fcall × Option GoError) :=
  let count := data.length % 2 ^ 32
  (InitRread fc count).bind fun r =>
    match r.2 with
    | some err => Run.done (r.1, some err)
    | none =>
      let fc := r.1
      let n := min fc.Data.len data.length
      Run.done
        ({ fc with Buf := fc.Buf.take fc.Data.off ++ data.take n ++ fc.Buf.drop (fc.Data.off + n) },
          none)

/-- The method `packRwrite(count)`. -/
def packRwrite (fc : Fcall) (count : Nat) : Run (Fcall × Option GoError) :=
  match packCommon fc 4 Rwrite with
  | Except.error err => Run.done (fc, some err)
  | Except.ok (fc, p) =>
    let fc := { fc with Count := count }
    (pint32 count (fc, p)).bind fun c => Run.done (c.1, none)

/-- The method `packRclunk()`. -/
def packRclunk (fc : Fcall) : Run (Fcall × Option GoError) :=
  match packCommon fc 0 Rclunk with
  | Except.error err => Run.done (fc, some err)
  | Except.ok (fc, _) => Run.done (fc, none)

/-- The method `packRremove()`. -/
def packRremove (fc : Fcall) : Run (Fcall × Option GoError) :=
  match packCommon fc 0 Rremove with
  | Except.error err => Run.done (fc, some err)
  | Except.ok (fc, _) => Run.done (fc, none)

/-- The method `packRstat(d)`. -/
def packRstat (fc : Fcall) (d : Dir) : Run (Fcall × Option GoError) :=
  let stsz := statsz d
  let size := 2 + stsz
  match packCommon fc size Rstat with
  | Except.error err => Run.done (fc, some err)
  | Except.ok (fc, p) =>
    ((pint16 (stsz % 2 ^ 16) (fc, p)).bind (pstat d)).bind fun c =>
      Run.done ({ c.1 with Dir := d }, none)

/-- The method `packRwstat()`. -/
def packRwstat (fc : Fcall) : Run (Fcall × Option GoError) :=
  match packCommon fc 0 Rwstat with
  | Except.error err => Run.done (fc, some err)
  | Except.ok (fc, _) => Run.done (fc, none)

/-- The response variants, each with the arguments of its packer: a message
value of the spec. -/
inductive Msg where
  | Rversion (msize : Nat) (version : GoString)
  | Rauth (aqid : Qid)
  | Rerror (err : WarpError)
  | Rflush
  | Rattach (aqid : Qid)
  | Rwalk (wqid : Qid)
  | Ropen (qid : Qid) (iounit : Nat)
  | Rcreate (qid : Qid) (iounit : Nat)
  | Rread (data : List Nat)
  | Rwrite (count : Nat)
  | Rclunk
  | Rremove
  | Rstat (d : Dir)
  | Rwstat
  deriving DecidableEq

/-- The packer of each response variant, on the `Fcall` it packs into. -/
def pack (fc : Fcall) : Msg → Run (Fcall × Option GoError)
  | Msg.Rversion msize version => packRversion fc msize version
  | Msg.Rauth aqid => packRauth fc aqid
  | Msg.Rerror err => packRerror fc err
  | Msg.Rflush => packRflush fc
  | Msg.Rattach aqid => packRattach fc aqid
  | Msg.Rwalk wqid => packRwalk fc wqid
  | Msg.Ropen qid iounit => packRopen fc qid iounit
  | Msg.Rcreate qid iounit => packRcreate fc qid iounit
  | Msg.Rread data => packRread fc data
  | Msg.Rwrite count => packRwrite fc count
  | Msg.Rclunk => packRclunk fc
  | Msg.Rremove => packRremove fc
  | Msg.Rstat d => packRstat fc d
  | Msg.Rwstat => packRwstat fc

/-- The message an `Fcall` holds: the variant of its type with the fields of
that variant; the data of an `Rread` are the bytes of the slice `Data`. -/
def Fcall.msg (fc : Fcall) : Option Msg :=
  if fc.Typ = Rversion then some (Msg.Rversion fc.Msize fc.Version)
  else if fc.Typ = Rauth then some (Msg.Rauth fc.Qid)
  else if fc.Typ = Rerror then fc.Error.map Msg.Rerror
  else if fc.Typ = Rflush then some Msg.Rflush
  else if fc.Typ = Rattach then some (Msg.Rattach fc.Qid)
  else if fc.Typ = Rwalk then some (Msg.Rwalk fc.Qid)
  else if fc.Typ = Ropen then some (Msg.Ropen fc.Qid fc.Iounit)
  else if fc.Typ = Rcreate then some (Msg.Rcreate fc.Qid fc.Iounit)
  else if fc.Typ = Rread then some (Msg.Rread (fc.bytes fc.Data))
  else if fc.Typ = Rwrite then some (Msg.Rwrite fc.Count)
  else if fc.Typ = Rclunk then some Msg.Rclunk
  else if fc.Typ = Rremove then some Msg.Rremove
  else if fc.Typ = Rstat then some (Msg.Rstat fc.Dir)
  else if fc.Typ = Rwstat then some Msg.Rwstat
  else none

/-- A qid whose fields fit their widths. -/
def Qid.Valid (q : Qid) : Prop := q.Typ < 2 ^ 8 ∧ q.Version < 2 ^ 32 ∧ q.Path < 2 ^ 64

/-- A stat record whose fields fit their widths, whose strings fit the 16-bit
string length and whose size fits the 16-bit size of the record. -/
def Dir.Valid (d : Dir) : Prop :=
  d.Qid.Valid ∧ d.Mode < 2 ^ 32 ∧ d.Atime < 2 ^ 32 ∧ d.Mtime < 2 ^ 32 ∧ d.Length < 2 ^ 64
    ∧ d.Name.length < 2 ^ 16 ∧ d.Uid.length < 2 ^ 16 ∧ d.Gid.length < 2 ^ 16
    ∧ d.Muid.length < 2 ^ 16 ∧ d.ExtAttr.length < 2 ^ 16 ∧ statsz d < 2 ^ 16

/-- A valid message value: the fields fit their widths on the wire, and the
frame of a read response fits the 32-bit size field. -/
def Msg.Valid : Msg → Prop
  | Msg.Rversion msize version => msize < 2 ^ 32 ∧ version.length < 2 ^ 16
  | Msg.Rauth aqid => aqid.Valid
  | Msg.Rerror err => err.errcode < 2 ^ 16
  | Msg.Rflush => True
  | Msg.Rattach aqid => aqid.Valid
  | Msg.Rwalk wqid => wqid.Valid
  | Msg.Ropen qid iounit => qid.Valid ∧ iounit < 2 ^ 32
  | Msg.Rcreate qid iounit => qid.Valid ∧ iounit < 2 ^ 32
  | Msg.Rread data => data.length + 11 < 2 ^ 32
  | Msg.Rwrite count => count < 2 ^ 32
  | Msg.Rclunk => True
  | Msg.Rremove => True
  | Msg.Rstat d => d.Valid
  | Msg.Rwstat => True

instance Qid.decValid (q : Qid) : Decidable q.Valid :=
  inferInstanceAs (Decidable (q.Typ < 2 ^ 8 ∧ q.Version < 2 ^ 32 ∧ q.Path < 2 ^ 64))

instance Dir.decValid (d : Dir) : Decidable d.Valid :=
  inferInstanceAs (Decidable (d.Qid.Valid ∧ d.Mode < 2 ^ 32 ∧ d.Atime < 2 ^ 32
    ∧ d.Mtime < 2 ^ 32 ∧ d.Length < 2 ^ 64 ∧ d.Name.length < 2 ^ 16 ∧ d.Uid.length < 2 ^ 16
    ∧ d.Gid.length < 2 ^ 16 ∧ d.Muid.length < 2 ^ 16 ∧ d.ExtAttr.length < 2 ^ 16
    ∧ statsz d < 2 ^ 16))

instance Msg.decValid : (m : Msg) → Decidable m.Valid
  | Msg.Rversion msize version =>
    inferInstanceAs (Decidable (msize < 2 ^ 32 ∧ version.length < 2 ^ 16))
  | Msg.Rauth aqid => inferInstanceAs (Decidable aqid.Valid)
  | Msg.Rerror err => inferInstanceAs (Decidable (err.errcode < 2 ^ 16))
  | Msg.Rflush => inferInstanceAs (Decidable True)
  | Msg.Rattach aqid => inferInstanceAs (Decidable aqid.Valid)
  | Msg.Rwalk wqid => inferInstanceAs (Decidable wqid.Valid)
  | Msg.Ropen qid iounit => inferInstanceAs (Decidable (qid.Valid ∧ iounit < 2 ^ 32))
  | Msg.Rcreate qid iounit => inferInstanceAs (Decidable (qid.Valid ∧ iounit < 2 ^ 32))
  | Msg.Rread data => inferInstanceAs (Decidable (data.length + 11 < 2 ^ 32))
  | Msg.Rwrite count => inferInstanceAs (Decidable (count < 2 ^ 32))
  | Msg.Rclunk => inferInstanceAs (Decidable True)
  | Msg.Rremove => inferInstanceAs (Decidable True)
  | Msg.Rstat d => inferInstanceAs (Decidable d.Valid)
  | Msg.Rwstat => inferInstanceAs (Decidable True)

/-- The number of bytes of the fields of a message on the wire, as its packer
declares it. -/
def Msg.size : Msg → Nat
  | Msg.Rversion _ version => 4 + 2 + version.length
  | Msg.Rauth _ => 13
  | Msg.Rerror _ => 2
  | Msg.Rflush => 0
  | Msg.Rattach _ => 13
  | Msg.Rwalk _ => 13
  | Msg.Ropen _ _ => 13 + 4
  | Msg.Rcreate _ _ => 13 + 4
  | Msg.Rread data => 4 + data.length
  | Msg.Rwrite _ => 4
  | Msg.Rclunk => 0
  | Msg.Rremove => 0
  | Msg.Rstat d => 2 + statsz d
  | Msg.Rwstat => 0

/-- What the wire carries of a message: all of it, except that of the error
of an `Rerror` it carries the error code and not the message string. -/
def Msg.onWire : Msg → Msg
  | Msg.Rerror err => Msg.Rerror ⟨err.errcode, []⟩
  | m => m

/-- Modelled from the spec: the decoder of an integer of `n` bytes,
little-endian: the value and the rest of the bytes. -/
def gint (n : Nat) (b : List Nat) : Option (Nat × List Nat) :=
  if n ≤ b.length then some (unle (b.take n), b.drop n) else none

/-- Modelled from the spec: the decoder of a string `length[2] bytes[length]`. -/
def gstr (b : List Nat) : Option (GoString × List Nat) :=
  (gint 2 b).bind fun n =>
    if n.1 ≤ n.2.length then some (n.2.take n.1, n.2.drop n.1) else none

/-- Modelled from the spec: the decoder of a qid `type[1] version[4] path[8]`. -/
def gqid (b : List Nat) : Option (Qid × List Nat) :=
  (gint 1 b).bind fun t => (gint 4 t.2).bind fun v => (gint 8 v.2).bind fun p =>
    some (⟨t.1, v.1, p.1⟩, p.2)

/-- Modelled from the spec: the decoder of a stat record, the inverse of
`pstat`. -/
def gstat (b : List Nat) : Option (Dir × List Nat) :=
  (gqid b).bind fun q => (gint 4 q.2).bind fun mode => (gint 4 mode.2).bind fun atime =>
    (gint 4 atime.2).bind fun mtime => (gint 8 mtime.2).bind fun length =>
      (gstr length.2).bind fun name => (gstr name.2).bind fun uid => (gstr uid.2).bind fun gid =>
        (gstr gid.2).bind fun muid => (gstr muid.2).bind fun extattr =>
          some ({ Qid := q.1, Mode := mode.1, Atime := atime.1, Mtime := mtime.1,
                  Length := length.1, Name := name.1, Uid := uid.1, Gid := gid.1,
                  Muid := muid.1, ExtAttr := extattr.1 }, extattr.2)

/-- An `Fcall` with every field zero. -/
def Fcall.zero : Fcall :=
  { FcSize := 0, Typ := 0, Tag := 0, Msize := 0, Version := [], Qid := ⟨0, 0, 0⟩, Error := none,
    Iounit := 0, Count := 0, Data := ⟨0, 0⟩,
    Dir := { Qid := ⟨0, 0, 0⟩, Mode := 0, Atime := 0, Mtime := 0, Length := 0,
             Name := [], Uid := [], Gid := [], Muid := [], ExtAttr := [] },
    Pkt := ⟨0, 0⟩, Buf := [] }

/-- Modelled from the spec: the part of `Unpack` that decodes the fields of
the variant `fc.Typ` from the bytes `p` after the header. Fields that are too
short, bytes left over or an unknown type make the frame malformed (`none`).
Of an `Rerror` the frame carries the error code only; the data of an `Rread`
are a slice of the buffer. -/
def Unpack.fields (fc : Fcall) (p : List Nat) : Option Fcall :=
  if fc.Typ = Rversion then
    (gint 4 p).bind fun m => (gstr m.2).bind fun v =>
      if v.2 = [] then some { fc with Msize := m.1, Version := v.1 } else none
  else if fc.Typ = Rauth ∨ fc.Typ = Rattach ∨ fc.Typ = Rwalk then
    (gqid p).bind fun q => if q.2 = [] then some { fc with Qid := q.1 } else none
  else if fc.Typ = Rerror then
    (gint 2 p).bind fun e =>
      if e.2 = [] then some { fc with Error := some ⟨e.1, []⟩ } else none
  else if fc.Typ = Rflush ∨ fc.Typ = Rclunk ∨ fc.Typ = Rremove ∨ fc.Typ = Rwstat then
    if p = [] then some fc else none
  else if fc.Typ = Ropen ∨ fc.Typ = Rcreate then
    (gqid p).bind fun q => (gint 4 q.2).bind fun io =>
      if io.2 = [] then some { fc with Qid := q.1, Iounit := io.1 } else none
  else if fc.Typ = Rread then
    (gint 4 p).bind fun n =>
      if n.1 = n.2.length then some { fc with Count := n.1, Data := ⟨11, n.1⟩ } else none
  else if fc.Typ = Rwrite then
    (gint 4 p).bind fun n => if n.2 = [] then some { fc with Count := n.1 } else none
  else if fc.Typ = Rstat then
    (gint 2 p).bind fun n =>
      if n.1 ≠ n.2.length then none
      else (gstat n.2).bind fun d => if d.2 = [] then some { fc with Dir := d.1 } else none
  else none

/-- Modelled from the spec: `Unpack(buf)` decodes a response frame into an
`Fcall`: the header `size[4] type[1] tag[2]`, then the fields of the variant.
A frame whose declared size is not the size of the buffer received is
malformed (`none`). -/
def Unpack (buf : List Nat) : Option Fcall :=
  (gint 4 buf).bind fun sz => (gint 1 sz.2).bind fun ty => (gint 2 ty.2).bind fun tg =>
    if sz.1 ≠ buf.length then none
    else
      Unpack.fields
        { Fcall.zero with
          FcSize := sz.1, Typ := ty.1, Tag := tg.1, Pkt := ⟨0, sz.1⟩, Buf := buf }
        tg.2

/-- The bytes `pstr` writes for a string. -/
def encStr (val : GoString) : List Nat :=
  le 2 (val.length % 2 ^ 16) ++ val.take (val.length % 2 ^ 16)

/-- The bytes `pqid` writes for a qid. -/
def encQid (q : Qid) : List Nat := le 1 q.Typ ++ le 4 q.Version ++ le 8 q.Path

/-- The bytes `pstat` writes for a stat record. -/
def encStat (d : Dir) : List Nat :=
  encQid d.Qid ++ le 4 d.Mode ++ le 4 d.Atime ++ le 4 d.Mtime ++ le 8 d.Length ++ encStr d.Name
    ++ encStr d.Uid ++ encStr d.Gid ++ encStr d.Muid ++ encStr d.ExtAttr

/-- The frame of a message of type `id` with the field bytes `body`. -/
def frame (id : Nat) (body : List Nat) : List Nat :=
  le 4 (body.length + 7) ++ le 1 id ++ le 2 NOTAG ++ body

/-- The type byte of each variant. -/
def Msg.typ : Msg → Nat
  | Msg.Rversion _ _ => Warp9.Rversion
  | Msg.Rauth _ => Warp9.Rauth
  | Msg.Rerror _ => Warp9.Rerror
  | Msg.Rflush => Warp9.Rflush
  | Msg.Rattach _ => Warp9.Rattach
  | Msg.Rwalk _ => Warp9.Rwalk
  | Msg.Ropen _ _ => Warp9.Ropen
  | Msg.Rcreate _ _ => Warp9.Rcreate
  | Msg.Rread _ => Warp9.Rread
  | Msg.Rwrite _ => Warp9.Rwrite
  | Msg.Rclunk => Warp9.Rclunk
  | Msg.Rremove => Warp9.Rremove
  | Msg.Rstat _ => Warp9.Rstat
  | Msg.Rwstat => Warp9.Rwstat

/-- The field bytes of each variant, as its packer writes them one after the
other. -/
def Msg.body : Msg → List Nat
  | Msg.Rversion msize version => le 4 msize ++ encStr version
  | Msg.Rauth aqid => encQid aqid
  | Msg.Rerror err => le 2 err.errcode
  | Msg.Rflush => []
  | Msg.Rattach aqid => encQid aqid
  | Msg.Rwalk wqid => encQid wqid
  | Msg.Ropen qid iounit => encQid qid ++ le 4 iounit
  | Msg.Rcreate qid iounit => encQid qid ++ le 4 iounit
  | Msg.Rread data => le 4 (data.length % 2 ^ 32) ++ data
  | Msg.Rwrite count => le 4 count
  | Msg.Rclunk => []
  | Msg.Rremove => []
  | Msg.Rstat d => le 2 (statsz d % 2 ^ 16) ++ encStat d
  | Msg.Rwstat => []

/-- The writer `W` writes the bytes `e`: on a slice that starts inside the
buffer it is the assignment of `e`. -/
def IsPut (W : Fcall × Slice → Run (Fcall × Slice)) (e : List Nat) : Prop :=
  ∀ c : Fcall × Slice, c.2.off ≤ c.1.Buf.length → W c = put e c

/-! ## The two-phase read response -/

/-- The slice expression `s[lo:hi]` on a slice of the buffer of `fc`: it
faults (`none`) unless `lo <= hi <= cap(s)`; the capacity of a slice reaches
to the end of the buffer. -/
def reslice (fc : Fcall) (s : Slice) (lo hi : Nat) : Option Slice :=
  if lo ≤ hi ∧ s.off + hi ≤ fc.Buf.length then some ⟨s.off + lo, hi - lo⟩ else none

/-- The slice expression `s[lo:]`: it faults (`none`) unless `lo <= len(s)`. -/
def resliceFrom (s : Slice) (lo : Nat) : Option Slice :=
  if lo ≤ s.len then some ⟨s.off + lo, s.len - lo⟩ else none

/-- The builtin `copy(dst, src)` on a slice `dst` of the buffer of `fc`: as
many bytes as the shorter of the two has are written. -/
def copyTo (fc : Fcall) (dst : Slice) (src : List Nat) : Fcall :=
  let n := min dst.len src.length
  { fc with Buf := fc.Buf.take dst.off ++ src.take n ++ fc.Buf.drop (dst.off + n) }

/-- The method `SetRreadCount(count)`, with `count` a `uint32`: the size is
computed in 32 bits; the two `pint32` write through `fc.Pkt` and
`fc.Pkt[7:]`, and the two slice expressions at the end can fault. -/
def SetRreadCount (fc : Fcall) (count : Nat) : Run Fcall :=
  let size := (4 + 1 + 2 + 4 + count) % 2 ^ 32
  (pint32 size (fc, fc.Pkt)).bind fun c1 =>
    let fc := c1.1
    match resliceFrom fc.Pkt 7 with
    | none => Run.fault
    | some p7 =>
      (pint32 count (fc, p7)).bind fun c2 =>
        let fc := c2.1
        let fc := { fc with FcSize := size }
        let fc := { fc with Count := count }
        match reslice fc fc.Pkt 0 size with
        | none => Run.fault
        | some pkt =>
          let fc := { fc with Pkt := pkt }
          match reslice fc fc.Data 0 count with
          | none => Run.fault
          | some d => Run.done { fc with Data := d }

/-! ## The client: the names of a path

`clnt_walk.go` resolves a path with `Walk`. The names it walks are computed at
its head: a loop skips the leading separators, the library function
`strings.Split` cuts the rest at every '/' (the byte 47), and a second loop
moves the non-empty names to the front of the slice, which is then cut to
them. -/

/-- The first loop of `Walk`: `for i = 0; i < len(path); i++` that breaks at
the first byte that is not '/'; the result is the final `i`. -/
def Walk.skip : GoString → Nat
  | [] => 0
  | c :: path => if c ≠ 47 then 0 else Walk.skip path + 1

/-- The library function `strings.Split(s, sep)` for a separator `sep` of one
byte: the substrings of `s` between the separators, in order; a string without
separator, the empty one too, gives the list of that one string. -/
def Split : GoString → Nat → List GoString
  | [], _ => [[]]
  | c :: s, sep =>
    if c = sep then [] :: Split s sep
    else
      match Split s sep with
      | [] => [[c]]
      | w :: ws => (c :: w) :: ws

/-- The second loop of `Walk`, `for i, m = 0, 0; i < len(wnames); i++`, with
`k` iterations left: a non-empty `wnames[i]` is assigned to `wnames[m]` and
`m` incremented. The result is the slice and `m` after the loop. -/
def Walk.compact : Nat → List GoString → Nat → Nat → List GoString × Nat
  | 0, wnames, _, m => (wnames, m)
  | k + 1, wnames, i, m =>
    if wnames.getD i [] ≠ [] then
      Walk.compact k (wnames.set m (wnames.getD i [])) (i + 1) (m + 1)
    else Walk.compact k wnames (i + 1) m

/-- The names `Walk(path)` walks: the value of `wnames` after
`wnames = wnames[0:m]`. -/
def Walk.names (path : GoString) : List GoString :=
  let i := Walk.skip path
  let path := if i > 0 then path.drop i else path
  let wnames := Split path 47
  let r := Walk.compact wnames.length wnames 0 0
  r.1.take r.2

/-- The components of a path, in the words of the specification: the maximal
non-empty substrings between the separators '/'. A path is empty and has no
component, or starts with a separator that contributes nothing, or is one
non-empty name without separator, or is such a name, a separator and the rest
of the path. -/
inductive Components : GoString → List GoString → Prop
  | nil : Components [] []
  | sep (p : GoString) (ws : List GoString) : Components p ws → Components (47 :: p) ws
  | last (w : GoString) : w ≠ [] → 47 ∉ w → Components w [w]
  | word (w p : GoString) (ws : List GoString) :
      w ≠ [] → 47 ∉ w → Components p ws → Components (w ++ 47 :: p) (w :: ws)

/-! ## The client: walk and create

`clnt_walk.go` and `clnt_open.go` use the types `Clnt`, `Fid`, `File` and
`W9Err`, the constant `IOHDRSZ`, the request packers `packTwalk`, `packTopen`
and `packTcreate` and the methods `FidAlloc`, `Rpc` and `Clunk`, which are
declared in other files of the package. The types and the two methods
`FidAlloc` and `Clunk` are modelled from the specification of the handle
lifecycle; the packers, the answers of `Rpc` and the constant are parameters
(`Env`).

A Go pointer `*Fid` is the address of a `Fid` in the heap `fids` of the
client. The client keeps two records of what happened: the requests handed to
`Rpc` and the calls of `Clunk`.

`clnt_open.go` declares its errors as `error` and tests them against `nil`,
`clnt_walk.go` declares them as `W9Err` and tests them against `Egood`; here
both are `W9Err`, and `nil` is `Egood`. The call `clnt.FWalk(path)` of
`FCreate` is the walk of a path, the method `Walk(path)` of `clnt_walk.go`. -/

/-- Modelled from the spec: the type `W9Err`, an error number. -/
abbrev W9Err := Nat

/-- Modelled from the spec: the value `Egood` of `W9Err`, "no error". -/
def Egood : W9Err := 0

/-- Modelled from the spec: the client-side type `Fid`, with the fields that
`Walk`, `Open` and `Create` assign: the handle number `Fid`, the qid, the
user, the flag `walked`, and the iounit and mode of an open handle. -/
structure Fid where
  Fid : Nat
  Qid : Qid
  User : Option User
  walked : Bool
  Iounit : Nat
  Mode : Nat
  deriving DecidableEq

/-- A request handed to `Rpc`: the arguments `packTwalk`, `packTopen` or
`packTcreate` packed into it. -/
inductive Req where
  | Twalk (fid newfid : Nat) (wnames : List GoString)
  | Topen (fid : Nat) (mode : Nat)
  | Tcreate (fid : Nat) (name : GoString) (perm mode : Nat) (extattr : GoString)
  deriving DecidableEq

/-- What the client code takes from outside: the constant `IOHDRSZ`, the error
each request packer returns on its arguments, and the error and the response
`Rpc` returns for a request, given the requests handed to it before. -/
structure Env where
  IOHDRSZ : Nat
  packTwalk : Nat → Nat → List GoString → W9Err
  packTopen : Nat → Nat → W9Err
  packTcreate : Nat → GoString → Nat → Nat → GoString → W9Err
  Rpc : List Req → Req → W9Err × Fcall

/-- Modelled from the spec: the type `Clnt`: the negotiated `Msize`, the
pointer `Root`, the heap of `Fid` values with the address `top` of the next one,
the pool of the handle numbers in use, and the records `rpcs` (requests handed
to `Rpc`, oldest first) and `clunks` (addresses `Clunk` was called on). -/
structure Clnt where
  Msize : Nat
  Root : Option Nat
  fids : Nat → Fid
  top : Nat
  pool : List Nat
  rpcs : List Req
  clunks : List Nat

/-- Assignment to the fields of the `Fid` at address `a`. -/
def Clnt.modify (c : Clnt) (a : Nat) (g : Fid → Fid) : Clnt :=
  { c with fids := fun b => if b = a then g (c.fids a) else c.fids b }

/-- The least handle number that is not in the pool. -/
def freeId (pool : List Nat) : Nat :=
  ((List.range (pool.length + 1)).find? fun n => decide (n ∉ pool)).getD pool.length

/-- Modelled from the spec: `clnt.FidAlloc()` allocates a new `Fid` whose
handle number is not in use, marks the number as in use and returns the
pointer. -/
def FidAlloc (c : Clnt) : Clnt × Nat :=
  let id := freeId c.pool
  ({ c with
      fids := fun b => if b = c.top then ⟨id, ⟨0, 0, 0⟩, none, false, 0, 0⟩ else c.fids b,
      top := c.top + 1, pool := id :: c.pool },
    c.top)

/-- Modelled from the spec: `clnt.Clunk(fid)` releases the handle: its number
leaves the pool. The call is recorded. A nil `fid` is a fault. -/
def Clunk (c : Clnt) (fid : Option Nat) : Run Clnt :=
  match fid with
  | none => Run.fault
  | some a =>
    Run.done { c with pool := c.pool.erase (c.fids a).Fid, clunks := c.clunks ++ [a] }

/-- The label `error:` of `Walk`: `clnt.Clunk(newfid); return nil, err`. -/
def Walk.error (c : Clnt) (newfid : Nat) (err : W9Err) : Run (Clnt × Option Nat × W9Err) :=
  (Clunk c (some newfid)).bind fun c => Run.done (c, none, err)

/-- The loop `for { ... }` of `Walk`, from its head, with `fid` and `wnames`
as they are there: a batch of at most 16 names is packed and handed to `Rpc`;
an error of either leaves through the label `error:`; otherwise `newfid` is
marked walked and takes the qid of the response, and the loop ends when no
name is left. -/
def Walk.loop (e : Env) (newfid : Nat) :
    Nat → Clnt → Nat → List GoString → Run (Clnt × Option Nat × W9Err)
  | 0, _, _, _ => Run.diverge
  | fuel + 1, c, fid, wnames =>
    let n := if wnames.length > 16 then 16 else wnames.length
    let err := e.packTwalk (c.fids fid).Fid (c.fids newfid).Fid (wnames.take n)
    if err ≠ Egood then Walk.error c newfid err
    else
      let tc := Req.Twalk (c.fids fid).Fid (c.fids newfid).Fid (wnames.take n)
      let r := e.Rpc c.rpcs tc
      let c := { c with rpcs := c.rpcs ++ [tc] }
      if r.1 ≠ Egood then Walk.error c newfid r.1
      else
        let c := c.modify newfid fun f => { f with walked := true }
        let c := c.modify newfid fun f => { f with Qid := r.2.Qid }
        let wnames := wnames.drop n
        let fid := newfid
        if wnames.length = 0 then Run.done (c, some newfid, Egood)
        else Walk.loop e newfid fuel c fid wnames

/-- The method `Walk(path)`: the client after the call, the pointer and the
error returned. The names are those of `Walk.names`; a nil `clnt.Root` is a
fault at `fid.User`. -/
def Walk (e : Env) (c : Clnt) (path : GoString) (fuel : Nat) :
    Run (Clnt × Option Nat × W9Err) :=
  let r := FidAlloc c
  let c := r.1
  let newfid := r.2
  match c.Root with
  | none => Run.fault
  | some fid =>
    let c := c.modify newfid fun f => { f with User := (c.fids fid).User }
    Walk.loop e newfid fuel c fid (Walk.names path)

/-- The names a request carries: those of a `Twalk`, none otherwise. -/
def Req.wnames : Req → List GoString
  | Req.Twalk _ _ wnames => wnames
  | Req.Topen _ _ => []
  | Req.Tcreate _ _ _ _ _ => []

/-- The answers of `Rpc` to the requests `rs`, handed to it one after the
other after the requests `sent`. -/
def Env.answers (e : Env) : List Req → List Req → List (W9Err × Fcall)
  | _, [] => []
  | sent, r :: rs => e.Rpc sent r :: e.answers (sent ++ [r]) rs

/-- The requests of a walk of the names `w` on which no step fails, from the
handle number `a` to the handle number `b`: batches of 16 names, the first from
`a`, the others from `b`; at most `k` of them. -/
def Walk.reqs (a b : Nat) : Nat → List GoString → List Req
  | 0, _ => []
  | k + 1, w =>
    Req.Twalk a b (w.take 16) :: (if w.length ≤ 16 then [] else Walk.reqs b b k (w.drop 16))

/-! ## The server: responding to a request

`srv_respond.go` packs a response into `req.Rc` and calls `req.Respond()`,
which is declared in another file of the package, as are the type `SrvReq`
and the error code `Eio`. -/

/-- Modelled from the spec: the error code `Eio` of an error that is not a
`*WarpError` (the number of the I/O error). -/
def Eio : Nat := 5

/-- Modelled from the spec: the type `SrvReq`, with the response `Rc` and a
record of what `Respond` handed to the write path of the connection. -/
structure SrvReq where
  Rc : Fcall
  written : List Fcall
  deriving DecidableEq

/-- Modelled from the spec: `req.Respond()` hands the response buffer `Rc` to
the write path of the connection; the record keeps the `Fcall` as it is then. -/
def Respond (req : SrvReq) : Run SrvReq :=
  Run.done { req with written := req.written ++ [req.Rc] }

/-- The function `RespondError(err)`, for an `err` that is not nil: the error
`packRerror` returns is dropped. -/
def RespondError (req : SrvReq) (err : GoError) : Run SrvReq :=
  let werr : WarpError :=
    match err with
    | GoError.warp w => w
    | GoError.other msg => ⟨Eio, msg⟩
  (packRerror req.Rc werr).bind fun r => Respond { req with Rc := r.1 }

/-- The body shared by the functions `RespondR...`: the result of the packer
on `req.Rc` decides between `req.RespondError(err)` and `req.Respond()`. -/
def respondWith (req : SrvReq) (packed : Run (Fcall × Option GoError)) : Run SrvReq :=
  packed.bind fun r =>
    match r.2 with
    | some err => RespondError { req with Rc := r.1 } err
    | none => Respond { req with Rc := r.1 }

/-- The function `RespondRversion(msize, version)`. -/
def RespondRversion (req : SrvReq) (msize : Nat) (version : GoString) : Run SrvReq :=
  respondWith req (packRversion req.Rc msize version)

/-- The function `RespondRauth(aqid)`. -/
def RespondRauth (req : SrvReq) (aqid : Qid) : Run SrvReq :=
  respondWith req (packRauth req.Rc aqid)

/-- The function `RespondRflush()`. -/
def RespondRflush (req : SrvReq) : Run SrvReq :=
  respondWith req (packRflush req.Rc)

/-- The function `RespondRattach(aqid)`. -/
def RespondRattach (req : SrvReq) (aqid : Qid) : Run SrvReq :=
  respondWith req (packRattach req.Rc aqid)

/-- The function `RespondRwalk(wqid)`. -/
def RespondRwalk (req : SrvReq) (wqid : Qid) : Run SrvReq :=
  respondWith req (packRwalk req.Rc wqid)

/-- The function `RespondRopen(qid, iounit)`. -/
def RespondRopen (req : SrvReq) (qid : Qid) (iounit : Nat) : Run SrvReq :=
  respondWith req (packRopen req.Rc qid iounit)

/-- The function `RespondRcreate(qid, iounit)`. -/
def RespondRcreate (req : SrvReq) (qid : Qid) (iounit : Nat) : Run SrvReq :=
  respondWith req (packRcreate req.Rc qid iounit)

/-- The function `RespondRread(data)`. -/
def RespondRread (req : SrvReq) (data : List Nat) : Run SrvReq :=
  respondWith req (packRread req.Rc data)

/-- The function `RespondRwrite(count)`. -/
def RespondRwrite (req : SrvReq) (count : Nat) : Run SrvReq :=
  respondWith req (packRwrite req.Rc count)

/-- The function `RespondRclunk()`. -/
def RespondRclunk (req : SrvReq) : Run SrvReq :=
  respondWith req (packRclunk req.Rc)

/-- The function `RespondRremove()`. -/
def RespondRremove (req : SrvReq) : Run SrvReq :=
  respondWith req (packRremove req.Rc)

/-- The function `RespondRstat(st)`. -/
def RespondRstat (req : SrvReq) (st : Dir) : Run SrvReq :=
  respondWith req (packRstat req.Rc st)

/-- The function `RespondRwstat()`. -/
def RespondRwstat (req : SrvReq) : Run SrvReq :=
  respondWith req (packRwstat req.Rc)

/-! ## The client: open and create -/

/-- Modelled from the spec: the type `File`, built in `clnt_open.go` as
`File{fid, 0}`: a handle and an offset. -/
structure File where
  fid : Option Nat
  offset : Nat
  deriving DecidableEq

/-- The assignments to `fid.Qid`, `fid.Iounit` and `fid.Mode` at the end of
`Open` and of `Create`, from the response `rc`; `clnt.Msize - IOHDRSZ` is a
difference of `uint32`. -/
def Clnt.opened (e : Env) (c : Clnt) (a : Nat) (rc : Fcall) (mode : Nat) : Clnt :=
  let c := c.modify a fun f => { f with Qid := rc.Qid }
  let c := c.modify a fun f => { f with Iounit := rc.Iounit }
  let lim := (c.Msize + 2 ^ 32 - e.IOHDRSZ % 2 ^ 32) % 2 ^ 32
  let c :=
    if (c.fids a).Iounit = 0 ∨ (c.fids a).Iounit > lim then
      c.modify a fun f => { f with Iounit := lim }
    else c
  c.modify a fun f => { f with Mode := mode }

/-- The method `Open(fid, mode)`: the client after the call and the error
returned. A nil `fid` is a fault. -/
def Open (e : Env) (c : Clnt) (fid : Option Nat) (mode : Nat) : Run (Clnt × W9Err) :=
  match fid with
  | none => Run.fault
  | some a =>
    let err := e.packTopen (c.fids a).Fid mode
    if err ≠ Egood then Run.done (c, err)
    else
      let tc := Req.Topen (c.fids a).Fid mode
      let r := e.Rpc c.rpcs tc
      let c := { c with rpcs := c.rpcs ++ [tc] }
      if r.1 ≠ Egood then Run.done (c, r.1)
      else Run.done (c.opened e a r.2 mode, Egood)

/-- The method `Create(fid, name, perm, mode, extattr)`: the client after the
call and the error returned. A nil `fid` is a fault. -/
def Create (e : Env) (c : Clnt) (fid : Option Nat) (name : GoString) (perm mode : Nat)
    (extattr : GoString) : Run (Clnt × W9Err) :=
  match fid with
  | none => Run.fault
  | some a =>
    let err := e.packTcreate (c.fids a).Fid name perm mode extattr
    if err ≠ Egood then Run.done (c, err)
    else
      let tc := Req.Tcreate (c.fids a).Fid name perm mode extattr
      let r := e.Rpc c.rpcs tc
      let c := { c with rpcs := c.rpcs ++ [tc] }
      if r.1 ≠ Egood then Run.done (c, r.1)
      else Run.done (c.opened e a r.2 mode, Egood)

/-- The library function `strings.LastIndex(s, sep)` for a separator `sep` of
one byte: the index of the last `sep` in `s`, or -1. -/
def LastIndex : GoString → Nat → Int
  | [], _ => -1
  | c :: s, sep =>
    if LastIndex s sep ≥ 0 then LastIndex s sep + 1 else if c = sep then 0 else -1

/-- The method `FCreate(path, perm, mode)`: the client after the call, the
file and the error returned. The index expression `path[n]` is a fault when
`n` is not below `len(path)`, the slice expressions `path[0:n]` and `path[n:]`
when `n` exceeds it. -/
def FCreate (e : Env) (c : Clnt) (path : GoString) (perm mode : Nat) (fuel : Nat) :
    Run (Clnt × Option File × W9Err) :=
  let n := LastIndex path 47
  let n := if n < 0 then 0 else n
  let n := n.toNat
  if path.length < n then Run.fault
  else
    (Walk e c (path.take n) fuel).bind fun r =>
      let c := r.1
      let fid := r.2.1
      if r.2.2 ≠ Egood then Run.done (c, none, r.2.2)
      else
        match path[n]? with
        | none => Run.fault
        | some b =>
          let n := if b = 47 then n + 1 else n
          if path.length < n then Run.fault
          else
            (Create e c fid (path.drop n) perm mode []).bind fun r =>
              let c := r.1
              if r.2 ≠ Egood then (Clunk c fid).bind fun c => Run.done (c, none, r.2)
              else Run.done (c, some ⟨fid, 0⟩, Egood)

/-- What `FCreate` does after the walk of the directory part `d` has returned
`r`, for the name `nm`: the error of the walk is returned; otherwise the name
is created on the handle of the walk, and the handle is clunked when that
fails. -/
def FCreate.rest (e : Env) (nm : GoString) (perm mode : Nat)
    (r : Clnt × Option Nat × W9Err) : Run (Clnt × Option File × W9Err) :=
  if r.2.2 ≠ Egood then Run.done (r.1, none, r.2.2)
  else
    (Create e r.1 r.2.1 nm perm mode []).bind fun r2 =>
      if r2.2 ≠ Egood then (Clunk r2.1 r.2.1).bind fun c => Run.done (c, none, r2.2)
      else Run.done (r2.1, some ⟨r.2.1, 0⟩, Egood)

/-! ## Example states -/

/-- A node with every field zero, as `new(W9File)` gives it. -/
def blank : W9File :=
  { Dir := { Qid := ⟨0, 0, 0⟩, Mode := 0, Atime := 0, Mtime := 0, Length := 0,
             Name := [], Uid := [], Gid := [], Muid := [], ExtAttr := [] },
    flags := 0, Parent := none, next := none, prev := none, cfirst := none, clast := none,
    ops := none }

/-- A store of zeroed nodes with the counter at its initial value. -/
def store0 : Store := { files := fun _ => blank, qnext := 0 }

/-- The name "etc". -/
def etc : GoString := [101, 116, 99]

/-- The store after `root.Add(nil, "/")`, with the root at address 0. -/
def storeRoot : Store :=
  match Add store0 0 none [47] none none 0o20000000755 none 0 1 with
  | Run.done r => r.1
  | _ => store0

/-- The store after a node at address 1 is added to the root as "etc". -/
def storeEtc : Store :=
  match Add storeRoot 1 (some 0) etc none none 0o20000000755 none 0 1 with
  | Run.done r => r.1
  | _ => store0

/-- The store after `Add` of the node at address 2 to the root, again as "etc",
has been rejected. -/
def storeRej : Store :=
  match Add storeEtc 2 (some 0) etc none none 0o644 none 0 2 with
  | Run.done r => r.1
  | _ => store0

/-- The three calls of `Add` that lead from `store0` to `storeRej`. -/
def exCalls : List AddCall :=
  [ ⟨0, none, [47], none, none, 0o20000000755, none, 0, 1⟩,
    ⟨1, some 0, etc, none, none, 0o20000000755, none, 0, 1⟩,
    ⟨2, some 0, etc, none, none, 0o644, none, 0, 2⟩ ]

/-- A file with mode 0o640, owner "a" (byte 97) and group "g" (byte 103). -/
def exFile : W9File :=
  { Dir := { Qid := ⟨0, 0, 0⟩, Mode := 0o640, Atime := 0, Mtime := 0, Length := 0,
             Name := [102], Uid := [97], Gid := [103], Muid := [], ExtAttr := [] },
    flags := 0, Parent := none, next := none, prev := none, cfirst := none, clast := none,
    ops := none }

/-- An `Fcall` with a zeroed buffer of 64 bytes. -/
def fc64 : Fcall := { Fcall.zero with Buf := List.replicate 64 0 }

/-- The error `WarpError{5, "x"}`. -/
def errX : WarpError := ⟨5, [120]⟩

/-- The error `WarpError{5, "y"}`. -/
def errY : WarpError := ⟨5, [121]⟩

/-- The `Fcall` that `InitRread(10)` leaves of `fc64`. -/
def fcRead : Fcall :=
  { fc64 with
    FcSize := 21, Typ := Rread, Tag := NOTAG, Count := 10, Pkt := ⟨0, 21⟩,
    Data := ⟨11, 10⟩,
    Buf := [21, 0, 0, 0, 117, 255, 255, 10, 0, 0, 0] ++ List.replicate 53 0 }

/-- A server that answers every request with the qid `(0, 0, 7)`, and packers
that accept every request. -/
def envOk : Env :=
  { IOHDRSZ := 24, packTwalk := fun _ _ _ => Egood, packTopen := fun _ _ => Egood,
    packTcreate := fun _ _ _ _ _ => Egood,
    Rpc := fun _ _ => (Egood, { Fcall.zero with Qid := ⟨0, 0, 7⟩ }) }

/-- A server that answers the second request handed to `Rpc` with the error 2. -/
def envFail : Env :=
  { envOk with
    Rpc := fun sent _ =>
      (if sent.length = 1 then 2 else Egood, { Fcall.zero with Qid := ⟨0, 0, 7⟩ }) }

/-- A client whose root handle, number 0, is at address 0. -/
def clnt0 : Clnt :=
  { Msize := 8192, Root := some 0, fids := fun _ => ⟨0, ⟨128, 0, 1⟩, none, true, 0, 0⟩, top := 1,
    pool := [0], rpcs := [], clunks := [] }

/-- The path of the 17 names "a", each after a '/'. -/
def path17 : GoString := (List.replicate 17 [47, 97]).flatten

/-- A request whose response buffer has 8 bytes, one less than an `Rerror`
takes. -/
def reqShort : SrvReq := { Rc := { Fcall.zero with Buf := List.replicate 8 0 }, written := [] }

/-- A server that answers every request with the qid `(0, 0, 7)` and the
iounit 4096. -/
def envIo : Env :=
  { envOk with Rpc := fun _ _ => (Egood, { Fcall.zero with Qid := ⟨0, 0, 7⟩, Iounit := 4096 }) }

/-- The store after, from `storeEtc`, a node at address 3 is added to the root
as "b", `Add` of the node at address 2 to the root as "etc" is rejected, and
`Remove` is called on the node at address 2 and then on the node at address 1:
the root has `cfirst` at the node "b" and `clast` nil. -/
def storeBroken : Store :=
  match (Add storeEtc 3 (some 0) [98] none none 0o644 none 0 3).bind fun r1 =>
      (Add r1.1 2 (some 0) etc none none 0o644 none 0 3).bind fun r2 =>
        (Remove r2.1 2).bind fun s3 => Remove s3 1 with
  | Run.done s => s
  | _ => store0

/-- A server that answers the third request handed to `Rpc`, and every later
one, with the error 2, and the first two with the qid `(0, 0, 7)`. -/
def envTwo : Env :=
  { envOk with
    Rpc := fun sent _ =>
      (if 2 ≤ sent.length then 2 else Egood, { Fcall.zero with Qid := ⟨0, 0, 7⟩ }) }

/-! # Theorems -/

/-! ## Bitwise facts -/

theorem and_or_of_and {a p : Nat} (b : Nat) (h : a &&& p = p) : (a ||| b) &&& p = p := by
  apply Nat.eq_of_testBit_eq
  intro i
  have hi := congrArg (fun n => n.testBit i) h
  simp only [Nat.testBit_and, Nat.testBit_or] at hi ⊢
  cases hp : p.testBit i <;> simp_all

theorem and_of_subset {a b c : Nat} (h : a &&& b = b) (hc : c &&& b = c) : a &&& c = c := by
  apply Nat.eq_of_testBit_eq
  intro i
  have hi := congrArg (fun n => n.testBit i) h
  have hci := congrArg (fun n => n.testBit i) hc
  simp only [Nat.testBit_and] at hi hci ⊢
  cases hb : b.testBit i <;> cases hcc : c.testBit i <;> simp_all

/-! ## CheckPerm -/

theorem groupLoop_eq (gid : GoString) (mode fperm : Nat) (gs : List Group) :
    CheckPerm.groupLoop gid mode fperm gs
      = fperm ||| (if ∃ g ∈ gs, gid = g.Name then (mode >>> 3) &&& 7 else 0) := by
  induction gs with
  | nil => simp [CheckPerm.groupLoop]
  | cons g gs ih =>
    by_cases hg : gid = g.Name
    · simp [CheckPerm.groupLoop, hg]
    · simp [CheckPerm.groupLoop, hg, ih]

theorem CheckPerm_some_iff (f : W9File) (u : User) (perm : Nat) :
    CheckPerm f (some u) perm = true ↔ permAcc f u &&& (perm &&& 7) = perm &&& 7 := by
  simp only [CheckPerm, permAcc, groupLoop_eq]
  by_cases h1 : (f.Dir.Mode &&& 7) &&& (perm &&& 7) = perm &&& 7
  · simp only [h1, if_true, true_iff]
    exact and_or_of_and _ (and_or_of_and _ h1)
  · by_cases hu : f.Dir.Uid = u.Name
    · simp only [h1, hu, if_true, if_false]
      by_cases h2 : (f.Dir.Mode &&& 7 ||| f.Dir.Mode >>> 6 &&& 7) &&& (perm &&& 7) = perm &&& 7
      · simp only [h2, if_true, true_iff]
        exact and_or_of_and _ h2
      · simp [h2]
    · simp [h1, hu]

theorem mask_subset {b c : Nat} (m : Nat) (hc : c &&& b = c) : (c &&& m) &&& (b &&& m) = c &&& m := by
  apply Nat.eq_of_testBit_eq
  intro i
  have hci := congrArg (fun n => n.testBit i) hc
  simp only [Nat.testBit_and] at hci ⊢
  cases hb : b.testBit i <;> cases hcc : c.testBit i <;> simp_all

/-- C1: for a non-nil user, CheckPerm grants exactly when the requested bits
(perm & 7) are a subset of the or-accumulated other, owner and group bits; for
a nil user it refuses every request. -/
theorem CheckPerm_iff_subset (f : W9File) (u : User) (perm : Nat) :
    (CheckPerm f (some u) perm = true ↔ permAcc f u &&& (perm &&& 7) = perm &&& 7)
      ∧ CheckPerm f none perm = false :=
  ⟨CheckPerm_some_iff f u perm, rfl⟩

/-- C2: CheckPerm is monotonic in the requested bits: when it grants B it
grants every B2 that is bitwise a subset of B. -/
theorem CheckPerm_mono (f : W9File) (user : Option User) (B B2 : Nat)
    (hsub : B2 &&& B = B2) (h : CheckPerm f user B = true) : CheckPerm f user B2 = true := by
  cases user with
  | none => simp [CheckPerm] at h
  | some u =>
    rw [CheckPerm_some_iff] at h ⊢
    exact and_of_subset h (mask_subset 7 hsub)

/-- Witness of C2: the owner of a file of mode 0o640 is granted read and write, hence write. -/
theorem CheckPerm_mono_witness :
    2 &&& 6 = 2 ∧ CheckPerm exFile (some ⟨[97], []⟩) 6 = true
      ∧ CheckPerm exFile (some ⟨[97], []⟩) 2 = true :=
  ⟨by decide, by decide,
    CheckPerm_mono exFile (some ⟨[97], []⟩) 6 2 (by decide) (by decide)⟩

/-! ## Sibling lists -/

theorem IsChain_congr {files files2 : Nat → W9File} :
    ∀ {l : List Nat} {p : Option Nat}, IsChain files p l →
      (∀ a ∈ l, (files2 a).next = (files a).next) → IsChain files2 p l
  | [], _, h, _ => h
  | a :: l, _, h, hn => by
    obtain ⟨hp, hl⟩ := h
    refine ⟨hp, ?_⟩
    rw [hn a (List.mem_cons_self a l)]
    exact IsChain_congr hl fun b hb => hn b (List.mem_cons_of_mem a hb)

theorem IsChain_unique {files : Nat → W9File} :
    ∀ {l l2 : List Nat} {p : Option Nat}, IsChain files p l → IsChain files p l2 → l = l2
  | [], [], _, _, _ => rfl
  | [], b :: l2, _, h, h2 => by
    have h1 : _ = none := h
    rw [h1] at h2
    exact absurd h2.1 (by simp)
  | a :: l, [], _, h, h2 => by
    have h1 : _ = none := h2
    rw [h1] at h
    exact absurd h.1 (by simp)
  | a :: l, b :: l2, _, h, h2 => by
    obtain ⟨hp, hl⟩ := h
    obtain ⟨hp2, hl2⟩ := h2
    rw [hp] at hp2
    obtain rfl : a = b := Option.some.inj hp2
    rw [IsChain_unique hl hl2]

theorem IsChain_suffix {files : Nat → W9File} :
    ∀ {l1 : List Nat} {p : Option Nat} {a : Nat} {l2 : List Nat},
      IsChain files p (l1 ++ a :: l2) → IsChain files (files a).next l2
  | [], _, _, _, h => h.2
  | _ :: l1, _, _, _, h => @IsChain_suffix _ l1 _ _ _ h.2

theorem IsChain_not_mem_tail {files : Nat → W9File} {a : Nat} {l : List Nat}
    (h : IsChain files (files a).next l) : a ∉ l := by
  intro ha
  obtain ⟨l1, l2, rfl⟩ := List.append_of_mem ha
  have h2 := IsChain_unique h (IsChain_suffix h)
  have := congrArg List.length h2
  simp at this
  omega

theorem IsChain_nodup {files : Nat → W9File} :
    ∀ {l : List Nat} {p : Option Nat}, IsChain files p l → l.Nodup
  | [], _, _ => List.nodup_nil
  | _ :: _, _, h => List.nodup_cons.mpr ⟨IsChain_not_mem_tail h.2, IsChain_nodup h.2⟩

/-- The scan over a chain stops at the first node of the chain with the name
looked for, given fuel for the whole chain. -/
theorem scanName_chain {files : Nat → W9File} (name : GoString) :
    ∀ {l : List Nat} {p : Option Nat} (fuel : Nat), IsChain files p l → l.length < fuel →
      scanName files name fuel p = some (l.find? fun a => decide (name = (files a).Dir.Name))
  | [], _, fuel, h, hf => by
    have h1 : _ = none := h
    subst h1
    obtain ⟨k, rfl⟩ : ∃ k, fuel = k + 1 := ⟨fuel - 1, by omega⟩
    rfl
  | a :: l, _, fuel, h, hf => by
    obtain ⟨hp, hl⟩ := h
    subst hp
    obtain ⟨k, rfl⟩ : ∃ k, fuel = k + 1 := ⟨fuel - 1, by simp at hf; omega⟩
    by_cases hn : name = (files a).Dir.Name
    · simp [scanName, List.find?, hn]
    · have := scanName_chain name k hl (by simp at hf; omega)
      simp [scanName, List.find?, hn, this]

@[simp] theorem Store.modify_files (s : Store) (a b : Nat) (g : W9File → W9File) :
    (s.modify a g).files b = if b = a then g (s.files a) else s.files b := rfl

@[simp] theorem Store.modify_qnext (s : Store) (a : Nat) (g : W9File → W9File) :
    (s.modify a g).qnext = s.qnext := rfl

theorem IsChain_snoc {files files2 : Nat → W9File} {f last : Nat} :
    ∀ {l0 : List Nat} {p : Option Nat}, IsChain files p (l0 ++ [last]) →
      (files2 f).next = none → (files2 last).next = some f →
      (∀ a ∈ l0, (files2 a).next = (files a).next) → IsChain files2 p (l0 ++ [last] ++ [f])
  | [], _, h, hf, hlast, _ => ⟨h.1, by rw [hlast]; exact ⟨rfl, hf⟩⟩
  | a :: l0, _, h, hf, hlast, hn => by
    refine ⟨h.1, ?_⟩
    rw [hn a (List.mem_cons_self a l0)]
    exact IsChain_snoc h.2 hf hlast fun b hb => hn b (List.mem_cons_of_mem a hb)

/-- C9: on a directory whose child list is a chain l, Find returns (given fuel
for the chain) the first node of l, in list order, whose name is the name
looked for, returns nil exactly when no node of l has that name, and leaves
the store as it was. -/
theorem Find_first (s : Store) (p : Nat) (name : GoString) (l : List Nat) (fuel : Nat)
    (hl : IsChain s.files (s.files p).cfirst l) (hfuel : l.length < fuel) :
    ∃ r, Find s p name fuel = Run.done (s, r)
      ∧ (∀ a, r = some a ↔
          ∃ l1 l2, l = l1 ++ a :: l2 ∧ s.name a = name ∧ ∀ c ∈ l1, s.name c ≠ name)
      ∧ (r = none ↔ ∀ c ∈ l, s.name c ≠ name) := by
  refine ⟨l.find? fun a => decide (name = (s.files a).Dir.Name), ?_, ?_, ?_⟩
  · simp [Find, scanName_chain name fuel hl hfuel]
  · intro a
    rw [List.find?_eq_some]
    constructor
    · rintro ⟨ha, l1, l2, rfl, h1⟩
      refine ⟨l1, l2, rfl, (of_decide_eq_true ha).symm, fun c hc hcn => ?_⟩
      have := h1 c hc
      simp [Store.name] at hcn
      simp [hcn] at this
    · rintro ⟨l1, l2, rfl, ha, h1⟩
      refine ⟨by simpa [Store.name] using ha.symm, l1, l2, rfl, fun c hc => ?_⟩
      have := h1 c hc
      simp only [Store.name] at this
      simpa using fun h => this h.symm
  · rw [List.find?_eq_none]
    simp only [Store.name, decide_eq_true_eq]
    exact ⟨fun h c hc hn => h c hc hn.symm, fun h c hc hn => h c hc hn.symm⟩

/-- Witness of C9: Find of "etc" in the root of storeEtc. -/
theorem Find_first_witness :
    ∃ r, Find storeEtc 0 etc 2 = Run.done (storeEtc, r)
      ∧ (∀ a, r = some a ↔
          ∃ l1 l2, [1] = l1 ++ a :: l2 ∧ storeEtc.name a = etc ∧ ∀ c ∈ l1, storeEtc.name c ≠ etc)
      ∧ (r = none ↔ ∀ c ∈ [1], storeEtc.name c ≠ etc) :=
  Find_first storeEtc 0 etc [1] 2 (by decide) (by decide)

/-! ## Add -/

theorem Add.link_next (s : Store) (f d a : Nat) :
    ((Add.link s f d).files a).next =
      if a = f then none else if some a = (s.files d).clast then some f else (s.files a).next := by
  cases h : (s.files d).clast with
  | none =>
    rcases eq_or_ne a f with rfl | haf <;> rcases eq_or_ne a d with rfl | had <;>
      simp [Add.link, h, *]
  | some c =>
    rcases eq_or_ne a f with rfl | haf <;> rcases eq_or_ne a d with rfl | had <;>
      rcases eq_or_ne a c with rfl | hac <;>
      simp [Add.link, h, *]

theorem Add.link_cfirst (s : Store) (f d a : Nat) :
    ((Add.link s f d).files a).cfirst =
      if a = d ∧ (s.files d).clast = none then some f else (s.files a).cfirst := by
  cases h : (s.files d).clast with
  | none =>
    rcases eq_or_ne a f with rfl | haf <;> rcases eq_or_ne a d with rfl | had <;>
      simp [Add.link, h, *]
  | some c =>
    rcases eq_or_ne a f with rfl | haf <;> rcases eq_or_ne a d with rfl | had <;>
      rcases eq_or_ne a c with rfl | hac <;>
      simp [Add.link, h, *]

theorem Add.link_clast (s : Store) (f d a : Nat) :
    ((Add.link s f d).files a).clast = if a = d then some f else (s.files a).clast := by
  cases h : (s.files d).clast with
  | none =>
    rcases eq_or_ne a f with rfl | haf <;> rcases eq_or_ne a d with rfl | had <;>
      simp [Add.link, h, *]
  | some c =>
    rcases eq_or_ne a f with rfl | haf <;> rcases eq_or_ne a d with rfl | had <;>
      rcases eq_or_ne a c with rfl | hac <;>
      simp [Add.link, h, *]

theorem Add.link_Dir (s : Store) (f d a : Nat) :
    ((Add.link s f d).files a).Dir = (s.files a).Dir := by
  cases h : (s.files d).clast with
  | none =>
    rcases eq_or_ne a f with rfl | haf <;> rcases eq_or_ne a d with rfl | had <;>
      simp [Add.link, h, *]
  | some c =>
    rcases eq_or_ne a f with rfl | haf <;> rcases eq_or_ne a d with rfl | had <;>
      rcases eq_or_ne a c with rfl | hac <;>
      simp [Add.link, h, *]

theorem Add.link_children {s : Store} {f d : Nat} {l : List Nat} (hc : Children s d l)
    (hfresh : f ∉ l) : Children (Add.link s f d) d (l ++ [f]) := by
  obtain ⟨hl, hlast⟩ := hc
  refine ⟨?_, by simp [Add.link_clast]⟩
  rcases List.eq_nil_or_concat l with rfl | ⟨l0, last, rfl⟩
  · have h2 : (s.files d).clast = none := hlast
    simp [IsChain, Add.link_cfirst, Add.link_next, h2]
  · rw [List.concat_eq_append] at hl hlast hfresh ⊢
    have h2 : (s.files d).clast = some last := by rw [hlast, List.getLast?_concat]
    have hnd := IsChain_nodup hl
    have hlf : last ≠ f := fun h => hfresh (by simp [h])
    have hcf : ((Add.link s f d).files d).cfirst = (s.files d).cfirst := by
      simp [Add.link_cfirst, h2]
    rw [hcf]
    refine IsChain_snoc hl ?_ ?_ ?_
    · simp [Add.link_next]
    · simp [Add.link_next, h2, hlf]
    · intro a ha
      have haf : a ≠ f := fun h => hfresh (by simp [← h, ha])
      have hal : a ≠ last := fun h => by
        rw [List.nodup_append] at hnd
        exact hnd.2.2 ha (by simp [h])
      simp [Add.link_next, h2, haf, hal]

theorem Children_congr {s s2 : Store} {d : Nat} {l : List Nat} (hc : Children s d l)
    (hn : ∀ a, (s2.files a).next = (s.files a).next)
    (hf : (s2.files d).cfirst = (s.files d).cfirst)
    (hl : (s2.files d).clast = (s.files d).clast) : Children s2 d l :=
  ⟨by rw [hf]; exact IsChain_congr hc.1 fun a _ => hn a, by rw [hl]; exact hc.2⟩

theorem Add.init_files (s : Store) (f : Nat) (name : GoString) (uid : Option User)
    (gid : Option Group) (mode now a : Nat) :
    ((Add.init s f name uid gid mode now).files a).next = (s.files a).next
      ∧ ((Add.init s f name uid gid mode now).files a).prev = (s.files a).prev
      ∧ ((Add.init s f name uid gid mode now).files a).cfirst = (s.files a).cfirst
      ∧ ((Add.init s f name uid gid mode now).files a).clast = (s.files a).clast
      ∧ ((Add.init s f name uid gid mode now).files a).flags = (s.files a).flags
      ∧ ((Add.init s f name uid gid mode now).files a).ops = (s.files a).ops
      ∧ ((Add.init s f name uid gid mode now).files a).Parent = (s.files a).Parent
      ∧ ((Add.init s f name uid gid mode now).files a).Dir.Name
          = if a = f then name else (s.files a).Dir.Name := by
  rcases eq_or_ne a f with rfl | haf <;> simp [Add.init, *]

/-- The store in which `Add` scans the directory: the fields of `f` are set and
its parent is `d`. -/
theorem Add_scan_store (s : Store) (f d : Nat) (name : GoString) (uid : Option User)
    (gid : Option Group) (mode now a : Nat) :
    let s1 := (Add.init s f name uid gid mode now).modify f fun x => { x with Parent := some d }
    (s1.files a).next = (s.files a).next ∧ (s1.files a).prev = (s.files a).prev
      ∧ (s1.files a).cfirst = (s.files a).cfirst ∧ (s1.files a).clast = (s.files a).clast
      ∧ (s1.files a).flags = (s.files a).flags ∧ (s1.files a).ops = (s.files a).ops
      ∧ (s1.files a).Dir.Name = if a = f then name else (s.files a).Dir.Name := by
  rcases eq_or_ne a f with rfl | haf <;> simp [Add.init, *]

theorem Add_ok (s : Store) (f d : Nat) (name : GoString) (uid : Option User)
    (gid : Option Group) (mode : Nat) (ops : Option Nat) (now fuel : Nat) (l : List Nat)
    (hc : Children s d l) (hfresh : f ∉ l) (hname : ∀ c ∈ l, s.name c ≠ name)
    (hfuel : l.length < fuel) :
    ∃ s1, Add s f (some d) name uid gid mode ops now fuel = Run.done (s1, none)
      ∧ Children s1 d (l ++ [f]) ∧ s1.name f = name ∧ ∀ c ∈ l, s1.name c = s.name c := by
  have hs := Add_scan_store s f d name uid gid mode now
  simp only at hs
  have hc1 : Children ((Add.init s f name uid gid mode now).modify f
      fun x => { x with Parent := some d }) d l :=
    Children_congr hc (fun a => (hs a).1) (hs d).2.2.1 (hs d).2.2.2.1
  have hscan := scanName_chain name fuel hc1.1 hfuel
  rw [List.find?_eq_none.mpr] at hscan
  swap
  · intro c hcl
    have hcf : c ≠ f := fun h => hfresh (h ▸ hcl)
    have hn := (hs c).2.2.2.2.2.2
    rw [if_neg hcf] at hn
    rw [decide_eq_true_eq, hn]
    exact fun h => hname c hcl h.symm
  have hadd : Add s f (some d) name uid gid mode ops now fuel
      = Run.done ((Add.link ((Add.init s f name uid gid mode now).modify f
          fun x => { x with Parent := some d }) f d).modify f fun x => { x with ops := ops },
        none) := by
    simp only [Add, hscan]
  refine ⟨_, hadd, ?_, ?_, ?_⟩
  · refine Children_congr (Add.link_children hc1 hfresh) (fun a => ?_) ?_ ?_ <;>
      simp only [Store.modify_files] <;> split_ifs with h <;> simp [h]
  · simp [Store.name, Add.link_Dir, (Add.init_files s f name uid gid mode now f).2.2.2.2.2.2.2]
  · intro c hcl
    have hcf : c ≠ f := fun h => hfresh (h ▸ hcl)
    simp only [Store.name, Store.modify_files, hcf, if_false, Add.link_Dir]
    simpa [hcf] using (hs c).2.2.2.2.2.2

theorem Add_exists (s : Store) (g d : Nat) (name : GoString) (uid : Option User)
    (gid : Option Group) (mode : Nat) (ops : Option Nat) (now fuel : Nat) (l : List Nat)
    (hl : IsChain s.files (s.files d).cfirst l) (hex : ∃ c ∈ l, s.name c = name)
    (hfuel : l.length < fuel) :
    Add s g (some d) name uid gid mode ops now fuel
      = Run.done ((Add.init s g name uid gid mode now).modify g
          fun x => { x with Parent := some d }, some TreeErr.Eexist) := by
  have hs := Add_scan_store s g d name uid gid mode now
  simp only at hs
  have hl1 : IsChain ((Add.init s g name uid gid mode now).modify g
      fun x => { x with Parent := some d }).files
      (((Add.init s g name uid gid mode now).modify g
        fun x => { x with Parent := some d }).files d).cfirst l := by
    rw [(hs d).2.2.1]
    exact IsChain_congr hl fun a _ => (hs a).1
  have hscan := scanName_chain name fuel hl1 hfuel
  obtain ⟨c, hcl, hcn⟩ := hex
  cases hfind : l.find? (fun a => decide (name = (((Add.init s g name uid gid mode now).modify g
      fun x => { x with Parent := some d }).files a).Dir.Name)) with
  | none =>
    rw [List.find?_eq_none] at hfind
    have hn := (hs c).2.2.2.2.2.2
    have := hfind c hcl
    rw [decide_eq_true_eq, hn] at this
    exfalso
    apply this
    split_ifs
    · rfl
    · exact hcn.symm
  | some a =>
    rw [hfind] at hscan
    simp only [Add, hscan]

/-- On a directory d whose child list is well formed (the chain from cfirst
is l and clast is the last node of l) and none of whose children is named
name, Add of a node f that is not in l returns nil (given fuel for l), the
child list of d becomes l followed by f, Find of name in d then returns f, and
any further Add to d under the same name returns Eexist. -/
theorem Add_then_Find (s : Store) (f d : Nat) (name : GoString) (uid : Option User)
    (gid : Option Group) (mode : Nat) (ops : Option Nat) (now fuel : Nat) (l : List Nat)
    (hc : Children s d l) (hfresh : f ∉ l) (hname : ∀ c ∈ l, s.name c ≠ name)
    (hfuel : l.length < fuel) :
    ∃ s1, Add s f (some d) name uid gid mode ops now fuel = Run.done (s1, none)
      ∧ Children s1 d (l ++ [f])
      ∧ (∀ fuel2, l.length + 1 < fuel2 → Find s1 d name fuel2 = Run.done (s1, some f))
      ∧ ∀ (g : Nat) (uid2 : Option User) (gid2 : Option Group) (mode2 : Nat)
          (ops2 : Option Nat) (now2 fuel2 : Nat), l.length + 1 < fuel2 →
          ∃ s2, Add s1 g (some d) name uid2 gid2 mode2 ops2 now2 fuel2
            = Run.done (s2, some TreeErr.Eexist) := by
  obtain ⟨s1, hadd, hc1, hf, hl⟩ := Add_ok s f d name uid gid mode ops now fuel l hc hfresh
    hname hfuel
  refine ⟨s1, hadd, hc1, fun fuel2 h2 => ?_, fun g uid2 gid2 mode2 ops2 now2 fuel2 h2 => ?_⟩
  · have hscan := scanName_chain name fuel2 hc1.1 (by simpa using h2)
    have hnone : l.find? (fun a => decide (name = (s1.files a).Dir.Name)) = none := by
      rw [List.find?_eq_none]
      intro c hcl
      rw [decide_eq_true_eq]
      intro h
      exact hname c hcl ((hl c hcl).symm.trans h.symm)
    have hfn : List.find? (fun a => decide (name = (s1.files a).Dir.Name)) [f] = some f :=
      List.find?_cons_of_pos _ (decide_eq_true hf.symm)
    rw [List.find?_append, hnone, hfn] at hscan
    simp only [Find, hscan, Option.or]
  · exact ⟨_, Add_exists s1 g d name uid2 gid2 mode2 ops2 now2 fuel2 (l ++ [f]) hc1.1
      ⟨f, by simp, hf⟩ (by simpa using h2)⟩

/-- Add of the node at address 1 to the empty root as "etc". -/
theorem Add_then_Find_witness :
    ∃ s1, Add storeRoot 1 (some 0) etc none none 0o20000000755 none 0 1 = Run.done (s1, none)
      ∧ Children s1 0 ([] ++ [1])
      ∧ (∀ fuel2, ([] : List Nat).length + 1 < fuel2 →
          Find s1 0 etc fuel2 = Run.done (s1, some 1))
      ∧ ∀ (g : Nat) (uid2 : Option User) (gid2 : Option Group) (mode2 : Nat)
          (ops2 : Option Nat) (now2 fuel2 : Nat), ([] : List Nat).length + 1 < fuel2 →
          ∃ s2, Add s1 g (some 0) etc uid2 gid2 mode2 ops2 now2 fuel2
            = Run.done (s2, some TreeErr.Eexist) :=
  Add_then_Find storeRoot 1 0 etc none none 0o20000000755 none 0 1 []
    (by decide) (by decide) (by decide) (by decide)

/-- C4, as stated, fails: the rejected Add of the node at address 2 to the
root of storeEtc, under the name "etc" that is taken, returns Eexist and has
changed the node's Name, Mode, Qid.Path and Parent and the counter. -/
theorem Add_rejected_mutates :
    ∃ s1, Add storeEtc 2 (some 0) etc none none 0o644 none 0 2
        = Run.done (s1, some TreeErr.Eexist)
      ∧ (s1.files 2).Dir.Name ≠ (storeEtc.files 2).Dir.Name
      ∧ (s1.files 2).Dir.Mode ≠ (storeEtc.files 2).Dir.Mode
      ∧ (s1.files 2).Dir.Qid.Path ≠ (storeEtc.files 2).Dir.Qid.Path
      ∧ (s1.files 2).Dir.Uid ≠ (storeEtc.files 2).Dir.Uid
      ∧ (s1.files 2).Parent ≠ (storeEtc.files 2).Parent
      ∧ s1.qnext ≠ storeEtc.qnext :=
  ⟨_, rfl, by decide, by decide, by decide, by decide, by decide, by decide⟩

/-- C4, amended: when Add returns Eexist, every node other than f is as
before, the links next, prev, cfirst and clast of f, its flags and its ops
are as before, so every child list is as before; the Dir of f has been set
from the arguments and the clock, with the path taken from the counter, and
the counter has been incremented. -/
theorem Add_rejected_frame (s : Store) (f : Nat) (dir : Option Nat) (name : GoString)
    (uid : Option User) (gid : Option Group) (mode : Nat) (ops : Option Nat) (now fuel : Nat)
    (s1 : Store)
    (h : Add s f dir name uid gid mode ops now fuel = Run.done (s1, some TreeErr.Eexist)) :
    (∀ a, a ≠ f → s1.files a = s.files a)
      ∧ (s1.files f).next = (s.files f).next ∧ (s1.files f).prev = (s.files f).prev
      ∧ (s1.files f).cfirst = (s.files f).cfirst ∧ (s1.files f).clast = (s.files f).clast
      ∧ (s1.files f).flags = (s.files f).flags ∧ (s1.files f).ops = (s.files f).ops
      ∧ (∀ d l, Children s d l → Children s1 d l)
      ∧ (s1.files f).Dir =
          { Qid := ⟨(mode >>> 24) % 2 ^ 8, 0, s.qnext⟩, Mode := mode, Atime := now % 2 ^ 32,
            Mtime := now % 2 ^ 32, Length := 0, Name := name,
            Uid := (uid.map User.Name).getD [110, 111, 110, 101],
            Gid := (gid.map Group.Name).getD [110, 111, 110, 101],
            Muid := [], ExtAttr := [] }
      ∧ s1.qnext = (s.qnext + 1) % 2 ^ 64 := by
  cases dir with
  | none => simp [Add] at h
  | some d =>
    simp only [Add] at h
    split at h
    · simp at h
    · simp only [Run.done.injEq, Prod.mk.injEq, and_true] at h
      subst h
      have hs := Add_scan_store s f d name uid gid mode now
      simp only at hs
      refine ⟨fun a ha => by simp [Add.init, ha], (hs f).1, (hs f).2.1, (hs f).2.2.1,
        (hs f).2.2.2.1, (hs f).2.2.2.2.1, (hs f).2.2.2.2.2.1,
        fun d2 l hc => Children_congr hc (fun a => (hs a).1) (hs d2).2.2.1 (hs d2).2.2.2.1,
        ?_, ?_⟩
      · cases uid <;> cases gid <;> simp [Add.init]
      · simp [Add.init]
    · simp at h

/-- Witness of C4, amended: the rejected Add that leads from storeEtc to storeRej. -/
theorem Add_rejected_frame_witness :
    (∀ a, a ≠ 2 → storeRej.files a = storeEtc.files a)
      ∧ (storeRej.files 2).next = (storeEtc.files 2).next
      ∧ (storeRej.files 2).prev = (storeEtc.files 2).prev
      ∧ (storeRej.files 2).cfirst = (storeEtc.files 2).cfirst
      ∧ (storeRej.files 2).clast = (storeEtc.files 2).clast
      ∧ (storeRej.files 2).flags = (storeEtc.files 2).flags
      ∧ (storeRej.files 2).ops = (storeEtc.files 2).ops
      ∧ (∀ d l, Children storeEtc d l → Children storeRej d l)
      ∧ (storeRej.files 2).Dir =
          { Qid := ⟨(0o644 >>> 24) % 2 ^ 8, 0, storeEtc.qnext⟩, Mode := 0o644,
            Atime := 0 % 2 ^ 32, Mtime := 0 % 2 ^ 32, Length := 0, Name := etc,
            Uid := [110, 111, 110, 101], Gid := [110, 111, 110, 101], Muid := [],
            ExtAttr := [] }
      ∧ storeRej.qnext = (storeEtc.qnext + 1) % 2 ^ 64 :=
  Add_rejected_frame storeEtc 2 (some 0) etc none none 0o644 none 0 2 storeRej rfl

/-! ## Rename -/

theorem nodup_map_rename {l : List Nat} {g : Nat → GoString} {f : Nat} {name : GoString}
    (hl : l.Nodup) (hg : (l.map g).Nodup) (hname : ∀ c ∈ l, g c ≠ name) :
    (l.map fun a => if a = f then name else g a).Nodup := by
  refine List.Nodup.map_on (fun x hx y hy hxy => ?_) hl
  have hinj := List.inj_on_of_nodup_map hg
  by_cases hxf : x = f <;> by_cases hyf : y = f
  · rw [hxf, hyf]
  · simp only [hxf, hyf, if_true, if_false] at hxy
    exact absurd hxy.symm (hname y hy)
  · simp only [hxf, hyf, if_true, if_false] at hxy
    exact absurd hxy (hname x hx)
  · simp only [hxf, hyf, if_false] at hxy
    exact hinj hx hy hxy

/-- C5: for a node f whose parent p has the child list l, Rename returns
(given fuel for l) Eexist exactly when some node of l is named name, and then
the store is unchanged; otherwise it returns nil and the store differs only in
the Name of f, which is name; in both cases the child list of p is l as before
and, if its names were pairwise distinct, they still are. -/
theorem Rename_spec (s : Store) (f p : Nat) (name : GoString) (l : List Nat) (fuel : Nat)
    (hp : (s.files f).Parent = some p) (hl : IsChain s.files (s.files p).cfirst l)
    (hfuel : l.length < fuel) :
    ∃ s1 r, Rename s f name fuel = Run.done (s1, r)
      ∧ (r = some TreeErr.Eexist ↔ ∃ c ∈ l, s.name c = name)
      ∧ (r = some TreeErr.Eexist → s1 = s)
      ∧ (r ≠ some TreeErr.Eexist → r = none
          ∧ (∀ a, s1.files a = if a = f
              then { s.files f with Dir := { (s.files f).Dir with Name := name } }
              else s.files a)
          ∧ s1.qnext = s.qnext)
      ∧ IsChain s1.files (s1.files p).cfirst l
      ∧ ((l.map s.name).Nodup → (l.map s1.name).Nodup) := by
  have hscan := scanName_chain name fuel hl hfuel
  cases hfind : l.find? (fun a => decide (name = (s.files a).Dir.Name)) with
  | some a =>
    rw [hfind] at hscan
    refine ⟨s, some TreeErr.Eexist, by simp only [Rename, hp, hscan], ?_, fun _ => rfl,
      fun h => absurd rfl h, hl, fun h => h⟩
    have := List.mem_of_find?_eq_some hfind
    have hn := List.find?_some hfind
    exact ⟨fun _ => ⟨a, this, (of_decide_eq_true hn).symm⟩, fun _ => rfl⟩
  | none =>
    rw [hfind] at hscan
    rw [List.find?_eq_none] at hfind
    have hne : ∀ c ∈ l, s.name c ≠ name := fun c hc h => by
      have := hfind c hc
      rw [decide_eq_true_eq] at this
      exact this h.symm
    refine ⟨s.modify f fun x => { x with Dir := { x.Dir with Name := name } }, none,
      by simp only [Rename, hp, hscan], ?_, fun h => by simp at h,
      fun _ => ⟨rfl, fun a => rfl, rfl⟩, ?_, fun hnd => ?_⟩
    · constructor
      · intro h
        simp at h
      · rintro ⟨c, hc, hcn⟩
        exact absurd hcn (hne c hc)
    · have hcf : ((s.modify f fun x => { x with Dir := { x.Dir with Name := name } }).files
          p).cfirst = (s.files p).cfirst := by
        simp only [Store.modify_files]
        split_ifs with h <;> simp [h]
      rw [hcf]
      refine IsChain_congr hl fun a _ => ?_
      simp only [Store.modify_files]
      split_ifs with h <;> simp [h]
    · have heq : (fun a => (s.modify f fun x =>
          { x with Dir := { x.Dir with Name := name } }).name a)
          = fun a => if a = f then name else s.name a := by
        funext a
        simp only [Store.name, Store.modify_files]
        split_ifs <;> rfl
      rw [show (s.modify f fun x => { x with Dir := { x.Dir with Name := name } }).name
        = fun a => if a = f then name else s.name a from heq]
      exact nodup_map_rename (IsChain_nodup hl) hnd hne

/-- Witness of C5: Rename of the node "etc" of storeEtc to "var". -/
theorem Rename_spec_witness :
    ∃ s1 r, Rename storeEtc 1 [118, 97, 114] 2 = Run.done (s1, r)
      ∧ (r = some TreeErr.Eexist ↔ ∃ c ∈ [1], storeEtc.name c = [118, 97, 114])
      ∧ (r = some TreeErr.Eexist → s1 = storeEtc)
      ∧ (r ≠ some TreeErr.Eexist → r = none
          ∧ (∀ a, s1.files a = if a = 1
              then { storeEtc.files 1 with
                      Dir := { (storeEtc.files 1).Dir with Name := [118, 97, 114] } }
              else storeEtc.files a)
          ∧ s1.qnext = storeEtc.qnext)
      ∧ IsChain s1.files (s1.files 0).cfirst [1]
      ∧ (([1].map storeEtc.name).Nodup → ([1].map s1.name).Nodup) :=
  Rename_spec storeEtc 1 0 [118, 97, 114] [1] 2 (by decide) (by decide) (by decide)

/-! ## Remove -/

theorem Store.modify_flags (s : Store) (a : Nat) (g : W9File → W9File)
    (hg : ∀ x, (g x).flags = x.flags) (b : Nat) :
    ((s.modify a g).files b).flags = (s.files b).flags := by
  simp only [Store.modify_files]
  split_ifs with h
  · rw [hg, h]
  · rfl

theorem Remove.unlink_flags (s : Store) (f p a : Nat) :
    ((Remove.unlink s f p).files a).flags = (s.files a).flags := by
  simp only [Remove.unlink]
  cases (s.files f).next <;> simp only [] <;> split <;>
    simp (disch := intro _; rfl) only [Store.modify_flags]

theorem or_and_Fremoved (x : Nat) : (x ||| Fremoved) &&& Fremoved ≠ 0 := by
  have h : (x ||| Fremoved) &&& Fremoved = Fremoved := by
    apply Nat.eq_of_testBit_eq
    intro i
    simp only [Nat.testBit_and, Nat.testBit_or]
    cases Fremoved.testBit i <;> simp
  rw [h]
  decide

theorem Remove_of_removed {s : Store} {f : Nat} (h : (s.files f).flags &&& Fremoved ≠ 0) :
    Remove s f = Run.done s := by
  unfold Remove
  rw [if_pos h]

theorem Remove_removed {s s1 : Store} {f : Nat} (h : Remove s f = Run.done s1) :
    (s1.files f).flags &&& Fremoved ≠ 0 := by
  by_cases hflag : (s.files f).flags &&& Fremoved ≠ 0
  · rw [Remove_of_removed hflag] at h
    cases h
    exact hflag
  · unfold Remove at h
    rw [if_neg hflag] at h
    simp only at h
    split at h
    · cases h
    · cases h
      rw [Remove.unlink_flags, Store.modify_files, if_pos rfl]
      exact or_and_Fremoved _

/-- C6: Remove is idempotent: two calls of Remove on f in a row give the
result of one call; when the first call returns, the second finds the removed
flag set and returns the store as it is. -/
theorem Remove_idempotent (s : Store) (f : Nat) :
    (Remove s f).bind (fun s1 => Remove s1 f) = Remove s f := by
  cases h : Remove s f with
  | done s1 => exact Remove_of_removed (Remove_removed h)
  | fault => rfl
  | diverge => rfl

/-- C7 fails on the code: in storeRej the root (address 0) has the child list
[1], and the node at address 2, whose Add to the root was rejected, has the
root as its Parent and is not linked; Remove on it empties the child list of
the root, so the child at address 1 is no longer found under its name. -/
theorem Remove_rejected_empties_dir :
    Children storeRej 0 [1] ∧ (storeRej.files 2).Parent = some 0
      ∧ Find storeRej 0 etc 2 = Run.done (storeRej, some 1)
      ∧ ∃ s3, Remove storeRej 2 = Run.done s3 ∧ Children s3 0 []
        ∧ (s3.files 0).cfirst = none ∧ (s3.files 0).clast = none
        ∧ Find s3 0 etc 2 = Run.done (s3, none) :=
  ⟨by decide, by decide, rfl, _, rfl, by decide, by decide, by decide, rfl⟩

/-! ## The qid-path counter -/

theorem Add.link_qnext (s : Store) (f d : Nat) : (Add.link s f d).qnext = s.qnext := by
  simp only [Add.link, Store.modify_qnext]
  cases (s.files d).clast <;> rfl

theorem Add.init_qnext (s : Store) (f : Nat) (name : GoString) (uid : Option User)
    (gid : Option Group) (mode now : Nat) :
    (Add.init s f name uid gid mode now).qnext = (s.qnext + 1) % 2 ^ 64 := rfl

/-- Every call of Add that returns has put the value of the counter in the
Qid.Path of its node and has incremented the counter (a uint64) by one. -/
theorem Add_qid {s s1 : Store} {f : Nat} {dir : Option Nat} {name : GoString}
    {uid : Option User} {gid : Option Group} {mode : Nat} {ops : Option Nat} {now fuel : Nat}
    {r : Option TreeErr} (h : Add s f dir name uid gid mode ops now fuel = Run.done (s1, r)) :
    (s1.files f).Dir.Qid.Path = s.qnext ∧ s1.qnext = (s.qnext + 1) % 2 ^ 64 := by
  cases dir with
  | none =>
    simp only [Add, Run.done.injEq, Prod.mk.injEq] at h
    rw [← h.1]
    simp [Add.init]
  | some d =>
    simp only [Add] at h
    split at h
    · cases h
    · simp only [Run.done.injEq, Prod.mk.injEq] at h
      rw [← h.1]
      simp [Add.init]
    · simp only [Run.done.injEq, Prod.mk.injEq] at h
      rw [← h.1]
      constructor
      · simp [Add.link_Dir, Add.init]
      · simp only [Store.modify_qnext, Add.link_qnext, Add.init_qnext]

theorem runAdds_paths_eq : ∀ (calls : List AddCall) (s s2 : Store) (ps : List Nat),
    s.qnext < 2 ^ 64 → runAdds s calls = Run.done (s2, ps) →
      ps = (List.range calls.length).map (fun i => (s.qnext + i) % 2 ^ 64)
        ∧ s2.qnext = (s.qnext + calls.length) % 2 ^ 64
  | [], s, s2, ps, hq, h => by
    simp only [runAdds, Run.done.injEq, Prod.mk.injEq] at h
    simp only [← h.1, ← h.2, List.length_nil, List.range_zero, List.map_nil, Nat.add_zero,
      true_and]
    omega
  | c :: cs, s, s2, ps, hq, h => by
    simp only [runAdds] at h
    cases hadd : Add s c.f c.dir c.name c.uid c.gid c.mode c.ops c.now c.fuel with
    | fault => simp [hadd, Run.bind] at h
    | diverge => simp [hadd, Run.bind] at h
    | done r =>
      obtain ⟨s1, e⟩ := r
      obtain ⟨hpath, hnext⟩ := Add_qid hadd
      rw [hadd] at h
      simp only [Run.bind] at h
      cases hrest : runAdds s1 cs with
      | fault => simp [hrest] at h
      | diverge => simp [hrest] at h
      | done r2 =>
        obtain ⟨s3, ps3⟩ := r2
        rw [hrest] at h
        simp only [Run.done.injEq, Prod.mk.injEq] at h
        obtain ⟨ih1, ih2⟩ := runAdds_paths_eq cs s1 s3 ps3
          (by rw [hnext]; exact Nat.mod_lt _ (by norm_num)) hrest
        constructor
        · rw [← h.2, hpath, ih1, List.length_cons, List.range_succ_eq_map, List.map_cons,
            List.map_map]
          congr 1
          · simp only [Nat.add_zero]
            omega
          · apply List.map_congr_left
            intro i _
            simp only [Function.comp, hnext]
            omega
        · rw [← h.1, ih2, hnext, List.length_cons]
          omega

/-- C8: in a sequence of fewer than 2^64 Add calls, accepted or rejected, that
all return, the k-th call puts the counter's start value plus k (modulo 2^64)
in the Qid.Path of its node, so the paths assigned are pairwise distinct, and
the counter ends at its start value plus the number of calls. -/
theorem runAdds_paths_distinct (calls : List AddCall) (s s2 : Store) (ps : List Nat)
    (hq : s.qnext < 2 ^ 64) (hn : calls.length < 2 ^ 64)
    (h : runAdds s calls = Run.done (s2, ps)) :
    ps.Nodup ∧ ps = (List.range calls.length).map (fun i => (s.qnext + i) % 2 ^ 64)
      ∧ s2.qnext = (s.qnext + calls.length) % 2 ^ 64 := by
  obtain ⟨h1, h2⟩ := runAdds_paths_eq calls s s2 ps hq h
  refine ⟨?_, h1, h2⟩
  rw [h1]
  refine List.Nodup.map_on (fun x hx y hy hxy => ?_) (List.nodup_range _)
  rw [List.mem_range] at hx hy
  omega

/-- Witness of C8: the three calls of exCalls assign the paths 0, 1 and 2. -/
theorem runAdds_paths_distinct_witness :
    [0, 1, 2].Nodup
      ∧ [0, 1, 2] = (List.range exCalls.length).map (fun i => (store0.qnext + i) % 2 ^ 64)
      ∧ storeRej.qnext = (store0.qnext + exCalls.length) % 2 ^ 64 :=
  runAdds_paths_distinct exCalls store0 storeRej [0, 1, 2] (by decide) (by decide) rfl

/-! ## The response codec -/

@[simp] theorem le_length : ∀ (n v : Nat), (le n v).length = n
  | 0, _ => rfl
  | n + 1, v => by simp [le, le_length n]

theorem unle_le : ∀ (n v : Nat), unle (le n v) = v % 256 ^ n
  | 0, v => by simp [le, unle, Nat.mod_one]
  | n + 1, v => by
    simp only [le, unle, unle_le n]
    rw [pow_succ, Nat.mul_comm (256 ^ n) 256, Nat.mod_mul]

theorem gint_le (n v : Nat) (rest : List Nat) :
    gint n (le n v ++ rest) = some (v % 256 ^ n, rest) := by
  simp [gint, unle_le]

theorem gstr_enc (val : GoString) (rest : List Nat) (h : val.length < 2 ^ 16) :
    gstr (encStr val ++ rest) = some (val, rest) := by
  have h2 : val.length % 2 ^ 16 = val.length := Nat.mod_eq_of_lt h
  have h3 : val.length % 256 ^ 2 = val.length := Nat.mod_eq_of_lt (by norm_num; omega)
  unfold encStr gstr
  rw [h2, List.take_length, List.append_assoc, gint_le, h3]
  simp

theorem gqid_enc (q : Qid) (rest : List Nat) (h : q.Valid) :
    gqid (encQid q ++ rest) = some (q, rest) := by
  obtain ⟨h1, h2, h3⟩ := h
  have e1 : q.Typ % 256 ^ 1 = q.Typ := Nat.mod_eq_of_lt (by norm_num; omega)
  have e2 : q.Version % 256 ^ 4 = q.Version := Nat.mod_eq_of_lt (by norm_num; omega)
  have e3 : q.Path % 256 ^ 8 = q.Path := Nat.mod_eq_of_lt (by norm_num; omega)
  simp only [gqid, encQid, gint_le, List.append_assoc, e1, e2, e3, Option.bind]

theorem gstat_enc (d : Dir) (rest : List Nat) (h : d.Valid) :
    gstat (encStat d ++ rest) = some (d, rest) := by
  obtain ⟨hq, h1, h2, h3, h4, h5, h6, h7, h8, h9, _⟩ := h
  have e1 : d.Mode % 256 ^ 4 = d.Mode := Nat.mod_eq_of_lt (by norm_num; omega)
  have e2 : d.Atime % 256 ^ 4 = d.Atime := Nat.mod_eq_of_lt (by norm_num; omega)
  have e3 : d.Mtime % 256 ^ 4 = d.Mtime := Nat.mod_eq_of_lt (by norm_num; omega)
  have e4 : d.Length % 256 ^ 8 = d.Length := Nat.mod_eq_of_lt (by norm_num; omega)
  simp only [gstat, encStat, List.append_assoc, gqid_enc _ _ hq, gint_le, Option.bind,
    gstr_enc _ _ h5, gstr_enc _ _ h6, gstr_enc _ _ h7, gstr_enc _ _ h8, gstr_enc _ _ h9,
    e1, e2, e3, e4]

theorem write_write (B a b : List Nat) (off : Nat) (h : off ≤ B.length) :
    (B.take off ++ a ++ B.drop (off + a.length)).take (off + a.length) ++ b
        ++ (B.take off ++ a ++ B.drop (off + a.length)).drop (off + a.length + b.length)
      = B.take off ++ (a ++ b) ++ B.drop (off + (a ++ b).length) := by
  have hP : (B.take off ++ a).length = off + a.length := by
    simp [List.length_take, Nat.min_eq_left h]
  rw [List.take_left' hP, ← hP, List.drop_append, List.drop_drop, hP, List.length_append]
  simp [Nat.add_assoc, Nat.add_comm]

theorem put_bind_put (a b : List Nat) (c : Fcall × Slice) (hc : c.2.off ≤ c.1.Buf.length) :
    (put a c).bind (put b) = put (a ++ b) c := by
  obtain ⟨fc, p⟩ := c
  simp only at hc
  by_cases h1 : a.length ≤ p.len
  · by_cases h2 : b.length ≤ p.len - a.length
    · have h3 : (a ++ b).length ≤ p.len := by simp; omega
      simp only [put, h1, h2, h3, if_true, Run.bind]
      rw [write_write fc.Buf a b p.off hc]
      simp [Nat.add_assoc, Nat.sub_sub]
    · have h3 : ¬ (a ++ b).length ≤ p.len := by simp; omega
      simp only [put, h1, h2, h3, if_true, if_false, Run.bind]
  · have h3 : ¬ (a ++ b).length ≤ p.len := by simp; omega
    simp only [put, h1, h3, if_false, Run.bind]

theorem put_off_le (a : List Nat) (c c2 : Fcall × Slice) (hc : c.2.off ≤ c.1.Buf.length)
    (h : put a c = Run.done c2) : c2.2.off ≤ c2.1.Buf.length := by
  unfold put at h
  split_ifs at h with h1
  cases h
  simp [List.length_take, Nat.min_eq_left hc]

theorem IsPut_bind {W1 W2 : Fcall × Slice → Run (Fcall × Slice)} {e1 e2 : List Nat}
    (h1 : IsPut W1 e1) (h2 : IsPut W2 e2) : IsPut (fun c => (W1 c).bind W2) (e1 ++ e2) := by
  intro c hc
  simp only
  rw [h1 c hc, ← put_bind_put e1 e2 c hc]
  cases hp : put e1 c with
  | done c2 => exact h2 c2 (put_off_le e1 c c2 hc hp)
  | fault => rfl
  | diverge => rfl

theorem IsPut_put (e : List Nat) : IsPut (put e) e := fun _ _ => rfl

theorem IsPut_pstr (val : GoString) : IsPut (pstr val) (encStr val) :=
  IsPut_bind (IsPut_put _) (IsPut_put _)

theorem IsPut_pqid (q : Qid) : IsPut (pqid q) (encQid q) := by
  have := IsPut_bind (IsPut_put (le 1 q.Typ))
    (IsPut_bind (IsPut_put (le 4 q.Version)) (IsPut_put (le 8 q.Path)))
  rw [← List.append_assoc] at this
  exact this

theorem IsPut_pstat (d : Dir) : IsPut (pstat d) (encStat d) := by
  have := IsPut_bind (IsPut_pqid d.Qid) (IsPut_bind (IsPut_put (le 4 d.Mode))
    (IsPut_bind (IsPut_put (le 4 d.Atime)) (IsPut_bind (IsPut_put (le 4 d.Mtime))
    (IsPut_bind (IsPut_put (le 8 d.Length)) (IsPut_bind (IsPut_pstr d.Name)
    (IsPut_bind (IsPut_pstr d.Uid) (IsPut_bind (IsPut_pstr d.Gid)
    (IsPut_bind (IsPut_pstr d.Muid) (IsPut_pstr d.ExtAttr)))))))))
  unfold encStat
  simp only [List.append_assoc]
  exact this

theorem packCommon_ok (fc : Fcall) (size id : Nat) (h32 : size + 7 < 2 ^ 32)
    (hbuf : size + 7 ≤ fc.Buf.length) :
    packCommon fc size id = Except.ok
      ({ fc with
          FcSize := size + 7, Typ := id, Tag := NOTAG, Pkt := ⟨0, size + 7⟩,
          Buf := le 4 (size + 7) ++ le 1 id ++ le 2 NOTAG ++ fc.Buf.drop 7 },
        ⟨7, fc.Buf.length - 7⟩) := by
  have h1 : ¬ 2 ^ 32 ≤ size + 4 + 1 + 2 := by omega
  have h2 : ¬ fc.Buf.length < size + 4 + 1 + 2 := by omega
  simp only [packCommon, h1, h2, if_false]

/-- Writing the field bytes `body` after the header `hdr` of a frame. -/
theorem write_body {W : Fcall × Slice → Run (Fcall × Slice)} {body : List Nat}
    (hW : IsPut W body) (x : Fcall) (hdr B : List Nat) (hx : x.Buf = hdr ++ B.drop 7)
    (hh : hdr.length = 7) (hb : body.length + 7 ≤ B.length) :
    W (x, ⟨7, B.length - 7⟩) = Run.done
      ({ x with Buf := hdr ++ body ++ B.drop (body.length + 7) },
        ⟨7 + body.length, B.length - 7 - body.length⟩) := by
  have hlen : x.Buf.length = B.length := by rw [hx]; simp [hh]; omega
  rw [hW _ (by simp only; omega)]
  have h1 : body.length ≤ B.length - 7 := by omega
  simp only [put, h1, if_true]
  congr 3
  rw [hx, List.take_left' hh, ← hh, List.drop_append, List.drop_drop, hh, Nat.add_comm]

/-- The decoder on a frame: the header is read and the type selects the
decoder of the fields. -/
theorem Unpack_frame (id : Nat) (body : List Nat) (hid : id < 256)
    (hsz : body.length + 7 < 2 ^ 32) :
    Unpack (frame id body) = Unpack.fields
      { Fcall.zero with
        FcSize := body.length + 7, Typ := id, Tag := NOTAG, Pkt := ⟨0, body.length + 7⟩,
        Buf := frame id body } body := by
  have hs : (body.length + 7) % 256 ^ 4 = body.length + 7 :=
    Nat.mod_eq_of_lt (by norm_num; omega)
  have hi : id % 256 ^ 1 = id := Nat.mod_eq_of_lt (by norm_num; omega)
  have ht : NOTAG % 256 ^ 2 = NOTAG := by decide
  have hl : (le 4 (body.length + 7) ++ (le 1 id ++ (le 2 NOTAG ++ body))).length
      = body.length + 7 := by
    simp
    omega
  simp only [Unpack, frame, List.append_assoc, gint_le, Option.bind, hs, hi, ht, hl, ne_eq,
    not_true_eq_false, if_false]

@[simp] theorem frame_length (id : Nat) (body : List Nat) :
    (frame id body).length = body.length + 7 := by
  simp [frame]
  omega

theorem bytes_Pkt (y : Fcall) (fr rest : List Nat) (hy : y.Buf = fr ++ rest)
    (hp : y.Pkt = ⟨0, fr.length⟩) : y.bytes y.Pkt = fr := by
  simp [Fcall.bytes, hy, hp]

/-- What a packer leaves: after `packCommon` for `size` bytes of fields of the
type `id`, the writer `W` of the field bytes `body` on the `Fcall` `x` (the
`Fcall` after `packCommon` and the assignments to its fields), and a last
assignment `k`, the buffer starts with the frame of `body`. -/
theorem packed {W : Fcall × Slice → Run (Fcall × Slice)} {body : List Nat} (hW : IsPut W body)
    (fc x : Fcall) (id size : Nat) (k : Fcall → Fcall)
    (hx : x.Buf = le 4 (size + 7) ++ le 1 id ++ le 2 NOTAG ++ fc.Buf.drop 7)
    (hlen : body.length = size) (hbuf : size + 7 ≤ fc.Buf.length) :
    (W (x, ⟨7, fc.Buf.length - 7⟩)).bind (fun c => Run.done (k c.1, (none : Option GoError)))
      = Run.done (k { x with Buf := frame id body ++ fc.Buf.drop (size + 7) }, none) := by
  subst hlen
  rw [write_body hW x _ fc.Buf hx (by simp) hbuf]
  simp only [Run.bind, frame]

theorem encStr_length (val : GoString) (h : val.length < 2 ^ 16) :
    (encStr val).length = 2 + val.length := by
  have h2 : val.length % 2 ^ 16 = val.length := Nat.mod_eq_of_lt h
  unfold encStr
  rw [h2, List.length_append, le_length, List.take_length]

theorem encQid_length (q : Qid) : (encQid q).length = 13 := by
  simp [encQid]

theorem encStat_length (d : Dir) (h : d.Valid) : (encStat d).length = statsz d := by
  obtain ⟨_, _, _, _, _, h5, h6, h7, h8, h9, _⟩ := h
  simp only [encStat, List.length_append, encQid_length, le_length, encStr_length _ h5,
    encStr_length _ h6, encStr_length _ h7, encStr_length _ h8, encStr_length _ h9, statsz]

theorem body_length (m : Msg) (hv : m.Valid) : m.body.length = m.size := by
  cases m <;> simp only [Msg.body, Msg.size, List.length_append, le_length, encQid_length,
    List.length_nil]
  case Rversion msize version => rw [encStr_length _ hv.2, Nat.add_assoc]
  case Rstat d => rw [encStat_length d hv]

theorem size_lt (m : Msg) (hv : m.Valid) : m.size + 7 < 2 ^ 32 := by
  cases m <;> simp only [Msg.size] <;> try omega
  case Rversion msize version => have := hv.2; omega
  case Rread data => have : data.length + 11 < 2 ^ 32 := hv; omega
  case Rstat d => have := hv.2.2.2.2.2.2.2.2.2.2; omega

/-- The decoder on the frame of a valid message gives the message the wire
carries, with the size, the type and the tag of the frame. -/
theorem Unpack_frame_msg (m : Msg) (hv : m.Valid) :
    ∃ fc2, Unpack (frame m.typ m.body) = some fc2
      ∧ fc2.FcSize = m.body.length + 7 ∧ fc2.Typ = m.typ ∧ fc2.Tag = NOTAG
      ∧ fc2.msg = some m.onWire := by
  have hsz : m.body.length + 7 < 2 ^ 32 := by rw [body_length m hv]; exact size_lt m hv
  have hid : m.typ < 256 := by cases m <;> simp only [Msg.typ] <;> decide
  rw [Unpack_frame _ _ hid hsz]
  cases m with
  | Rversion msize version =>
    have h1 : msize < 4294967296 := hv.1
    have e2 := gstr_enc version [] hv.2
    rw [List.append_nil] at e2
    simp [Unpack.fields, Msg.typ, Msg.body, gint_le, h1, e2, Fcall.msg, Msg.onWire, Rversion, Rauth, Rattach, Rwalk, Rerror, Rflush, Rclunk, Rremove, Rwstat, Ropen, Rcreate,
      Rread, Rwrite, Rstat]
  | Rauth q =>
    have e2 := gqid_enc q [] hv
    rw [List.append_nil] at e2
    simp [Unpack.fields, Msg.typ, Msg.body, e2, Fcall.msg, Msg.onWire, Rversion, Rauth, Rattach, Rwalk, Rerror, Rflush, Rclunk, Rremove, Rwstat, Ropen, Rcreate,
      Rread, Rwrite, Rstat]
  | Rerror e =>
    have h1 : e.errcode < 65536 := hv
    have e2 := gint_le 2 e.errcode []
    rw [List.append_nil] at e2
    simp [Unpack.fields, Msg.typ, Msg.body, e2, h1, Fcall.msg, Msg.onWire, Rversion, Rauth, Rattach, Rwalk, Rerror, Rflush, Rclunk, Rremove, Rwstat, Ropen, Rcreate,
      Rread, Rwrite, Rstat, Nat.mod_eq_of_lt h1]
  | Rflush =>
    simp [Unpack.fields, Msg.typ, Msg.body, Fcall.msg, Msg.onWire, Rversion, Rauth, Rattach, Rwalk, Rerror, Rflush, Rclunk, Rremove, Rwstat, Ropen, Rcreate,
      Rread, Rwrite, Rstat]
  | Rattach q =>
    have e2 := gqid_enc q [] hv
    rw [List.append_nil] at e2
    simp [Unpack.fields, Msg.typ, Msg.body, e2, Fcall.msg, Msg.onWire, Rversion, Rauth, Rattach, Rwalk, Rerror, Rflush, Rclunk, Rremove, Rwstat, Ropen, Rcreate,
      Rread, Rwrite, Rstat]
  | Rwalk q =>
    have e2 := gqid_enc q [] hv
    rw [List.append_nil] at e2
    simp [Unpack.fields, Msg.typ, Msg.body, e2, Fcall.msg, Msg.onWire, Rversion, Rauth, Rattach, Rwalk, Rerror, Rflush, Rclunk, Rremove, Rwstat, Ropen, Rcreate,
      Rread, Rwrite, Rstat]
  | Ropen q io =>
    have h1 : io < 4294967296 := hv.2
    have e2 := gint_le 4 io []
    rw [List.append_nil] at e2
    simp [Unpack.fields, Msg.typ, Msg.body, gqid_enc q _ hv.1, gint_le, e2, h1, Fcall.msg,
      Msg.onWire, Rversion, Rauth, Rattach, Rwalk, Rerror, Rflush, Rclunk, Rremove, Rwstat, Ropen, Rcreate,
      Rread, Rwrite, Rstat, Nat.mod_eq_of_lt h1]
  | Rcreate q io =>
    have h1 : io < 4294967296 := hv.2
    have e2 := gint_le 4 io []
    rw [List.append_nil] at e2
    simp [Unpack.fields, Msg.typ, Msg.body, gqid_enc q _ hv.1, gint_le, e2, h1, Fcall.msg,
      Msg.onWire, Rversion, Rauth, Rattach, Rwalk, Rerror, Rflush, Rclunk, Rremove, Rwstat, Ropen, Rcreate,
      Rread, Rwrite, Rstat, Nat.mod_eq_of_lt h1]
  | Rread data =>
    have h1 : data.length + 11 < 4294967296 := hv
    have h2 : data.length % 4294967296 = data.length := Nat.mod_eq_of_lt (by omega)
    have h3 : List.drop 11 (le 4 (4 + data.length + 7) ++ (le 1 117 ++ (le 2 NOTAG
        ++ (le 4 data.length ++ data)))) = data := by
      rw [← List.append_assoc, ← List.append_assoc, ← List.append_assoc]
      exact List.drop_left' (by simp)
    simp [Unpack.fields, Msg.typ, Msg.body, gint_le, h2, h3, Fcall.msg, Fcall.bytes, frame,
      Msg.onWire, Rversion, Rauth, Rattach, Rwalk, Rerror, Rflush, Rclunk, Rremove, Rwstat, Ropen, Rcreate,
      Rread, Rwrite, Rstat]
  | Rwrite count =>
    have h1 : count < 4294967296 := hv
    have e2 := gint_le 4 count []
    rw [List.append_nil] at e2
    simp [Unpack.fields, Msg.typ, Msg.body, e2, h1, Fcall.msg, Msg.onWire, Rversion, Rauth, Rattach, Rwalk, Rerror, Rflush, Rclunk, Rremove, Rwstat, Ropen, Rcreate,
      Rread, Rwrite, Rstat, Nat.mod_eq_of_lt h1]
  | Rclunk =>
    simp [Unpack.fields, Msg.typ, Msg.body, Fcall.msg, Msg.onWire, Rversion, Rauth, Rattach, Rwalk, Rerror, Rflush, Rclunk, Rremove, Rwstat, Ropen, Rcreate,
      Rread, Rwrite, Rstat]
  | Rremove =>
    simp [Unpack.fields, Msg.typ, Msg.body, Fcall.msg, Msg.onWire, Rversion, Rauth, Rattach, Rwalk, Rerror, Rflush, Rclunk, Rremove, Rwstat, Ropen, Rcreate,
      Rread, Rwrite, Rstat]
  | Rstat d =>
    have h1 : statsz d < 65536 := hv.2.2.2.2.2.2.2.2.2.2
    have h2 : statsz d % 65536 = statsz d := Nat.mod_eq_of_lt h1
    have e2 := gstat_enc d [] hv
    rw [List.append_nil] at e2
    simp [Unpack.fields, Msg.typ, Msg.body, gint_le, e2, h2, encStat_length d hv, Fcall.msg,
      Msg.onWire, Rversion, Rauth, Rattach, Rwalk, Rerror, Rflush, Rclunk, Rremove, Rwstat, Ropen, Rcreate,
      Rread, Rwrite, Rstat]
  | Rwstat =>
    simp [Unpack.fields, Msg.typ, Msg.body, Fcall.msg, Msg.onWire, Rversion, Rauth, Rattach, Rwalk, Rerror, Rflush, Rclunk, Rremove, Rwstat, Ropen, Rcreate,
      Rread, Rwrite, Rstat]

theorem copy_data (hdr cnt data B : List Nat) (hh : hdr.length = 7) (hc : cnt.length = 4) :
    (hdr ++ cnt ++ B).take 11 ++ data ++ (hdr ++ cnt ++ B).drop (11 + data.length)
      = hdr ++ cnt ++ data ++ B.drop data.length := by
  have h11 : (hdr ++ cnt).length = 11 := by simp [hh, hc]
  rw [List.take_left' h11, ← h11, List.drop_append]

/-- The method `InitRread` on a count whose frame fits the 32-bit size field
and the buffer: it returns nil, the buffer holds the header and the count, and
`Data` is the slice of `count` bytes after them. -/
theorem InitRread_ok (fc : Fcall) (count : Nat) (hb : 4 + count + 7 ≤ fc.Buf.length)
    (h32 : 4 + count + 7 < 2 ^ 32) :
    ∃ fc1, InitRread fc count = Run.done (fc1, none)
      ∧ fc1.Buf = le 4 (4 + count + 7) ++ le 1 Rread ++ le 2 NOTAG ++ le 4 count
          ++ fc.Buf.drop 11
      ∧ fc1.Data = ⟨11, count⟩ ∧ fc1.Pkt = ⟨0, 4 + count + 7⟩ ∧ fc1.FcSize = 4 + count + 7
      ∧ fc1.Typ = Rread ∧ fc1.Tag = NOTAG := by
  have hc : (4 + count) % 2 ^ 32 = 4 + count := Nat.mod_eq_of_lt (by omega)
  have hc2 : (count + 4) % 2 ^ 32 = count + 4 := Nat.mod_eq_of_lt (by omega)
  have hif : 4 ≤ count + 4 ∧ count + 4 ≤ fc.Buf.length - 7 := by omega
  refine ⟨?_, ?_, ?_, ?_, ?_, ?_, ?_, ?_⟩
  rotate_left
  · simp only [InitRread, hc]
    rw [packCommon_ok fc _ Rread h32 hb]
    simp only [hc2, hif, and_self, if_true]
    have hW : IsPut (pint32 count) (le 4 count) := IsPut_put _
    rw [write_body hW _
      (le 4 (4 + count + 7) ++ le 1 Rread ++ le 2 NOTAG) fc.Buf rfl (by simp)
      (by simp only [le_length]; omega)]
    exact rfl
  · simp only [le_length]
  · simp only [Nat.add_sub_cancel]
  · rfl
  · rfl
  · rfl
  · rfl

/-- Every packer, on a valid message and a buffer that holds its frame, returns
nil and leaves in `Pkt` the frame of the message: the header with the size of
the frame, the type of the variant and the tag `NOTAG`, then the field bytes;
the `Fcall` holds the message. -/
theorem pack_frame (fc : Fcall) (m : Msg) (hv : m.Valid) (hb : m.size + 7 ≤ fc.Buf.length) :
    ∃ fc1, pack fc m = Run.done (fc1, none) ∧ fc1.msg = some m
      ∧ fc1.bytes fc1.Pkt = frame m.typ m.body
      ∧ fc1.FcSize = m.body.length + 7 ∧ fc1.Typ = m.typ ∧ fc1.Tag = NOTAG := by
  have h32 := size_lt m hv
  cases m with
  | Rversion msize version =>
    simp only [Msg.size] at hb h32
    have hlen : (le 4 msize ++ encStr version).length = 4 + 2 + version.length := by
      rw [List.length_append, le_length, encStr_length _ hv.2, Nat.add_assoc]
    have hW := (IsPut_bind (IsPut_put (le 4 msize)) (IsPut_pstr version))
    refine ⟨?_, ?_, ?_, ?_, ?_, ?_, ?_⟩
    rotate_left
    · simp only [pack, packRversion]
      rw [packCommon_ok fc _ Warp9.Rversion (by omega) hb]
      refine packed hW fc _ Warp9.Rversion _ id ?_ hlen hb
      rfl
    · simp [Fcall.msg, Rversion, Rauth, Rattach, Rwalk, Rerror, Rflush, Rclunk, Rremove, Rwstat, Ropen, Rcreate,
      Rread, Rwrite, Rstat]
    · exact bytes_Pkt _ _ _ rfl (by simp only [Msg.body, Msg.typ, frame_length, hlen]; rfl)
    · simp only [Msg.body, hlen]; rfl
    · rfl
    · rfl
  | Rauth q =>
    simp only [Msg.size] at hb h32
    have hW := IsPut_pqid q
    refine ⟨?_, ?_, ?_, ?_, ?_, ?_, ?_⟩
    rotate_left
    · simp only [pack, packRauth]
      rw [packCommon_ok fc _ Warp9.Rauth (by omega) hb]
      refine packed hW fc _ Warp9.Rauth _ id ?_ (encQid_length q) hb
      rfl
    · simp [Fcall.msg, Rversion, Rauth, Rattach, Rwalk, Rerror, Rflush, Rclunk, Rremove, Rwstat, Ropen, Rcreate,
      Rread, Rwrite, Rstat]
    · exact bytes_Pkt _ _ _ rfl (by simp only [Msg.body, Msg.typ, frame_length, (encQid_length q)]; rfl)
    · simp only [Msg.body, (encQid_length q)]; rfl
    · rfl
    · rfl
  | Rerror e =>
    simp only [Msg.size] at hb h32
    have hW := IsPut_put (le 2 e.errcode)
    refine ⟨?_, ?_, ?_, ?_, ?_, ?_, ?_⟩
    rotate_left
    · simp only [pack, packRerror]
      rw [packCommon_ok fc _ Warp9.Rerror (by omega) hb]
      refine packed hW fc _ Warp9.Rerror _ id ?_ (le_length 2 e.errcode) hb
      rfl
    · simp [Fcall.msg, Rversion, Rauth, Rattach, Rwalk, Rerror, Rflush, Rclunk, Rremove, Rwstat, Ropen, Rcreate,
      Rread, Rwrite, Rstat]
    · exact bytes_Pkt _ _ _ rfl (by simp only [Msg.body, Msg.typ, frame_length, (le_length 2 e.errcode)]; rfl)
    · simp only [Msg.body, (le_length 2 e.errcode)]; rfl
    · rfl
    · rfl
  | Rflush =>
    simp only [Msg.size] at hb h32
    refine ⟨?_, ?_, ?_, ?_, ?_, ?_, ?_⟩
    rotate_left
    · simp only [pack, packRflush]
      rw [packCommon_ok fc _ Warp9.Rflush (by omega) hb]
      exact rfl
    · simp [Fcall.msg, Rversion, Rauth, Rattach, Rwalk, Rerror, Rflush, Rclunk, Rremove, Rwstat, Ropen, Rcreate,
      Rread, Rwrite, Rstat]
    · exact bytes_Pkt _ _ (fc.Buf.drop 7) (by simp [frame, Msg.body, Msg.typ]) (by simp [Msg.body])
    · simp [Msg.body]
    · rfl
    · rfl
  | Rattach q =>
    simp only [Msg.size] at hb h32
    have hW := IsPut_pqid q
    refine ⟨?_, ?_, ?_, ?_, ?_, ?_, ?_⟩
    rotate_left
    · simp only [pack, packRattach]
      rw [packCommon_ok fc _ Warp9.Rattach (by omega) hb]
      refine packed hW fc _ Warp9.Rattach _ id ?_ (encQid_length q) hb
      rfl
    · simp [Fcall.msg, Rversion, Rauth, Rattach, Rwalk, Rerror, Rflush, Rclunk, Rremove, Rwstat, Ropen, Rcreate,
      Rread, Rwrite, Rstat]
    · exact bytes_Pkt _ _ _ rfl (by simp only [Msg.body, Msg.typ, frame_length, (encQid_length q)]; rfl)
    · simp only [Msg.body, (encQid_length q)]; rfl
    · rfl
    · rfl
  | Rwalk q =>
    simp only [Msg.size] at hb h32
    have hW := IsPut_pqid q
    refine ⟨?_, ?_, ?_, ?_, ?_, ?_, ?_⟩
    rotate_left
    · simp only [pack, packRwalk]
      rw [packCommon_ok fc _ Warp9.Rwalk (by omega) hb]
      refine packed hW fc _ Warp9.Rwalk _ id ?_ (encQid_length q) hb
      rfl
    · simp [Fcall.msg, Rversion, Rauth, Rattach, Rwalk, Rerror, Rflush, Rclunk, Rremove, Rwstat, Ropen, Rcreate,
      Rread, Rwrite, Rstat]
    · exact bytes_Pkt _ _ _ rfl (by simp only [Msg.body, Msg.typ, frame_length, (encQid_length q)]; rfl)
    · simp only [Msg.body, (encQid_length q)]; rfl
    · rfl
    · rfl
  | Ropen q io =>
    simp only [Msg.size] at hb h32
    have hlen : (encQid q ++ le 4 io).length = 13 + 4 := by
      rw [List.length_append, le_length, encQid_length]
    have hW := (IsPut_bind (IsPut_pqid q) (IsPut_put (le 4 io)))
    refine ⟨?_, ?_, ?_, ?_, ?_, ?_, ?_⟩
    rotate_left
    · simp only [pack, packRopen]
      rw [packCommon_ok fc _ Warp9.Ropen (by omega) hb]
      refine packed hW fc _ Warp9.Ropen _ id ?_ hlen hb
      rfl
    · simp [Fcall.msg, Rversion, Rauth, Rattach, Rwalk, Rerror, Rflush, Rclunk, Rremove, Rwstat, Ropen, Rcreate,
      Rread, Rwrite, Rstat]
    · exact bytes_Pkt _ _ _ rfl (by simp only [Msg.body, Msg.typ, frame_length, hlen]; rfl)
    · simp only [Msg.body, hlen]; rfl
    · rfl
    · rfl
  | Rcreate q io =>
    simp only [Msg.size] at hb h32
    have hlen : (encQid q ++ le 4 io).length = 13 + 4 := by
      rw [List.length_append, le_length, encQid_length]
    have hW := (IsPut_bind (IsPut_pqid q) (IsPut_put (le 4 io)))
    refine ⟨?_, ?_, ?_, ?_, ?_, ?_, ?_⟩
    rotate_left
    · simp only [pack, packRcreate]
      rw [packCommon_ok fc _ Warp9.Rcreate (by omega) hb]
      refine packed hW fc _ Warp9.Rcreate _ id ?_ hlen hb
      rfl
    · simp [Fcall.msg, Rversion, Rauth, Rattach, Rwalk, Rerror, Rflush, Rclunk, Rremove, Rwstat, Ropen, Rcreate,
      Rread, Rwrite, Rstat]
    · exact bytes_Pkt _ _ _ rfl (by simp only [Msg.body, Msg.typ, frame_length, hlen]; rfl)
    · simp only [Msg.body, hlen]; rfl
    · rfl
    · rfl
  | Rread data =>
    simp only [Msg.size] at hb h32
    have hc : data.length % 2 ^ 32 = data.length := Nat.mod_eq_of_lt (by omega)
    obtain ⟨fcI, hI, hbuf, hdata, hpkt, hsize, htyp, htag⟩ := InitRread_ok fc data.length hb h32
    have hB : List.take 11 fcI.Buf ++ List.take (min data.length data.length) data
        ++ List.drop (11 + min data.length data.length) fcI.Buf
        = frame Rread (le 4 data.length ++ data) ++ (fc.Buf.drop 11).drop data.length := by
      rw [hbuf]
      simp only [Nat.min_self, List.take_length]
      rw [copy_data _ _ _ _ (by simp) (by simp)]
      simp only [frame, List.length_append, le_length, List.append_assoc]
    have hd : (frame Rread (le 4 data.length ++ data)).drop 11 = data := by
      simp only [frame, ← List.append_assoc]
      exact List.drop_left' (by simp)
    refine ⟨?_, ?_, ?_, ?_, ?_, ?_, ?_⟩
    rotate_left
    · simp only [pack, packRread, hc, hI, Run.bind]
      exact rfl
    · simp only [Fcall.msg, htyp, Fcall.bytes, hdata]
      rw [hB, List.drop_append_of_le_length (by simp), hd, List.take_left' rfl]
      simp [Rversion, Rauth, Rattach, Rwalk, Rerror, Rflush, Rclunk, Rremove, Rwstat, Ropen,
        Rcreate, Rread, Rwrite, Rstat]
    · refine bytes_Pkt _ _ ((fc.Buf.drop 11).drop data.length) ?_ ?_
      · simp only [hdata, Msg.typ, Msg.body, hc]
        exact hB
      · simp only [hpkt, frame_length, Msg.body, List.length_append, le_length]
    · simp only [Msg.body, hsize, List.length_append, le_length]
    · exact htyp
    · exact htag
  | Rwrite count =>
    simp only [Msg.size] at hb h32
    have hW := IsPut_put (le 4 count)
    refine ⟨?_, ?_, ?_, ?_, ?_, ?_, ?_⟩
    rotate_left
    · simp only [pack, packRwrite]
      rw [packCommon_ok fc _ Warp9.Rwrite (by omega) hb]
      refine packed hW fc _ Warp9.Rwrite _ id ?_ (le_length 4 count) hb
      rfl
    · simp [Fcall.msg, Rversion, Rauth, Rattach, Rwalk, Rerror, Rflush, Rclunk, Rremove, Rwstat, Ropen, Rcreate,
      Rread, Rwrite, Rstat]
    · exact bytes_Pkt _ _ _ rfl (by simp only [Msg.body, Msg.typ, frame_length, (le_length 4 count)]; rfl)
    · simp only [Msg.body, (le_length 4 count)]; rfl
    · rfl
    · rfl
  | Rclunk =>
    simp only [Msg.size] at hb h32
    refine ⟨?_, ?_, ?_, ?_, ?_, ?_, ?_⟩
    rotate_left
    · simp only [pack, packRclunk]
      rw [packCommon_ok fc _ Warp9.Rclunk (by omega) hb]
      exact rfl
    · simp [Fcall.msg, Rversion, Rauth, Rattach, Rwalk, Rerror, Rflush, Rclunk, Rremove, Rwstat, Ropen, Rcreate,
      Rread, Rwrite, Rstat]
    · exact bytes_Pkt _ _ (fc.Buf.drop 7) (by simp [frame, Msg.body, Msg.typ]) (by simp [Msg.body])
    · simp [Msg.body]
    · rfl
    · rfl
  | Rremove =>
    simp only [Msg.size] at hb h32
    refine ⟨?_, ?_, ?_, ?_, ?_, ?_, ?_⟩
    rotate_left
    · simp only [pack, packRremove]
      rw [packCommon_ok fc _ Warp9.Rremove (by omega) hb]
      exact rfl
    · simp [Fcall.msg, Rversion, Rauth, Rattach, Rwalk, Rerror, Rflush, Rclunk, Rremove, Rwstat, Ropen, Rcreate,
      Rread, Rwrite, Rstat]
    · exact bytes_Pkt _ _ (fc.Buf.drop 7) (by simp [frame, Msg.body, Msg.typ]) (by simp [Msg.body])
    · simp [Msg.body]
    · rfl
    · rfl
  | Rstat d =>
    simp only [Msg.size] at hb h32
    have hlen : (le 2 (statsz d % 2 ^ 16) ++ encStat d).length = 2 + statsz d := by
      rw [List.length_append, le_length, encStat_length d hv]
    have hW := (IsPut_bind (IsPut_put (le 2 (statsz d % 2 ^ 16))) (IsPut_pstat d))
    refine ⟨?_, ?_, ?_, ?_, ?_, ?_, ?_⟩
    rotate_left
    · simp only [pack, packRstat]
      rw [packCommon_ok fc _ Warp9.Rstat (by omega) hb]
      refine packed hW fc _ Warp9.Rstat _ (fun x => { x with Dir := d }) ?_ hlen hb
      rfl
    · simp [Fcall.msg, Rversion, Rauth, Rattach, Rwalk, Rerror, Rflush, Rclunk, Rremove, Rwstat, Ropen, Rcreate,
      Rread, Rwrite, Rstat]
    · exact bytes_Pkt _ _ _ rfl (by simp only [Msg.body, Msg.typ, frame_length, hlen])
    · simp only [Msg.body, hlen]
    · rfl
    · rfl
  | Rwstat =>
    simp only [Msg.size] at hb h32
    refine ⟨?_, ?_, ?_, ?_, ?_, ?_, ?_⟩
    rotate_left
    · simp only [pack, packRwstat]
      rw [packCommon_ok fc _ Warp9.Rwstat (by omega) hb]
      exact rfl
    · simp [Fcall.msg, Rversion, Rauth, Rattach, Rwalk, Rerror, Rflush, Rclunk, Rremove, Rwstat, Ropen, Rcreate,
      Rread, Rwrite, Rstat]
    · exact bytes_Pkt _ _ (fc.Buf.drop 7) (by simp [frame, Msg.body, Msg.typ]) (by simp [Msg.body])
    · simp [Msg.body]
    · rfl
    · rfl

/-- C10, as stated, fails for Rerror: the valid errors WarpError{5, "x"} and
WarpError{5, "y"} differ, both are packed without error, and they leave the
same bytes in the packet, which hold the error code and not the message; so
decoding the packet does not give back the message packed. -/
theorem packRerror_not_injective :
    (Msg.Rerror errX).Valid ∧ (Msg.Rerror errY).Valid ∧ Msg.Rerror errX ≠ Msg.Rerror errY
      ∧ ∃ fc1 fc2, pack fc64 (Msg.Rerror errX) = Run.done (fc1, none)
        ∧ pack fc64 (Msg.Rerror errY) = Run.done (fc2, none)
        ∧ fc1.msg = some (Msg.Rerror errX) ∧ fc2.msg = some (Msg.Rerror errY)
        ∧ fc1.bytes fc1.Pkt = [9, 0, 0, 0, 107, 255, 255, 5, 0]
        ∧ fc2.bytes fc2.Pkt = fc1.bytes fc1.Pkt
        ∧ (Unpack (fc1.bytes fc1.Pkt)).bind Fcall.msg ≠ some (Msg.Rerror errX) :=
  ⟨by decide, by decide, by decide, _, _, rfl, rfl, by decide, by decide, by decide, by decide,
    by decide⟩

/-- C10, amended: for every response variant and every valid message m, on an
Fcall whose buffer holds the frame, the packer returns nil, the Fcall then
holds m, and decoding the packet gives an Fcall with the same size, type and
tag that holds what the wire carries of m: m itself for every variant but
Rerror, and for Rerror the error with its code and without its message
string. Two valid messages that are packed to the same bytes are therefore the
same on the wire. -/
theorem pack_Unpack_roundtrip (fc : Fcall) (m : Msg) (hv : m.Valid)
    (hb : m.size + 7 ≤ fc.Buf.length) :
    ∃ fc1, pack fc m = Run.done (fc1, none) ∧ fc1.msg = some m
      ∧ (∃ fc2, Unpack (fc1.bytes fc1.Pkt) = some fc2
          ∧ fc2.FcSize = fc1.FcSize ∧ fc2.Typ = fc1.Typ ∧ fc2.Tag = fc1.Tag
          ∧ fc2.msg = some m.onWire)
      ∧ ∀ (fc3 : Fcall) (m2 : Msg), m2.Valid → m2.size + 7 ≤ fc3.Buf.length →
          ∀ fc4, pack fc3 m2 = Run.done (fc4, none) →
            fc4.bytes fc4.Pkt = fc1.bytes fc1.Pkt → m2.onWire = m.onWire := by
  obtain ⟨fc1, hp, hm, hbytes, hsize, htyp, htag⟩ := pack_frame fc m hv hb
  obtain ⟨fc2, hu, h1, h2, h3, h4⟩ := Unpack_frame_msg m hv
  refine ⟨fc1, hp, hm, ⟨fc2, by rw [hbytes]; exact hu, by rw [h1, hsize], by rw [h2, htyp],
    by rw [h3, htag], h4⟩, fun fc3 m2 hv2 hb2 fc4 hp2 heq => ?_⟩
  obtain ⟨fc5, hp5, _, hbytes5, _⟩ := pack_frame fc3 m2 hv2 hb2
  rw [hp2] at hp5
  obtain rfl : fc4 = fc5 := by simpa using hp5
  obtain ⟨fc6, hu6, _, _, _, h6⟩ := Unpack_frame_msg m2 hv2
  rw [← hbytes5, heq, hbytes, hu] at hu6
  obtain rfl : fc2 = fc6 := by simpa using hu6
  rw [h4] at h6
  exact (Option.some.inj h6).symm

/-- Witness of C10, amended: the Rstat of the Dir of exFile, packed into a buffer of 64 bytes. -/
theorem pack_Unpack_roundtrip_witness :
    ∃ fc1, pack fc64 (Msg.Rstat exFile.Dir) = Run.done (fc1, none)
      ∧ fc1.msg = some (Msg.Rstat exFile.Dir)
      ∧ (∃ fc2, Unpack (fc1.bytes fc1.Pkt) = some fc2
          ∧ fc2.FcSize = fc1.FcSize ∧ fc2.Typ = fc1.Typ ∧ fc2.Tag = fc1.Tag
          ∧ fc2.msg = some (Msg.Rstat exFile.Dir).onWire)
      ∧ ∀ (fc3 : Fcall) (m2 : Msg), m2.Valid → m2.size + 7 ≤ fc3.Buf.length →
          ∀ fc4, pack fc3 m2 = Run.done (fc4, none) →
            fc4.bytes fc4.Pkt = fc1.bytes fc1.Pkt → m2.onWire = (Msg.Rstat exFile.Dir).onWire :=
  pack_Unpack_roundtrip fc64 (Msg.Rstat exFile.Dir) (by decide) (by decide)

/-- The store after the first assignment of the unlinking in `Remove`. -/
theorem Remove.unlink_step (s : Store) (f p : Nat) (hn : (s.files f).next ≠ some f) (s1 : Store)
    (hs1 : s1 = match (s.files f).next with
      | some n => s.modify n fun x => { x with prev := (s.files f).prev }
      | none => s.modify p fun x => { x with clast := (s.files f).prev }) :
    (s1.files f).prev = (s.files f).prev ∧ (s1.files f).next = (s.files f).next := by
  subst hs1
  cases h1 : (s.files f).next with
  | none =>
    simp only [Store.modify_files]
    split_ifs with h
    · subst h
      exact ⟨rfl, h1⟩
    · exact ⟨rfl, h1⟩
  | some n =>
    have hfn : f ≠ n := fun h => hn (by rw [h1, h])
    simp only [Store.modify_files, hfn, if_false]
    exact ⟨trivial, h1⟩

theorem Remove.unlink_files (s : Store) (f p a : Nat) (hn : (s.files f).next ≠ some f)
    (hm : (s.files f).prev ≠ some f) :
    (Remove.unlink s f p).files a =
      { s.files a with
        next := if a = f then none else if (s.files f).prev = some a then (s.files f).next
          else (s.files a).next,
        prev := if a = f then none else if (s.files f).next = some a then (s.files f).prev
          else (s.files a).prev,
        cfirst := if a = p ∧ (s.files f).prev = none then (s.files f).next
          else (s.files a).cfirst,
        clast := if a = p ∧ (s.files f).next = none then (s.files f).prev
          else (s.files a).clast } := by
  obtain ⟨e1, e2⟩ := Remove.unlink_step s f p hn _ rfl
  simp only [Remove.unlink]
  rw [e1, e2]
  cases h1 : (s.files f).next with
  | none =>
    cases h2 : (s.files f).prev with
    | none =>
      simp only [Store.modify_files]
      split_ifs <;> first | rfl | (exfalso; omega) | (subst_vars; simp_all)
    | some m =>
      have hmf : m ≠ f := fun h => hm (by rw [h2, h])
      simp only [Store.modify_files]
      split_ifs <;> first | rfl | (exfalso; omega) | (subst_vars; simp_all)
  | some n =>
    have hnf : n ≠ f := fun h => hn (by rw [h1, h])
    cases h2 : (s.files f).prev with
    | none =>
      simp only [Store.modify_files]
      split_ifs <;> first | rfl | (exfalso; omega) | (subst_vars; simp_all)
    | some m =>
      have hmf : m ≠ f := fun h => hm (by rw [h2, h])
      simp only [Store.modify_files]
      split_ifs <;> first | rfl | (exfalso; omega) | (subst_vars; simp_all)

theorem IsDChain_chain {files : Nat → W9File} :
    ∀ {l : List Nat} {b p : Option Nat}, IsDChain files b p l → IsChain files p l
  | [], _, _, h => h
  | _ :: _, _, _, h => ⟨h.1, IsDChain_chain h.2.2⟩

theorem IsDChain_congr {files files2 : Nat → W9File} :
    ∀ {l : List Nat} {b p : Option Nat}, IsDChain files b p l →
      (∀ a ∈ l, (files2 a).next = (files a).next ∧ (files2 a).prev = (files a).prev) →
      IsDChain files2 b p l
  | [], _, _, h, _ => h
  | a :: l, _, _, h, hn => by
    obtain ⟨hp, hb, hl⟩ := h
    obtain ⟨h1, h2⟩ := hn a (List.mem_cons_self a l)
    refine ⟨hp, h2.trans hb, ?_⟩
    rw [h1]
    exact IsDChain_congr hl fun c hc => hn c (List.mem_cons_of_mem a hc)

theorem IsDChain_prev {files : Nat → W9File} {f : Nat} {l2 : List Nat} :
    ∀ (l1 : List Nat) (b p : Option Nat), IsDChain files b p (l1 ++ f :: l2) →
      (files f).prev = (l1.getLast?).or b
  | [], _, _, h => by simpa using h.2.1
  | [a], _, _, h => by simpa using h.2.2.2.1
  | a :: c :: l1, _, _, h => by
    have := IsDChain_prev (c :: l1) (some a) (files a).next h.2.2
    rw [this, List.getLast?_cons_cons]
    cases hl : (c :: l1).getLast? with
    | none => simp at hl
    | some x => rfl

theorem IsDChain_next {files : Nat → W9File} {f : Nat} {l2 : List Nat} :
    ∀ (l1 : List Nat) (b p : Option Nat), IsDChain files b p (l1 ++ f :: l2) →
      (files f).next = l2.head? ∧ IsDChain files (some f) (files f).next l2
  | [], _, _, h => by
    refine ⟨?_, h.2.2⟩
    cases l2 with
    | nil => exact h.2.2
    | cons n l2 => exact h.2.2.1
  | a :: l1, _, _, h => IsDChain_next l1 (some a) (files a).next h.2.2

/-- Unlinking `f` from a doubly linked chain: when every node other than `f`
has the links the unlinking gives it, the chain without `f` is doubly linked. -/
theorem IsDChain_unlink {files files2 : Nat → W9File} {f : Nat} {l2 : List Nat}
    (H : ∀ a, a ≠ f →
      (files2 a).next = (if (files f).prev = some a then (files f).next else (files a).next)
        ∧ (files2 a).prev = (if (files f).next = some a then (files f).prev
            else (files a).prev)) :
    ∀ (l1 : List Nat) (b p : Option Nat), IsDChain files b p (l1 ++ f :: l2) →
      (l1 ++ f :: l2).Nodup → (∀ n ∈ l2, b ≠ some n) →
      IsDChain files2 b (if l1 = [] then (files f).next else p) (l1 ++ l2)
  | [], b, p, h, hnd, hb => by
    obtain ⟨_, hprev, hl2⟩ := h
    simp only [List.nil_append, if_true] at hnd ⊢
    cases l2 with
    | nil => exact hl2
    | cons n l2 =>
      obtain ⟨hn, hnp, hrest⟩ := hl2
      have hnf : n ≠ f := fun h => (List.nodup_cons.mp hnd).1 (by simp [h])
      have hnd2 := (List.nodup_cons.mp (List.nodup_cons.mp hnd).2)
      obtain ⟨h1, h2⟩ := H n hnf
      refine ⟨hn, ?_, ?_⟩
      · rw [h2, if_pos hn, hprev]
      · rw [h1, if_neg (by rw [hprev]; exact hb n (by simp))]
        refine IsDChain_congr hrest fun a ha => ?_
        have haf : a ≠ f := fun h => (List.nodup_cons.mp hnd).1 (by simp [← h, ha])
        have han : a ≠ n := fun h => hnd2.1 (h ▸ ha)
        obtain ⟨h3, h4⟩ := H a haf
        rw [h3, h4, if_neg (by rw [hprev]; exact hb a (by simp [ha])),
          if_neg (by rw [hn]; exact fun h => han (Option.some.inj h).symm)]
        exact ⟨rfl, rfl⟩
  | a :: l1, b, p, h, hnd, hb => by
    obtain ⟨hp, hprev, hrest⟩ := h
    simp only [List.cons_append, List.nodup_cons] at hnd
    have haf : a ≠ f := fun h => hnd.1 (by simp [h])
    have hal2 : ∀ n ∈ l2, (some a : Option Nat) ≠ some n := fun n hn h =>
      hnd.1 (by simp [Option.some.inj h, hn])
    obtain ⟨h1, h2⟩ := H a haf
    have ih := IsDChain_unlink H l1 (some a) (files a).next hrest hnd.2 hal2
    have hnext_ne : (files f).next ≠ some a := by
      have hf := IsDChain_chain hrest
      intro hfa
      have hsuf := IsChain_suffix hf
      rw [hfa] at hsuf
      cases l2 with
      | nil => exact absurd hsuf (by simp [IsChain])
      | cons n l2 =>
        have : a = n := Option.some.inj hsuf.1
        exact hal2 n (by simp) (by rw [this])
    simp only [List.cons_append, reduceCtorEq, if_false]
    refine ⟨hp, by rw [h2, if_neg hnext_ne, hprev], ?_⟩
    cases l1 with
    | nil =>
      simp only [List.nil_append, if_true] at ih ⊢
      have hfp : (files f).prev = some a := hrest.2.1
      rw [h1, if_pos hfp]
      exact ih
    | cons c l1 =>
      simp only [reduceCtorEq, if_false] at ih
      have hfp : (files f).prev ≠ some a := by
        rw [IsDChain_prev (c :: l1) (some a) (files a).next hrest]
        cases hl : (c :: l1).getLast? with
        | none => simp at hl
        | some x =>
          intro hx
          have hxa : x = a := by simpa using hx
          have hmem := List.mem_of_getLast?_eq_some hl
          exact hnd.1 (by rw [← hxa]; exact List.mem_append_left _ hmem)
      rw [h1, if_neg hfp]
      exact ih

/-- On a node f that is linked in the doubly linked child list of its parent
p, and is not flagged removed, Remove returns and has removed only f: the
child list of p is the list without f, still doubly linked, the links of f
are nil, f is flagged removed, and no Dir has changed. -/
theorem Remove_linked (s : Store) (f p : Nat) (l1 l2 : List Nat)
    (hD : DChildren s p (l1 ++ f :: l2)) (hP : (s.files f).Parent = some p)
    (hflag : (s.files f).flags &&& Fremoved = 0) :
    ∃ s1, Remove s f = Run.done s1 ∧ DChildren s1 p (l1 ++ l2)
      ∧ (∀ a, (s1.files a).Dir = (s.files a).Dir)
      ∧ (s1.files f).next = none ∧ (s1.files f).prev = none
      ∧ (s1.files f).flags &&& Fremoved ≠ 0 := by
  obtain ⟨hch, hlast⟩ := hD
  have hnd := IsChain_nodup (IsDChain_chain hch)
  have hprev := IsDChain_prev l1 none _ hch
  obtain ⟨hnext, _⟩ := IsDChain_next l1 none _ hch
  have hfl1 : f ∉ l1 := fun h => by
    rw [List.nodup_append] at hnd
    exact hnd.2.2 h (by simp)
  have hfl2 : f ∉ l2 := fun h => by
    rw [List.nodup_append] at hnd
    exact (List.nodup_cons.mp hnd.2.1).1 h
  have hn : (s.files f).next ≠ some f := by
    rw [hnext]
    intro h
    exact hfl2 (List.mem_of_mem_head? h)
  have hm : (s.files f).prev ≠ some f := by
    rw [hprev, Option.or_none]
    intro h
    exact hfl1 (List.mem_of_getLast?_eq_some h)
  -- the store after the flag is set
  have h0 : ∀ a, ((s.modify f fun x => { x with flags := x.flags ||| Fremoved }).files a).next
        = (s.files a).next
      ∧ ((s.modify f fun x => { x with flags := x.flags ||| Fremoved }).files a).prev
        = (s.files a).prev
      ∧ ((s.modify f fun x => { x with flags := x.flags ||| Fremoved }).files a).cfirst
        = (s.files a).cfirst
      ∧ ((s.modify f fun x => { x with flags := x.flags ||| Fremoved }).files a).clast
        = (s.files a).clast
      ∧ ((s.modify f fun x => { x with flags := x.flags ||| Fremoved }).files a).Dir
        = (s.files a).Dir
      ∧ ((s.modify f fun x => { x with flags := x.flags ||| Fremoved }).files a).Parent
        = (s.files a).Parent := by
    intro a
    simp only [Store.modify_files]
    split_ifs with h
    · subst h
      exact ⟨rfl, rfl, rfl, rfl, rfl, rfl⟩
    · exact ⟨rfl, rfl, rfl, rfl, rfl, rfl⟩
  have hrem : Remove s f = Run.done (Remove.unlink
      (s.modify f fun x => { x with flags := x.flags ||| Fremoved }) f p) := by
    unfold Remove
    rw [if_neg (by simpa using hflag)]
    simp only [(h0 f).2.2.2.2.2, hP]
  have hU := fun a => Remove.unlink_files
    (s.modify f fun x => { x with flags := x.flags ||| Fremoved }) f p a
    (by rw [(h0 f).1]; exact hn) (by rw [(h0 f).2.1]; exact hm)
  simp only [(h0 f).1, (h0 f).2.1] at hU
  refine ⟨_, hrem, ⟨?_, ?_⟩, fun a => ?_, ?_, ?_, ?_⟩
  · have hc := @IsDChain_unlink s.files
      (Remove.unlink (s.modify f fun x =>
        { x with flags := x.flags ||| Fremoved }) f p).files f l2
      (fun a haf => by
        rw [hU a]
        simp [haf, (h0 a).1, (h0 a).2.1])
      l1 none _ hch hnd (fun n _ h => by simp at h)
    rw [hU p]
    simp only [true_and, (h0 p).2.2.1]
    cases l1 with
    | nil =>
      simp only [if_true, List.nil_append] at hc ⊢
      rw [if_pos (by simpa using hprev)]
      exact hc
    | cons c l1 =>
      simp only [reduceCtorEq, if_false] at hc
      rw [if_neg]
      · exact hc
      · rw [hprev, Option.or_none]
        cases hl : (c :: l1).getLast? with
        | none => simp at hl
        | some x => simp
  · rw [hU p]
    simp only [true_and, (h0 p).2.2.2.1]
    cases l2 with
    | nil =>
      rw [if_pos (by simpa using hnext), hprev, Option.or_none, List.append_nil]
    | cons n l2 =>
      rw [if_neg (by rw [hnext]; simp), hlast]
      simp [List.getLast?_append]
  · rw [hU a, (h0 a).2.2.2.2.1]
  · rw [hU f]
    simp
  · rw [hU f]
    simp
  · rw [Remove.unlink_flags, Store.modify_files, if_pos rfl]
    exact or_and_Fremoved _

/-- After Remove on a node f linked in the child list of its parent p, whose
children have pairwise distinct names, every other child is still found by
Find under its name and the name of f is no longer found. -/
theorem Remove_linked_Find (s : Store) (f p : Nat) (l1 l2 : List Nat)
    (hD : DChildren s p (l1 ++ f :: l2)) (hP : (s.files f).Parent = some p)
    (hflag : (s.files f).flags &&& Fremoved = 0)
    (hnames : ((l1 ++ f :: l2).map s.name).Nodup) (fuel : Nat)
    (hfuel : (l1 ++ l2).length < fuel) :
    ∃ s1, Remove s f = Run.done s1 ∧ Children s1 p (l1 ++ l2)
      ∧ (∀ c ∈ l1 ++ l2, Find s1 p (s.name c) fuel = Run.done (s1, some c))
      ∧ Find s1 p (s.name f) fuel = Run.done (s1, none) := by
  obtain ⟨s1, hrem, hD1, hdir, _⟩ := Remove_linked s f p l1 l2 hD hP hflag
  have hch := IsDChain_chain hD1.1
  have hname : ∀ a, (s1.files a).Dir.Name = s.name a := fun a => by rw [hdir a]; rfl
  have hinj := List.inj_on_of_nodup_map hnames
  have hmem : ∀ c ∈ l1 ++ l2, c ∈ l1 ++ f :: l2 := fun c hc => by
    rcases List.mem_append.mp hc with h | h
    · exact List.mem_append_left _ h
    · exact List.mem_append_right _ (List.mem_cons_of_mem _ h)
  have hnd := IsChain_nodup hch
  have hfnot : f ∉ l1 ++ l2 := by
    have := IsChain_nodup (IsDChain_chain hD.1)
    rw [List.nodup_append] at this
    intro h
    rcases List.mem_append.mp h with h | h
    · exact this.2.2 h (by simp)
    · exact (List.nodup_cons.mp this.2.1).1 h
  refine ⟨s1, hrem, ⟨hch, hD1.2⟩, fun c hc => ?_, ?_⟩
  · have hscan := scanName_chain (s.name c) fuel hch hfuel
    have hfind : (l1 ++ l2).find? (fun a => decide (s.name c = (s1.files a).Dir.Name))
        = some c := by
      rw [List.find?_eq_some]
      obtain ⟨as, bs, hab⟩ := List.append_of_mem hc
      refine ⟨by simp [hname], as, bs, hab, fun a ha => ?_⟩
      have hac : a ≠ c := fun h => by
        rw [hab, List.nodup_append] at hnd
        exact hnd.2.2 ha (by simp [h])
      have ham : a ∈ l1 ++ l2 := by rw [hab]; exact List.mem_append_left _ ha
      simp only [hname, Bool.not_eq_true', decide_eq_false_iff_not]
      exact fun h => hac (hinj (hmem a ham) (hmem c hc) h.symm)
    simp only [Find, hscan, hfind]
  · have hscan := scanName_chain (s.name f) fuel hch hfuel
    have hfind : (l1 ++ l2).find? (fun a => decide (s.name f = (s1.files a).Dir.Name))
        = none := by
      rw [List.find?_eq_none]
      intro a ha
      simp only [hname, decide_eq_true_eq]
      intro h
      exact hfnot ((hinj (by simp) (hmem a ha) h) ▸ ha)
    simp only [Find, hscan, hfind]

/-! ## The two-phase read response -/

/-- When `InitRread` returns nil on a `uint32` count, the frame of the count
fits the 32-bit size field and the buffer. -/
theorem InitRread_done {fc fc1 : Fcall} {n : Nat} (hn : n < 2 ^ 32)
    (h : InitRread fc n = Run.done (fc1, none)) :
    4 + n + 7 ≤ fc.Buf.length ∧ 4 + n + 7 < 2 ^ 32 := by
  unfold InitRread packCommon at h
  simp only at h
  split_ifs at h with h1 h2
  · simp at h
  · simp at h
  · simp only at h
    split_ifs at h with h3
    · have h4 : n + 4 < 2 ^ 32 := by
        by_contra hlt
        have h6 := h3.1
        omega
      have h5 : (4 + n) % 2 ^ 32 = 4 + n := Nat.mod_eq_of_lt (by omega)
      rw [h5] at h1 h2
      omega

/-- The method `SetRreadCount` on an `Fcall` whose buffer holds a header of 7
bytes, a count of 4 bytes and a data region `R`, whose packet is the first
`11 + n` bytes and whose data are the `n` bytes after the count: for `c <= n`
it returns, having written the size `11 + c` and the count `c` and cut the
packet and the data to `c` data bytes; the data region is not touched. -/
theorem SetRreadCount_eq (fc : Fcall) (hdr cnt R : List Nat) (n c : Nat)
    (hbuf : fc.Buf = hdr ++ cnt ++ R) (hh : hdr.length = 7) (hcn : cnt.length = 4)
    (hpkt : fc.Pkt = ⟨0, 11 + n⟩) (hdata : fc.Data = ⟨11, n⟩) (hc : c ≤ n)
    (hR : n ≤ R.length) (h32 : 11 + c < 2 ^ 32) :
    SetRreadCount fc c = Run.done
      { fc with
        FcSize := 11 + c, Count := c, Pkt := ⟨0, 11 + c⟩, Data := ⟨11, c⟩,
        Buf := le 4 (11 + c) ++ hdr.drop 4 ++ le 4 c ++ R } := by
  have hsz : (4 + 1 + 2 + 4 + c) % 2 ^ 32 = 11 + c := by omega
  have hlen : fc.Buf.length = 11 + R.length := by simp [hbuf, hh, hcn]; omega
  have hb1 : List.take 0 fc.Buf ++ le 4 (11 + c) ++ List.drop (0 + 4) fc.Buf
      = le 4 (11 + c) ++ hdr.drop 4 ++ cnt ++ R := by
    rw [hbuf]
    simp [List.drop_append_of_le_length, hh, List.append_assoc]
  have hb2 : List.take 7 (le 4 (11 + c) ++ hdr.drop 4 ++ cnt ++ R) ++ le 4 c
      ++ List.drop (7 + 4) (le 4 (11 + c) ++ hdr.drop 4 ++ cnt ++ R)
      = le 4 (11 + c) ++ hdr.drop 4 ++ le 4 c ++ R := by
    have h7 : (le 4 (11 + c) ++ hdr.drop 4).length = 7 := by simp [hh]
    have h11 : (le 4 (11 + c) ++ hdr.drop 4 ++ cnt).length = 7 + 4 := by simp [hh, hcn]
    rw [List.append_assoc (le 4 (11 + c) ++ hdr.drop 4) cnt R, List.take_left' h7,
      ← List.append_assoc (le 4 (11 + c) ++ hdr.drop 4) cnt R, List.drop_left' h11]
  unfold SetRreadCount
  simp only [hsz, pint32, put, hpkt, le_length, resliceFrom, reslice, hdata, Run.bind]
  rw [if_pos (by omega)]
  simp only [hb1]
  rw [if_pos (by omega)]
  simp only []
  rw [if_pos (by omega)]
  simp only [Nat.add_sub_cancel_left, hb2]
  rw [if_pos (by simp [hh]; omega)]
  simp only []
  rw [if_pos (by simp [hh]; omega)]
  simp

/-- The packet of `11 + c` bytes at the start of a buffer made of a size, a
type and tag, a count and a data region `R`: its length, its size and count
fields, and the `c` bytes at offset 11. -/
theorem packet_fields (a b cc R : List Nat) (c : Nat) (ha : a.length = 4) (hb : b.length = 3)
    (hcc : cc.length = 4) (hc : c ≤ R.length) :
    (((a ++ b ++ cc ++ R).drop 0).take (11 + c)).length = 11 + c
      ∧ (((a ++ b ++ cc ++ R).drop 0).take (11 + c)).take 4 = a
      ∧ ((((a ++ b ++ cc ++ R).drop 0).take (11 + c)).drop 7).take 4 = cc
      ∧ ((a ++ b ++ cc ++ R).drop 11).take c = R.take c
      ∧ ((((a ++ b ++ cc ++ R).drop 0).take (11 + c)).drop 11).take c = R.take c := by
  have h7 : (a ++ b).length = 7 := by simp [ha, hb]
  have h11 : (a ++ b ++ cc).length = 11 := by simp [ha, hb, hcc]
  have hp : ((a ++ b ++ cc ++ R).drop 0).take (11 + c) = a ++ b ++ cc ++ R.take c := by
    rw [List.drop_zero, ← h11, List.take_append]
  rw [hp]
  refine ⟨?_, ?_, ?_, ?_, ?_⟩
  · rw [List.length_append, h11, List.length_take, Nat.min_eq_left hc]
  · rw [List.append_assoc, List.append_assoc, List.take_left' ha]
  · rw [List.append_assoc (a ++ b), List.drop_left' h7, List.take_left' hcc]
  · rw [List.drop_left' h11]
  · rw [List.drop_left' h11, List.take_take, Nat.min_self]

/-- The builtin `copy` into the data window after `InitRread`: the window
holds the copied bytes, then what it held before. -/
theorem copyTo_data (hdr cnt B data : List Nat) (n : Nat) (hh : hdr.length = 7)
    (hc : cnt.length = 4) (hd : data.length ≤ n) :
    ((hdr ++ cnt ++ data ++ B.drop data.length).drop 11).take n
      = data ++ (((hdr ++ cnt ++ B).drop 11).take n).drop data.length := by
  have h11 : (hdr ++ cnt).length = 11 := by simp [hh, hc]
  rw [List.append_assoc (hdr ++ cnt) data, List.drop_left' h11, List.drop_left' h11,
    List.take_append_eq_append_take, List.take_of_length_le hd, List.drop_take,
    List.take_drop]

/-- C11: the two-phase read response. After `InitRread(n)` has returned nil
on a `uint32` count `n`, after at most `n` bytes `data` have been written into
`Data`, and for `c <= n`, the call `SetRreadCount(c)` returns and leaves a
packet of `11 + c` bytes whose first 4 bytes are `11 + c` and whose bytes
7..10 are `c`, both little-endian, with `FcSize = 11 + c` and `Count = c`;
`Data` is the window of `c` bytes at offset 11 of the packet, it holds the
first `c` bytes that the data region held before the call, which are the
bytes written there; with `c = n` the buffer and the packet are unchanged. -/
theorem SetRreadCount_spec (fc fc1 : Fcall) (n c : Nat) (data : List Nat)
    (hn : n < 2 ^ 32) (hc : c ≤ n) (hd : data.length ≤ n)
    (h : InitRread fc n = Run.done (fc1, none)) :
    ∃ fc2, SetRreadCount (copyTo fc1 fc1.Data data) c = Run.done fc2
      ∧ (fc2.bytes fc2.Pkt).length = 11 + c
      ∧ (fc2.bytes fc2.Pkt).take 4 = le 4 (11 + c)
      ∧ ((fc2.bytes fc2.Pkt).drop 7).take 4 = le 4 c
      ∧ fc2.FcSize = 11 + c ∧ fc2.Count = c
      ∧ fc2.Data = ⟨fc2.Pkt.off + 11, c⟩
      ∧ (fc2.bytes fc2.Data).length = c
      ∧ fc2.bytes fc2.Data = ((fc2.bytes fc2.Pkt).drop 11).take c
      ∧ fc2.bytes fc2.Data = ((copyTo fc1 fc1.Data data).bytes fc1.Data).take c
      ∧ (copyTo fc1 fc1.Data data).bytes fc1.Data
          = data ++ (fc1.bytes fc1.Data).drop data.length
      ∧ (c = n → fc2.Buf = (copyTo fc1 fc1.Data data).Buf
          ∧ fc2.bytes fc2.Pkt
            = (copyTo fc1 fc1.Data data).bytes (copyTo fc1 fc1.Data data).Pkt) := by
  obtain ⟨hb, h32⟩ := InitRread_done hn h
  obtain ⟨fc0, h0, hbuf, hdata, hpkt, -, -, -⟩ := InitRread_ok fc n hb h32
  rw [h] at h0
  have h1 : fc1 = fc0 := by
    have := Run.done.inj h0
    exact congrArg Prod.fst this
  subst h1
  have hH : (le 4 (4 + n + 7) ++ le 1 Rread ++ le 2 NOTAG).length = 7 := by
    simp only [List.length_append, le_length]
  have hB : n ≤ (fc.Buf.drop 11).length := by
    rw [List.length_drop]; omega
  have hcopy : (copyTo fc1 fc1.Data data).Buf
      = le 4 (4 + n + 7) ++ le 1 Rread ++ le 2 NOTAG ++ le 4 n
          ++ (data ++ (fc.Buf.drop 11).drop data.length) := by
    simp only [copyTo, hdata, Nat.min_eq_right hd, List.take_length, hbuf]
    rw [copy_data _ _ _ _ hH (le_length 4 n), List.append_assoc]
  have hR : n ≤ (data ++ (fc.Buf.drop 11).drop data.length).length := by
    rw [List.length_append, List.length_drop]; omega
  have hset := SetRreadCount_eq (copyTo fc1 fc1.Data data) _ _ _ n c hcopy hH
    (le_length 4 n) (by simp only [copyTo, hpkt]; congr 1; omega)
    (by simp only [copyTo, hdata]) hc hR (by omega)
  have hdrop : (le 4 (4 + n + 7) ++ le 1 Rread ++ le 2 NOTAG).drop 4
      = le 1 Rread ++ le 2 NOTAG := by
    rw [List.append_assoc, List.drop_left' (le_length 4 _)]
  rw [hdrop] at hset
  have hcR : c ≤ (data ++ (fc.Buf.drop 11).drop data.length).length := by omega
  obtain ⟨p1, p2, p3, p4, p5⟩ := packet_fields (le 4 (11 + c)) (le 1 Rread ++ le 2 NOTAG)
    (le 4 c) (data ++ (fc.Buf.drop 11).drop data.length) c (le_length 4 _)
    (by simp only [List.length_append, le_length]) (le_length 4 _) hcR
  have hwin : (copyTo fc1 fc1.Data data).bytes fc1.Data
      = data ++ (fc1.bytes fc1.Data).drop data.length := by
    show List.take fc1.Data.len (List.drop fc1.Data.off (copyTo fc1 fc1.Data data).Buf) = _
    rw [hcopy]
    simp only [Fcall.bytes, hdata, hbuf]
    rw [← List.append_assoc]
    exact copyTo_data _ _ _ data n hH (le_length 4 n) hd
  have hwin2 : (copyTo fc1 fc1.Data data).bytes fc1.Data
      = (data ++ (fc.Buf.drop 11).drop data.length).take n := by
    have h11n : (le 4 (4 + n + 7) ++ le 1 Rread ++ le 2 NOTAG ++ le 4 n).length = 11 := by
      simp only [List.length_append, le_length]
    show List.take fc1.Data.len (List.drop fc1.Data.off (copyTo fc1 fc1.Data data).Buf) = _
    rw [hcopy, hdata]
    simp only []
    rw [List.drop_left' h11n]
  refine ⟨_, hset, p1, p2, p3, rfl, rfl, rfl, ?_, ?_, ?_, hwin, ?_⟩
  · exact (congrArg List.length p4).trans (by rw [List.length_take, Nat.min_eq_left hcR])
  · exact p4.trans p5.symm
  · rw [hwin2, List.take_take, Nat.min_eq_left hc]
    exact p4
  · intro hcn
    subst hcn
    have he : 4 + c + 7 = 11 + c := by omega
    have hb2 : le 4 (11 + c) ++ (le 1 Rread ++ le 2 NOTAG) ++ le 4 c
        ++ (data ++ (fc.Buf.drop 11).drop data.length) = (copyTo fc1 fc1.Data data).Buf := by
      rw [hcopy, he]
      simp only [List.append_assoc]
    refine ⟨hb2, ?_⟩
    show List.take (11 + c) (List.drop 0 _) = _
    rw [hb2]
    simp only [Fcall.bytes, copyTo, hpkt, he]

/-- The two-phase read response on a buffer of 64 bytes: 10 bytes reserved,
the bytes 1, 2, 3 written, the count set to 3. -/
theorem SetRreadCount_spec_witness :
    InitRread fc64 10 = Run.done (fcRead, none)
      ∧ ∃ fc2, SetRreadCount (copyTo fcRead fcRead.Data [1, 2, 3]) 3 = Run.done fc2
          ∧ (fc2.bytes fc2.Pkt).length = 11 + 3
          ∧ (fc2.bytes fc2.Data).take 3 = [1, 2, 3] :=
  ⟨by decide, by
    obtain ⟨fc2, h1, h2, -, -, -, -, -, -, -, h10, h11, -⟩ :=
      SetRreadCount_spec fc64 fcRead 10 3 [1, 2, 3] (by norm_num) (by decide) (by decide)
        (by decide)
    exact ⟨fc2, h1, h2, by rw [h10, h11]; rfl⟩⟩

/-- C12 (the code faults): for every `uint32` count of at least `2^32 - 4`
the sum `4 + count` wraps around in 32 bits, `packCommon` accepts the wrapped
size on a buffer of 10 bytes or more, and the slice expression
`p[4 : fc.Count+4]` of `InitRread`, whose upper bound has wrapped below 4,
faults: `InitRread` neither succeeds nor returns an error. -/
theorem InitRread_wrap_fault (fc : Fcall) (count : Nat) (h1 : 2 ^ 32 - 4 ≤ count)
    (h2 : count < 2 ^ 32) (hb : 10 ≤ fc.Buf.length) : InitRread fc count = Run.fault := by
  have hp : (2 : Nat) ^ 32 = 4294967296 := by norm_num
  rw [hp] at h1 h2
  obtain ⟨k, rfl⟩ : ∃ k, count = 4294967292 + k := ⟨count - 4294967292, by omega⟩
  have hk : k < 4 := by omega
  have hs : (4 + (4294967292 + k)) % 2 ^ 32 = k := by
    rw [hp, show 4 + (4294967292 + k) = k + 4294967296 by omega, Nat.add_mod_right,
      Nat.mod_eq_of_lt (by omega)]
  have hs2 : (4294967292 + k + 4) % 2 ^ 32 = k := by
    rw [hp, show 4294967292 + k + 4 = k + 4294967296 by omega, Nat.add_mod_right,
      Nat.mod_eq_of_lt (by omega)]
  simp only [InitRread, hs]
  rw [packCommon_ok fc _ Rread (by rw [hp]; omega) (by omega)]
  simp only [hs2]
  rw [if_neg (by omega)]

/-- The count `2^32 - 4` on a buffer of 64 bytes: `InitRread` faults. -/
theorem InitRread_wrap_fault_witness : InitRread fc64 4294967292 = Run.fault :=
  InitRread_wrap_fault fc64 4294967292 (by norm_num) (by norm_num) (by decide)

/-! ## The names of a path -/

/-- The second loop of `Walk` keeps the non-empty names, in order. -/
theorem Walk.compact_eq (k : Nat) : ∀ (ws : List GoString) (i m : Nat), m ≤ i →
    ws.length = i + k →
    (Walk.compact k ws i m).1.take (Walk.compact k ws i m).2
      = ws.take m ++ (ws.drop i).filter (fun w => decide (w ≠ [])) := by
  induction k with
  | zero =>
    intro ws i m _ hl
    rw [List.drop_of_length_le (by omega)]
    simp [Walk.compact]
  | succ k ih =>
    intro ws i m hmi hl
    have hi : i < ws.length := by omega
    have hd : ws.drop i = ws.getD i [] :: ws.drop (i + 1) := by
      rw [List.getD_eq_getElem _ _ hi]
      exact List.drop_eq_getElem_cons hi
    unfold Walk.compact
    generalize ws.getD i [] = x at hd
    split_ifs with hx
    · have hm : m < (ws.set m x).length := by rw [List.length_set]; omega
      rw [ih _ _ _ (by omega) (by rw [List.length_set]; omega), hd,
        List.drop_set_of_lt _ _ (by omega), List.take_succ,
        List.getElem?_eq_getElem hm, List.getElem_set_self, List.set_take,
        List.set_eq_of_length_le (by rw [List.length_take]; omega),
        List.filter_cons_of_pos (by simpa using hx)]
      simp
    · rw [ih _ _ _ (by omega) (by omega), hd, List.filter_cons_of_neg (by simpa using hx)]

/-- The function `strings.Split` never returns the empty list. -/
theorem Split_ne_nil (s : GoString) (sep : Nat) : Split s sep ≠ [] := by
  cases s with
  | nil => simp [Split]
  | cons c s =>
    unfold Split
    split_ifs
    · simp
    · split <;> simp

/-- A string without separator is not cut. -/
theorem Split_word (w : GoString) (sep : Nat) (hw : sep ∉ w) : Split w sep = [w] := by
  induction w with
  | nil => rfl
  | cons c w ih =>
    have hc : c ≠ sep := fun h => hw (by simp [h])
    have hw2 : sep ∉ w := fun h => hw (List.mem_cons_of_mem _ h)
    simp [Split, hc, ih hw2]

/-- A string that starts with a name without separator and a separator is cut
after the name. -/
theorem Split_word_sep (w p : GoString) (sep : Nat) (hw : sep ∉ w) :
    Split (w ++ sep :: p) sep = w :: Split p sep := by
  induction w with
  | nil => simp [Split]
  | cons c w ih =>
    have hc : c ≠ sep := fun h => hw (by simp [h])
    have hw2 : sep ∉ w := fun h => hw (List.mem_cons_of_mem _ h)
    simp [Split, hc, ih hw2]

/-- Skipping the leading separators drops empty names only. -/
theorem Split_skip (path : GoString) :
    (Split (path.drop (Walk.skip path)) 47).filter (fun w => decide (w ≠ []))
      = (Split path 47).filter (fun w => decide (w ≠ [])) := by
  induction path with
  | nil => rfl
  | cons c path ih =>
    by_cases hc : c = 47
    · subst hc
      simp only [Walk.skip, ne_eq, not_true_eq_false, if_false, List.drop_succ_cons, ih]
      simp [Split]
    · simp [Walk.skip, hc]

/-- The names `Walk` walks are the non-empty strings among those `Split` cuts
the path into. -/
theorem Walk.names_eq (path : GoString) :
    Walk.names path = (Split path 47).filter (fun w => decide (w ≠ [])) := by
  have h : (if Walk.skip path > 0 then path.drop (Walk.skip path) else path)
      = path.drop (Walk.skip path) := by
    split_ifs with h
    · rfl
    · have h0 : Walk.skip path = 0 := by omega
      rw [h0, List.drop_zero]
  unfold Walk.names
  simp only [h]
  rw [Walk.compact_eq _ _ 0 0 (Nat.le_refl 0) (by omega), List.take_zero, List.nil_append,
    List.drop_zero, Split_skip]

/-- The names of a path that starts with a separator. -/
theorem Walk.names_sep (p : GoString) : Walk.names (47 :: p) = Walk.names p := by
  simp [Walk.names_eq, Split]

/-- The names of a non-empty name without separator. -/
theorem Walk.names_last (w : GoString) (h0 : w ≠ []) (hw : 47 ∉ w) : Walk.names w = [w] := by
  simp [Walk.names_eq, Split_word w 47 hw, h0]

/-- The names of a path that starts with a non-empty name and a separator. -/
theorem Walk.names_word (w p : GoString) (h0 : w ≠ []) (hw : 47 ∉ w) :
    Walk.names (w ++ 47 :: p) = w :: Walk.names p := by
  simp [Walk.names_eq, Split_word_sep w p 47 hw, h0]

/-- Every path has components: the names `Walk` walks. -/
theorem Components_names : ∀ (n : Nat) (path : GoString), path.length ≤ n →
    Components path (Walk.names path) := by
  intro n
  induction n with
  | zero =>
    intro path h
    have hp : path = [] := List.length_eq_zero.mp (by omega)
    subst hp
    exact Components.nil
  | succ n ih =>
    intro path h
    cases path with
    | nil => exact Components.nil
    | cons c s =>
      by_cases hc : c = 47
      · subst hc
        rw [Walk.names_sep]
        exact Components.sep _ _ (ih s (by simpa using h))
      · have hsplit := List.takeWhile_append_dropWhile (fun b => decide (b ≠ 47)) (c :: s)
        have htw : (c :: s).takeWhile (fun b => decide (b ≠ 47))
            = c :: s.takeWhile (fun b => decide (b ≠ 47)) := by
          simp [List.takeWhile, hc]
        have hw0 : (c :: s).takeWhile (fun b => decide (b ≠ 47)) ≠ [] := by
          rw [htw]; simp
        have hw : 47 ∉ (c :: s).takeWhile (fun b => decide (b ≠ 47)) := by
          intro hm
          have := List.mem_takeWhile_imp hm
          simp at this
        generalize (c :: s).takeWhile (fun b => decide (b ≠ 47)) = w at hsplit hw0 hw
        have hd : ∀ r, (c :: s).dropWhile (fun b => decide (b ≠ 47)) = r →
            r = [] ∨ ∃ p, r = 47 :: p := by
          intro r hr
          cases r with
          | nil => exact Or.inl rfl
          | cons b p =>
            right
            have hb := List.head_dropWhile_not (fun b => decide (b ≠ 47)) (c :: s)
              (by rw [hr]; simp)
            simp only [hr, List.head_cons] at hb
            exact ⟨p, by simpa using hb⟩
        rcases hd _ rfl with h1 | ⟨p, h1⟩
        · rw [h1, List.append_nil] at hsplit
          rw [← hsplit]
          rw [Walk.names_last w hw0 hw]
          exact Components.last w hw0 hw
        · rw [h1] at hsplit
          rw [← hsplit, Walk.names_word w p hw0 hw]
          refine Components.word w p _ hw0 hw (ih p ?_)
          have hl := congrArg List.length hsplit
          simp only [List.length_append, List.length_cons] at hl h
          have : 0 < w.length := List.length_pos.mpr hw0
          omega

/-- The components of a path are the names `Walk` walks. -/
theorem Components_unique {path : GoString} {ws : List GoString} (h : Components path ws) :
    ws = Walk.names path := by
  induction h with
  | nil => rfl
  | sep p ws _ ih => rw [Walk.names_sep, ih]
  | last w h0 hw => rw [Walk.names_last w h0 hw]
  | word w p ws h0 hw _ ih => rw [Walk.names_word w p h0 hw, ih]

/-- C13: the names `Walk` sends for a path are exactly its components, the
maximal non-empty substrings between the separators, in order: they are
components of the path and every list of components of the path is this one;
no name is empty and none contains '/'. The paths "//a///b/" and "a/b" both
give the names "a", "b"; the paths "" and "///" give no name. -/
theorem Walk_names_components (path : GoString) :
    Components path (Walk.names path)
      ∧ (∀ ws, Components path ws → ws = Walk.names path)
      ∧ (∀ w ∈ Walk.names path, w ≠ [] ∧ 47 ∉ w)
      ∧ Walk.names [47, 47, 97, 47, 47, 47, 98, 47] = [[97], [98]]
      ∧ Walk.names [97, 47, 98] = [[97], [98]]
      ∧ Walk.names [] = [] ∧ Walk.names [47, 47, 47] = [] := by
  refine ⟨Components_names _ path (Nat.le_refl _), fun ws h => Components_unique h, ?_,
    by decide, by decide, by decide, by decide⟩
  have h := Components_names _ path (Nat.le_refl _)
  generalize Walk.names path = ws at h
  induction h with
  | nil => simp
  | sep p ws _ ih => exact ih
  | last w h0 hw =>
    intro x hx
    rw [List.mem_singleton] at hx
    subst hx
    exact ⟨h0, hw⟩
  | word w p ws h0 hw _ ih =>
    intro x hx
    rcases List.mem_cons.mp hx with hx | hx
    · subst hx
      exact ⟨h0, hw⟩
    · exact ih x hx

/-! ## The walk of a path -/

@[simp] theorem Clnt.modify_fids (c : Clnt) (a : Nat) (g : Fid → Fid) (b : Nat) :
    (c.modify a g).fids b = if b = a then g (c.fids a) else c.fids b := rfl

/-- The batch of a turn of the loop: `wnames[0:n]` is the first 16 names. -/
theorem Walk.take_batch (w : List GoString) :
    w.take (if w.length > 16 then 16 else w.length) = w.take 16 := by
  split_ifs with h
  · rfl
  · rw [List.take_of_length_le (Nat.le_refl _), List.take_of_length_le (by omega)]

/-- What is left after a turn of the loop: `wnames[n:]` is the names after the
first 16. -/
theorem Walk.drop_batch (w : List GoString) :
    w.drop (if w.length > 16 then 16 else w.length) = w.drop 16 := by
  split_ifs with h
  · rfl
  · rw [List.drop_of_length_le (Nat.le_refl _), List.drop_of_length_le (by omega)]

/-- The last element of a list with a non-empty tail is that of the tail. -/
theorem getLast_cons_ne {α : Type} (a : α) {l : List α} (h : l ≠ []) :
    (a :: l).getLast? = l.getLast? := by
  cases l with
  | nil => exact absurd rfl h
  | cons b l => exact List.getLast?_cons_cons

/-- The loop of `Walk` returns when the fuel exceeds the number of names. Its
requests are the first requests of the walk without failure, and each but the
last one was answered without error. On success all of them were handed to
`Rpc`, the new handle is walked and has the qid of the last answer; on failure
the error is that of the last request, or that of packing the next one, and
the new handle was clunked. Nothing else changes. -/
theorem Walk.loop_spec (e : Env) (newfid : Nat) : ∀ (fuel : Nat) (c : Clnt) (fid : Nat)
    (w : List GoString), w.length < fuel →
    ∃ c' res err rs, Walk.loop e newfid fuel c fid w = Run.done (c', res, err)
      ∧ c'.rpcs = c.rpcs ++ rs
      ∧ rs <+: Walk.reqs (c.fids fid).Fid (c.fids newfid).Fid fuel w
      ∧ (∀ x ∈ (e.answers c.rpcs rs).dropLast, x.1 = Egood)
      ∧ c'.Msize = c.Msize ∧ c'.Root = c.Root ∧ c'.top = c.top
      ∧ (∀ x, x ≠ newfid → c'.fids x = c.fids x)
      ∧ (c'.fids newfid).Fid = (c.fids newfid).Fid
      ∧ (c'.fids newfid).User = (c.fids newfid).User
      ∧ (err = Egood → res = some newfid ∧ c'.pool = c.pool ∧ c'.clunks = c.clunks
          ∧ rs = Walk.reqs (c.fids fid).Fid (c.fids newfid).Fid fuel w
          ∧ (c'.fids newfid).walked = true
          ∧ ∃ x, (e.answers c.rpcs rs).getLast? = some x ∧ x.1 = Egood
              ∧ (c'.fids newfid).Qid = x.2.Qid)
      ∧ (err ≠ Egood → res = none ∧ c'.pool = c.pool.erase (c.fids newfid).Fid
          ∧ c'.clunks = c.clunks ++ [newfid]
          ∧ ((∃ x, (e.answers c.rpcs rs).getLast? = some x ∧ x.1 = err)
            ∨ ((∀ x ∈ e.answers c.rpcs rs, x.1 = Egood)
                ∧ ∃ a ws, e.packTwalk a (c.fids newfid).Fid ws = err
                    ∧ rs ++ [Req.Twalk a (c.fids newfid).Fid ws]
                        <+: Walk.reqs (c.fids fid).Fid (c.fids newfid).Fid fuel w))) := by
  intro fuel
  induction fuel with
  | zero => intro c fid w h; omega
  | succ fuel ih =>
    intro c fid w hw
    unfold Walk.loop
    simp only [Walk.take_batch, Walk.drop_batch]
    by_cases hp : e.packTwalk (c.fids fid).Fid (c.fids newfid).Fid (w.take 16) = Egood
    · rw [if_neg (not_not.mpr hp)]
      by_cases hr : (e.Rpc c.rpcs (Req.Twalk (c.fids fid).Fid (c.fids newfid).Fid
          (w.take 16))).1 = Egood
      · rw [if_neg (not_not.mpr hr)]
        by_cases hl : (w.drop 16).length = 0
        · rw [if_pos hl]
          have hl2 : w.length ≤ 16 := by rw [List.length_drop] at hl; omega
          refine ⟨_, _, _, [Req.Twalk (c.fids fid).Fid (c.fids newfid).Fid (w.take 16)],
            rfl, rfl, ?_, ?_, rfl, rfl, rfl, ?_, ?_, ?_, ?_, ?_⟩
          · simp [Walk.reqs, hl2]
          · simp [Env.answers]
          · intro x hx; simp [hx]
          · simp
          · simp
          · intro _
            refine ⟨rfl, rfl, rfl, ?_, ?_, ?_⟩
            · simp [Walk.reqs, hl2]
            · simp
            · exact ⟨e.Rpc c.rpcs (Req.Twalk (c.fids fid).Fid (c.fids newfid).Fid (w.take 16)),
                by simp [Env.answers], hr, by simp⟩
          · intro h; exact absurd rfl h
        · rw [if_neg hl]
          have hl2 : ¬ w.length ≤ 16 := by rw [List.length_drop] at hl; omega
          obtain ⟨c', res, err, rs, h1, h2, h3, h4, h5, h6, h7, h8, h9, h10, h11, h12⟩ :=
            ih (({ c with rpcs := c.rpcs ++ [Req.Twalk (c.fids fid).Fid (c.fids newfid).Fid
                (w.take 16)] }.modify newfid fun f => { f with walked := true }).modify newfid
                fun f => { f with Qid := (e.Rpc c.rpcs (Req.Twalk (c.fids fid).Fid
                  (c.fids newfid).Fid (w.take 16))).2.Qid })
              newfid (w.drop 16) (by rw [List.length_drop]; omega)
          simp only [Clnt.modify_fids, if_true] at h3 h9 h10 h11 h12
          have hrpcs : ∀ (g1 g2 : Fid → Fid) (l : List Req),
              (({ c with rpcs := l }.modify newfid g1).modify newfid g2).rpcs = l :=
            fun _ _ _ => rfl
          rw [hrpcs] at h2 h4 h11 h12
          refine ⟨c', res, err, Req.Twalk (c.fids fid).Fid (c.fids newfid).Fid (w.take 16) :: rs,
            h1, ?_, ?_, ?_, h5, h6, h7, ?_, h9, h10, ?_, ?_⟩
          · rw [h2, List.append_assoc]; rfl
          · simp only [Walk.reqs, hl2, if_false]
            exact (List.prefix_cons_inj _).mpr h3
          · cases rs with
            | nil => simp [Env.answers]
            | cons r rs =>
              intro x hx
              simp only [Env.answers, List.dropLast_cons₂, List.mem_cons] at hx
              rcases hx with hx | hx
              · rw [hx]; exact hr
              · exact h4 x (by simpa [Env.answers] using hx)
          · intro x hx
            rw [h8 x hx]
            simp [hx]
          · intro he
            obtain ⟨a1, a2, a3, a4, a5, x, a6, a7, a8⟩ := h11 he
            refine ⟨a1, a2, a3, ?_, a5, x, ?_, a7, a8⟩
            · simp only [Walk.reqs, hl2, if_false, a4]
            · have hne : e.answers (c.rpcs ++ [Req.Twalk (c.fids fid).Fid (c.fids newfid).Fid
                  (w.take 16)]) rs ≠ [] := by
                intro h0; rw [h0] at a6; simp at a6
              simp only [Env.answers]
              rw [getLast_cons_ne _ hne]
              exact a6
          · intro he
            obtain ⟨a1, a2, a3, a4⟩ := h12 he
            refine ⟨a1, a2, a3, ?_⟩
            rcases a4 with ⟨x, a6, a7⟩ | ⟨a6, a, ws, a7, a8⟩
            · left
              have hne : e.answers (c.rpcs ++ [Req.Twalk (c.fids fid).Fid (c.fids newfid).Fid
                  (w.take 16)]) rs ≠ [] := by
                intro h0; rw [h0] at a6; simp at a6
              refine ⟨x, ?_, a7⟩
              simp only [Env.answers]
              rw [getLast_cons_ne _ hne]
              exact a6
            · right
              refine ⟨?_, a, ws, a7, ?_⟩
              · intro x hx
                simp only [Env.answers, List.mem_cons] at hx
                rcases hx with hx | hx
                · rw [hx]; exact hr
                · exact a6 x hx
              · simp only [Walk.reqs, hl2, if_false, List.cons_append]
                exact (List.prefix_cons_inj _).mpr a8
      · rw [if_pos hr]
        refine ⟨_, _, _, [Req.Twalk (c.fids fid).Fid (c.fids newfid).Fid (w.take 16)],
          rfl, rfl, ?_, ?_, rfl, rfl, rfl, ?_, rfl, rfl, ?_, ?_⟩
        · simp only [Walk.reqs]
          exact (List.prefix_cons_inj _).mpr (List.nil_prefix)
        · simp [Env.answers]
        · intro x _; rfl
        · intro h; exact absurd h hr
        · intro _
          exact ⟨rfl, rfl, rfl, Or.inl ⟨_, rfl, rfl⟩⟩
    · rw [if_pos hp]
      refine ⟨_, _, _, [], rfl, ?_, List.nil_prefix, ?_, rfl, rfl, rfl, ?_, rfl, rfl, ?_, ?_⟩
      · simp
      · simp [Env.answers]
      · intro x _; rfl
      · intro h; exact absurd h hp
      · intro _
        refine ⟨rfl, rfl, rfl, Or.inr ⟨by simp [Env.answers], _, _, rfl, ?_⟩⟩
        simp only [Walk.reqs, List.nil_append]
        exact (List.prefix_cons_inj _).mpr (List.nil_prefix)

/-- The requests of a walk without failure: their number, the sizes of the
batches, the names they carry and the handles they name. -/
theorem Walk.reqs_spec : ∀ (k a b : Nat) (w : List GoString), w.length < k →
    (Walk.reqs a b k w).length = max 1 ((w.length + 15) / 16)
      ∧ (∀ r ∈ Walk.reqs a b k w, r.wnames.length ≤ 16)
      ∧ (∀ r ∈ (Walk.reqs a b k w).dropLast, r.wnames.length = 16)
      ∧ ((Walk.reqs a b k w).map Req.wnames).flatten = w
      ∧ ∃ rs, Walk.reqs a b k w = Req.Twalk a b (w.take 16) :: rs
          ∧ ∀ r ∈ rs, ∃ ws, r = Req.Twalk b b ws := by
  intro k
  induction k with
  | zero => intro a b w h; omega
  | succ k ih =>
    intro a b w hw
    by_cases hl : w.length ≤ 16
    · have hr : Walk.reqs a b (k + 1) w = [Req.Twalk a b (w.take 16)] := by
        simp [Walk.reqs, hl]
      rw [hr]
      refine ⟨?_, ?_, ?_, ?_, [], rfl, ?_⟩
      · have : (w.length + 15) / 16 ≤ 1 := by omega
        simp only [List.length_singleton]
        omega
      · intro r h
        rw [List.mem_singleton] at h
        subst h
        simp only [Req.wnames, List.length_take]
        omega
      · simp
      · simp [Req.wnames, List.take_of_length_le hl]
      · simp
    · have hr : Walk.reqs a b (k + 1) w
          = Req.Twalk a b (w.take 16) :: Walk.reqs b b k (w.drop 16) := by
        simp [Walk.reqs, hl]
      obtain ⟨i1, i2, i3, i4, rs, i5, i6⟩ := ih b b (w.drop 16)
        (by rw [List.length_drop]; omega)
      rw [hr]
      refine ⟨?_, ?_, ?_, ?_, _, rfl, ?_⟩
      · rw [List.length_cons, i1, List.length_drop]
        omega
      · intro r h
        rcases List.mem_cons.mp h with h | h
        · subst h
          simp only [Req.wnames, List.length_take]
          omega
        · exact i2 r h
      · intro r h
        rw [i5, List.dropLast_cons₂] at h
        rcases List.mem_cons.mp h with h | h
        · subst h
          simp only [Req.wnames, List.length_take]
          omega
        · rw [i5] at i3
          exact i3 r h
      · rw [List.map_cons, List.flatten_cons, i4]
        simp [Req.wnames]
      · intro r h
        rw [i5] at h
        rcases List.mem_cons.mp h with h | h
        · exact ⟨_, h⟩
        · exact i6 r h

/-- Every answer to requests that are all `Twalk` is an answer to a `Twalk`. -/
theorem Env.answers_mem (e : Env) : ∀ (rs sent : List Req) (x : W9Err × Fcall),
    (∀ r ∈ rs, ∃ a b ws, r = Req.Twalk a b ws) → x ∈ e.answers sent rs →
    ∃ sent1 a b ws, x = e.Rpc sent1 (Req.Twalk a b ws) := by
  intro rs
  induction rs with
  | nil => intro sent x _ h; simp [Env.answers] at h
  | cons r rs ih =>
    intro sent x hrs h
    simp only [Env.answers, List.mem_cons] at h
    rcases h with h | h
    · obtain ⟨a, b, ws, hr⟩ := hrs r (List.mem_cons_self _ _)
      exact ⟨sent, a, b, ws, by rw [h, hr]⟩
    · exact ih _ x (fun r hr => hrs r (List.mem_cons_of_mem _ hr)) h

/-- The handle number `FidAlloc` chooses is not in use. -/
theorem freeId_not_mem (pool : List Nat) : freeId pool ∉ pool := by
  unfold freeId
  cases hf : (List.range (pool.length + 1)).find? fun n => decide (n ∉ pool) with
  | some n =>
    have := List.find?_some hf
    simpa using this
  | none =>
    exfalso
    rw [List.find?_eq_none] at hf
    have hsub : List.range (pool.length + 1) ⊆ pool := by
      intro n hn
      have := hf n hn
      simpa using this
    have := (List.subperm_of_subset (List.nodup_range _) hsub).length_le
    rw [List.length_range] at this
    omega

/-- The method `Walk` on a client with a root handle returns when the fuel
exceeds the number of names; what it leaves is what its loop leaves of the
client after `FidAlloc` and the assignment of the user. -/
theorem Walk_spec (e : Env) (c : Clnt) (path : GoString) (fuel r0 : Nat)
    (hroot : c.Root = some r0) (hfuel : (Walk.names path).length < fuel) :
    ∃ c' res err rs, Walk e c path fuel = Run.done (c', res, err)
      ∧ c'.rpcs = c.rpcs ++ rs
      ∧ rs <+: Walk.reqs ((FidAlloc c).1.fids r0).Fid (freeId c.pool) fuel (Walk.names path)
      ∧ (∀ x ∈ (e.answers c.rpcs rs).dropLast, x.1 = Egood)
      ∧ c'.Root = c.Root ∧ c'.top = c.top + 1
      ∧ (∀ x, x ≠ c.top → c'.fids x = c.fids x)
      ∧ (c'.fids c.top).Fid = freeId c.pool
      ∧ (c'.fids c.top).User = ((FidAlloc c).1.fids r0).User
      ∧ (err = Egood → res = some c.top ∧ c'.pool = freeId c.pool :: c.pool
          ∧ c'.clunks = c.clunks
          ∧ rs = Walk.reqs ((FidAlloc c).1.fids r0).Fid (freeId c.pool) fuel (Walk.names path)
          ∧ (c'.fids c.top).walked = true
          ∧ ∃ x, (e.answers c.rpcs rs).getLast? = some x ∧ x.1 = Egood
              ∧ (c'.fids c.top).Qid = x.2.Qid)
      ∧ (err ≠ Egood → res = none ∧ c'.pool = c.pool ∧ c'.clunks = c.clunks ++ [c.top]
          ∧ ((∃ x, (e.answers c.rpcs rs).getLast? = some x ∧ x.1 = err)
            ∨ ((∀ x ∈ e.answers c.rpcs rs, x.1 = Egood)
                ∧ ∃ a ws, e.packTwalk a (freeId c.pool) ws = err
                    ∧ rs ++ [Req.Twalk a (freeId c.pool) ws]
                        <+: Walk.reqs ((FidAlloc c).1.fids r0).Fid (freeId c.pool) fuel
                          (Walk.names path)))) := by
  have hW : Walk e c path fuel
      = Walk.loop e c.top fuel
          ((FidAlloc c).1.modify c.top fun f => { f with User := ((FidAlloc c).1.fids r0).User })
          r0 (Walk.names path) := by
    simp only [Walk, FidAlloc, hroot]
  obtain ⟨c', res, err, rs, h1, h2, h3, h4, -, h6, h7, h8, h9, h10, h11, h12⟩ :=
    Walk.loop_spec e c.top fuel
      ((FidAlloc c).1.modify c.top fun f => { f with User := ((FidAlloc c).1.fids r0).User })
      r0 (Walk.names path) hfuel
  have hnew : (((FidAlloc c).1.modify c.top fun f =>
      { f with User := ((FidAlloc c).1.fids r0).User }).fids c.top).Fid = freeId c.pool := by
    simp [FidAlloc]
  have hold : (((FidAlloc c).1.modify c.top fun f =>
      { f with User := ((FidAlloc c).1.fids r0).User }).fids r0).Fid
        = ((FidAlloc c).1.fids r0).Fid := by
    simp only [Clnt.modify_fids]
    split_ifs with h
    · rw [h]
    · rfl
  rw [hnew] at h3 h9 h11 h12
  rw [hold] at h3 h11 h12
  refine ⟨c', res, err, rs, hW.trans h1, h2, h3, h4, h6, h7, ?_, h9, ?_, ?_, ?_⟩
  · intro x hx
    rw [h8 x hx]
    simp [FidAlloc, hx]
  · rw [h10]
    simp
  · intro he
    obtain ⟨a1, a2, a3, a4, a5, a6⟩ := h11 he
    exact ⟨a1, a2, a3, a4, a5, a6⟩
  · intro he
    obtain ⟨a1, a2, a3, a4⟩ := h12 he
    exact ⟨a1, a2.trans (List.erase_cons_head _ _), a3, a4⟩

/-- The request after a prefix of the requests of a walk without failure: it
carries the next 16 names, from `a` when it is the first and from `b`
otherwise. -/
theorem Walk.reqs_next : ∀ (k a b : Nat) (w : List GoString) (rs : List Req) (r : Req),
    rs ++ [r] <+: Walk.reqs a b k w →
    r = Req.Twalk (if rs = [] then a else b) b ((w.drop (16 * rs.length)).take 16) := by
  intro k
  induction k with
  | zero =>
    intro a b w rs r h
    have := List.eq_nil_of_prefix_nil h
    simp at this
  | succ k ih =>
    intro a b w rs r h
    cases rs with
    | nil =>
      simp only [Walk.reqs, List.nil_append, List.singleton_append] at h
      have h1 := (List.cons_prefix_cons.mp h).1
      simp [h1]
    | cons x rs =>
      simp only [Walk.reqs, List.cons_append] at h
      have h2 := (List.cons_prefix_cons.mp h).2
      split_ifs at h2 with hl
      · have := List.eq_nil_of_prefix_nil h2
        simp at this
      · have h3 := ih b b (w.drop 16) rs r h2
        rw [h3, List.drop_drop]
        simp only [ite_self, List.length_cons, reduceCtorEq, if_false]
        congr 3
        omega

/-- An element of a list is its last one or one of those before. -/
theorem mem_dropLast_or_getLast {α : Type} {l : List α} {y : α} (h : y ∈ l) :
    y ∈ l.dropLast ∨ l.getLast? = some y := by
  cases hl : l.getLast? with
  | none =>
    rw [List.getLast?_eq_none_iff] at hl
    rw [hl] at h
    simp at h
  | some a =>
    have := List.dropLast_append_getLast? a (by rw [hl]; rfl)
    rw [← this] at h
    rcases List.mem_append.mp h with h | h
    · exact Or.inl h
    · rw [List.mem_singleton] at h
      exact Or.inr (by rw [h])

/-- C14 (the claim as stated fails at N = 0): the path "" has no name, so that
`ceil(N/16)` is 0, and `Walk` hands one `Twalk`, with no name, to `Rpc`. -/
theorem Walk_no_names_one_request :
    (Walk.names []).length = 0 ∧ ((Walk.names []).length + 15) / 16 = 0
      ∧ (Walk envOk clnt0 [] 1).bind (fun r => Run.done (r.1.rpcs, r.2))
          = Run.done ([Req.Twalk 0 1 []], some 1, Egood) := by decide

/-- The answers to a prefix of a list of requests are a prefix of the answers
to the list. -/
theorem Env.answers_prefix (e : Env) : ∀ (rs rs2 sent : List Req), rs <+: rs2 →
    e.answers sent rs <+: e.answers sent rs2 := by
  intro rs
  induction rs with
  | nil => intro rs2 sent _; exact List.nil_prefix
  | cons r rs ih =>
    intro rs2 sent h
    cases rs2 with
    | nil => exact absurd (List.eq_nil_of_prefix_nil h) (by simp)
    | cons r2 rs2 =>
      obtain ⟨h1, h2⟩ := List.cons_prefix_cons.mp h
      subst h1
      simp only [Env.answers]
      exact List.cons_prefix_cons.mpr ⟨rfl, ih rs2 _ h2⟩

/-- The last request of a walk without failure of a non-empty list of names
ends with the last name. -/
theorem Walk.reqs_last : ∀ (k a b : Nat) (w : List GoString), w.length < k → w ≠ [] →
    ∃ r, (Walk.reqs a b k w).getLast? = some r ∧ r.wnames.getLast? = w.getLast? := by
  intro k
  induction k with
  | zero => intro a b w h; omega
  | succ k ih =>
    intro a b w hw h0
    by_cases hl : w.length ≤ 16
    · refine ⟨Req.Twalk a b (w.take 16), by simp [Walk.reqs, hl], ?_⟩
      simp only [Req.wnames, List.take_of_length_le hl]
    · have hd : w.drop 16 ≠ [] := by
        intro h
        have := congrArg List.length h
        rw [List.length_drop] at this
        simp only [List.length_nil] at this
        omega
      obtain ⟨r, h1, h2⟩ := ih b b (w.drop 16) (by rw [List.length_drop]; omega) hd
      refine ⟨r, ?_, ?_⟩
      · have hne : Walk.reqs b b k (w.drop 16) ≠ [] := by
          intro h; rw [h] at h1; simp at h1
        simp only [Walk.reqs, hl, if_false]
        rw [getLast_cons_ne _ hne]
        exact h1
      · rw [h2]
        conv_rhs => rw [← List.take_append_drop 16 w]
        rw [List.getLast?_append_of_ne_nil _ hd]

/-- C14 (amended): when the requests of the walk of a path of `N` names, the
batches of 16 names that `Walk` sends when no step fails, are each packed
without error and each answered by `Rpc` without error after the ones before,
`Walk` returns a handle and no error, the requests it hands to `Rpc` are these
`Twalk` requests, there are `max 1 (ceil(N/16))` of them (one, without names,
when `N = 0`), and the qid of the handle is the qid of the answer to the last
of them, which for `N >= 1` is the request that ends with the `N`th name. -/
theorem Walk_requests_count (e : Env) (c : Clnt) (path : GoString) (fuel r0 : Nat)
    (hroot : c.Root = some r0) (hwf : r0 < c.top) (hfuel : (Walk.names path).length < fuel)
    (hpack : ∀ a b ws,
      Req.Twalk a b ws ∈ Walk.reqs (c.fids r0).Fid (freeId c.pool) fuel (Walk.names path) →
        e.packTwalk a b ws = Egood)
    (hrpc : ∀ x ∈ e.answers c.rpcs
        (Walk.reqs (c.fids r0).Fid (freeId c.pool) fuel (Walk.names path)), x.1 = Egood) :
    ∃ c' h rs, Walk e c path fuel = Run.done (c', some h, Egood)
      ∧ c'.rpcs = c.rpcs ++ rs
      ∧ rs = Walk.reqs (c.fids r0).Fid (freeId c.pool) fuel (Walk.names path)
      ∧ (∀ r ∈ rs, ∃ a b ws, r = Req.Twalk a b ws)
      ∧ rs.length = max 1 (((Walk.names path).length + 15) / 16)
      ∧ (∃ x, (e.answers c.rpcs rs).getLast? = some x ∧ (c'.fids h).Qid = x.2.Qid)
      ∧ (Walk.names path ≠ [] →
          ∃ r, rs.getLast? = some r ∧ r.wnames.getLast? = (Walk.names path).getLast?) := by
  obtain ⟨c', res, err, rs, h1, h2, h3, -, -, -, -, -, -, h11, h12⟩ :=
    Walk_spec e c path fuel r0 hroot hfuel
  have hr0 : (FidAlloc c).1.fids r0 = c.fids r0 := by
    simp only [FidAlloc]
    rw [if_neg (by omega)]
  rw [hr0] at h3 h11 h12
  obtain ⟨q1, -, -, -, rs1, q5, q6⟩ :=
    Walk.reqs_spec fuel (c.fids r0).Fid (freeId c.pool) (Walk.names path) hfuel
  have herr : err = Egood := by
    by_contra hne
    obtain ⟨-, -, -, h⟩ := h12 hne
    rcases h with ⟨x, hx, hxe⟩ | ⟨-, a, ws, hp, hpre⟩
    · have hx2 := (e.answers_prefix rs _ c.rpcs h3).subset (List.mem_of_mem_getLast? hx)
      rw [hrpc x hx2] at hxe
      exact hne hxe.symm
    · have hm := hpre.subset (List.mem_append_right rs (List.mem_singleton_self _))
      rw [hpack a _ ws hm] at hp
      exact hne hp.symm
  subst herr
  obtain ⟨a1, -, -, a4, -, x, a6, -, a8⟩ := h11 rfl
  subst a1
  refine ⟨c', c.top, rs, h1, h2, a4, ?_, by rw [a4, q1], ⟨x, a6, a8⟩, ?_⟩
  · intro r hr
    rw [a4, q5] at hr
    rcases List.mem_cons.mp hr with hr | hr
    · exact ⟨_, _, _, hr⟩
    · obtain ⟨ws, hws⟩ := q6 r hr
      exact ⟨_, _, _, hws⟩
  · intro hn
    rw [a4]
    exact Walk.reqs_last fuel _ _ _ hfuel hn

/-- The walk of a path of 17 names on a server that answers two requests and
refuses every later one: two requests, both answered. -/
theorem Walk_requests_count_witness :
    ∃ c' h rs, Walk envTwo clnt0 path17 18 = Run.done (c', some h, Egood)
      ∧ c'.rpcs = clnt0.rpcs ++ rs
      ∧ rs = Walk.reqs (clnt0.fids 0).Fid (freeId clnt0.pool) 18 (Walk.names path17)
      ∧ (∀ r ∈ rs, ∃ a b ws, r = Req.Twalk a b ws)
      ∧ rs.length = max 1 (((Walk.names path17).length + 15) / 16)
      ∧ (∃ x, (envTwo.answers clnt0.rpcs rs).getLast? = some x ∧ (c'.fids h).Qid = x.2.Qid)
      ∧ (Walk.names path17 ≠ [] →
          ∃ r, rs.getLast? = some r ∧ r.wnames.getLast? = (Walk.names path17).getLast?) :=
  Walk_requests_count envTwo clnt0 path17 18 0 rfl (by decide) (by decide)
    (fun _ _ _ _ => rfl) (by decide)

/-- Every `Twalk` the loop of `Walk` hands to `Rpc` was packed without error:
if that holds of the requests after the first `n` before the loop, it holds of
them after it. -/
theorem Walk.loop_packed (e : Env) (newfid n : Nat) : ∀ (fuel : Nat) (c : Clnt) (fid : Nat)
    (w : List GoString) (c' : Clnt) (res : Option Nat) (err : W9Err), n ≤ c.rpcs.length →
    (∀ a b ws, Req.Twalk a b ws ∈ c.rpcs.drop n → e.packTwalk a b ws = Egood) →
    Walk.loop e newfid fuel c fid w = Run.done (c', res, err) →
    ∀ a b ws, Req.Twalk a b ws ∈ c'.rpcs.drop n → e.packTwalk a b ws = Egood := by
  intro fuel
  induction fuel with
  | zero =>
    intro c fid w c' res err _ _ h
    simp [Walk.loop] at h
  | succ fuel ih =>
    intro c fid w c' res err hn hc h
    unfold Walk.loop at h
    simp only [Walk.take_batch, Walk.drop_batch] at h
    have hstep : ∀ a b ws, Req.Twalk a b ws ∈ (c.rpcs ++ [Req.Twalk (c.fids fid).Fid
        (c.fids newfid).Fid (w.take 16)]).drop n →
        e.packTwalk (c.fids fid).Fid (c.fids newfid).Fid (w.take 16) = Egood →
        e.packTwalk a b ws = Egood := by
      intro a b ws hm hp
      rw [List.drop_append_of_le_length hn] at hm
      rcases List.mem_append.mp hm with hm | hm
      · exact hc a b ws hm
      · rw [List.mem_singleton] at hm
        obtain ⟨h1, h2, h3⟩ := Req.Twalk.inj hm
        rw [h1, h2, h3]
        exact hp
    by_cases hp : e.packTwalk (c.fids fid).Fid (c.fids newfid).Fid (w.take 16) = Egood
    · rw [if_neg (not_not.mpr hp)] at h
      by_cases hr : (e.Rpc c.rpcs (Req.Twalk (c.fids fid).Fid (c.fids newfid).Fid
          (w.take 16))).1 = Egood
      · rw [if_neg (not_not.mpr hr)] at h
        by_cases hl : (w.drop 16).length = 0
        · rw [if_pos hl] at h
          have hc' : _ = c' := congrArg Prod.fst (Run.done.inj h)
          intro a b ws hm
          rw [← hc'] at hm
          exact hstep a b ws hm hp
        · rw [if_neg hl] at h
          refine ih _ _ _ c' res err ?_ ?_ h
          · show n ≤ (c.rpcs ++ [_]).length
            rw [List.length_append]
            omega
          · intro a b ws hm
            exact hstep a b ws hm hp
      · rw [if_pos hr] at h
        simp only [Walk.error, Clunk, Run.bind] at h
        have hc' : _ = c' := congrArg Prod.fst (Run.done.inj h)
        intro a b ws hm
        rw [← hc'] at hm
        exact hstep a b ws hm hp
    · rw [if_pos hp] at h
      simp only [Walk.error, Clunk, Run.bind] at h
      have hc' : _ = c' := congrArg Prod.fst (Run.done.inj h)
      intro a b ws hm
      rw [← hc'] at hm
      exact hc a b ws hm

/-- Every `Twalk` that `Walk` hands to `Rpc` was packed without error. -/
theorem Walk_packed (e : Env) (c c' : Clnt) (path : GoString) (fuel : Nat) (res : Option Nat)
    (err : W9Err) (rs : List Req) (h : Walk e c path fuel = Run.done (c', res, err))
    (hrs : c'.rpcs = c.rpcs ++ rs) :
    ∀ a b ws, Req.Twalk a b ws ∈ rs → e.packTwalk a b ws = Egood := by
  unfold Walk at h
  simp only at h
  split at h
  · cases h
  · have key := fun h1 h2 => Walk.loop_packed e _ c.rpcs.length _ _ _ _ c' res err h1 h2 h
    have := key (Nat.le_refl _) (by
      intro a b ws hm
      have h0 : (List.drop c.rpcs.length c.rpcs) = [] :=
        List.drop_of_length_le (Nat.le_refl _)
      have hm2 : Req.Twalk a b ws ∈ List.drop c.rpcs.length c.rpcs := hm
      rw [h0] at hm2
      cases hm2)
    rw [hrs, List.drop_left] at this
    exact this

/-- C15: on a client with a root handle `Walk` returns. When it returns an
error the handle is nil, `Clunk` was called once, on the handle `FidAlloc`
returned, and the pool of handle numbers is what it was before the call; the
error is the one `Rpc` returned for the last request handed to it, or, with
every request answered without error, the one `packTwalk` returned for the
next batch. In every case each request handed to `Rpc` had been packed without
error and each request that was followed by another one had been answered
without error; and when `Walk` returns no error, no step has failed: every
request was answered without error and the requests carry all the names. -/
theorem Walk_failure_clunks (e : Env) (c : Clnt) (path : GoString) (fuel r0 : Nat)
    (hroot : c.Root = some r0) (hwf : r0 < c.top)
    (hfuel : (Walk.names path).length < fuel) :
    ∃ c' res err rs, Walk e c path fuel = Run.done (c', res, err)
      ∧ c'.rpcs = c.rpcs ++ rs
      ∧ (∀ a b ws, Req.Twalk a b ws ∈ rs → e.packTwalk a b ws = Egood)
      ∧ (∀ x ∈ (e.answers c.rpcs rs).dropLast, x.1 = Egood)
      ∧ (err = Egood → res = some (FidAlloc c).2 ∧ c'.clunks = c.clunks
          ∧ (∀ x ∈ e.answers c.rpcs rs, x.1 = Egood)
          ∧ (rs.map Req.wnames).flatten = Walk.names path)
      ∧ (err ≠ Egood → res = none
          ∧ c'.clunks = c.clunks ++ [(FidAlloc c).2]
          ∧ (FidAlloc c).1.pool.length = c.pool.length + 1
          ∧ c'.pool = c.pool ∧ c'.pool.length = c.pool.length
          ∧ ((∃ x, (e.answers c.rpcs rs).getLast? = some x ∧ x.1 = err)
            ∨ ((∀ x ∈ e.answers c.rpcs rs, x.1 = Egood)
                ∧ e.packTwalk (if rs = [] then (c.fids r0).Fid else (c'.fids (FidAlloc c).2).Fid)
                    (c'.fids (FidAlloc c).2).Fid
                    (((Walk.names path).drop (16 * rs.length)).take 16) = err))) := by
  obtain ⟨c', res, err, rs, h1, h2, h3, h4, -, -, -, h9, -, h11, h12⟩ :=
    Walk_spec e c path fuel r0 hroot hfuel
  have hr0 : (FidAlloc c).1.fids r0 = c.fids r0 := by
    simp only [FidAlloc]
    rw [if_neg (by omega)]
  rw [hr0] at h3 h11 h12
  refine ⟨c', res, err, rs, h1, h2, Walk_packed e c c' path fuel res err rs h1 h2, h4, ?_, ?_⟩
  · intro he
    obtain ⟨a1, -, a3, a4, -, x, a6, a7, -⟩ := h11 he
    refine ⟨a1, a3, ?_, ?_⟩
    · intro y hy
      rcases mem_dropLast_or_getLast hy with hy | hy
      · exact h4 y hy
      · rw [a6] at hy
        rw [← Option.some.inj hy]
        exact a7
    · rw [a4]
      exact (Walk.reqs_spec fuel _ _ _ hfuel).2.2.2.1
  · intro he
    obtain ⟨a1, a2, a3, a4⟩ := h12 he
    refine ⟨a1, a3, rfl, a2, by rw [a2], ?_⟩
    rcases a4 with a4 | ⟨a5, a, ws, a6, a7⟩
    · exact Or.inl a4
    · right
      refine ⟨a5, ?_⟩
      have := Walk.reqs_next fuel _ _ _ rs _ a7
      have hinj := Req.Twalk.inj this
      have hnum : (c'.fids (FidAlloc c).2).Fid = freeId c.pool := h9
      rw [hnum, ← hinj.1, ← hinj.2.2]
      exact a6

/-- The walk of a path of 17 names on a server that answers the second request
with an error: the error is returned and the new handle clunked. -/
theorem Walk_failure_clunks_witness :
    ∃ c' res err rs, Walk envFail clnt0 path17 18 = Run.done (c', res, err)
      ∧ c'.rpcs = clnt0.rpcs ++ rs
      ∧ (∀ a b ws, Req.Twalk a b ws ∈ rs → envFail.packTwalk a b ws = Egood)
      ∧ (∀ x ∈ (envFail.answers clnt0.rpcs rs).dropLast, x.1 = Egood)
      ∧ (err = Egood → res = some (FidAlloc clnt0).2 ∧ c'.clunks = clnt0.clunks
          ∧ (∀ x ∈ envFail.answers clnt0.rpcs rs, x.1 = Egood)
          ∧ (rs.map Req.wnames).flatten = Walk.names path17)
      ∧ (err ≠ Egood → res = none
          ∧ c'.clunks = clnt0.clunks ++ [(FidAlloc clnt0).2]
          ∧ (FidAlloc clnt0).1.pool.length = clnt0.pool.length + 1
          ∧ c'.pool = clnt0.pool ∧ c'.pool.length = clnt0.pool.length
          ∧ ((∃ x, (envFail.answers clnt0.rpcs rs).getLast? = some x ∧ x.1 = err)
            ∨ ((∀ x ∈ envFail.answers clnt0.rpcs rs, x.1 = Egood)
                ∧ envFail.packTwalk
                    (if rs = [] then (clnt0.fids 0).Fid else (c'.fids (FidAlloc clnt0).2).Fid)
                    (c'.fids (FidAlloc clnt0).2).Fid
                    (((Walk.names path17).drop (16 * rs.length)).take 16) = err))) :=
  Walk_failure_clunks envFail clnt0 path17 18 0 rfl (by decide) (by decide)

/-- C16: a walk that returns no error returns the handle `FidAlloc`
allocated, which is not the root handle (the root handle is an allocated one,
below `top`) and whose number was not in use; the root handle is unchanged,
the new handle is walked and has the user of the root. When the path has no
name, one request was handed to `Rpc`: a `Twalk` from the number of the root
to the number of the new handle, without names. -/
theorem Walk_fresh_handle (e : Env) (c c' : Clnt) (path : GoString) (fuel r0 : Nat)
    (res : Option Nat) (hroot : c.Root = some r0) (hwf : r0 < c.top)
    (hfuel : (Walk.names path).length < fuel)
    (h : Walk e c path fuel = Run.done (c', res, Egood)) :
    res = some (FidAlloc c).2 ∧ res ≠ c.Root ∧ c'.Root = c.Root
      ∧ c'.fids r0 = c.fids r0
      ∧ (c'.fids (FidAlloc c).2).Fid ∉ c.pool
      ∧ (c'.fids (FidAlloc c).2).walked = true
      ∧ (c'.fids (FidAlloc c).2).User = (c.fids r0).User
      ∧ (Walk.names path = [] →
          c'.rpcs = c.rpcs ++ [Req.Twalk (c.fids r0).Fid (c'.fids (FidAlloc c).2).Fid []]) := by
  obtain ⟨c1, res1, err1, rs, h1, h2, -, -, h5, -, h7, h9, h10, h11, -⟩ :=
    Walk_spec e c path fuel r0 hroot hfuel
  rw [h] at h1
  have hinj := Run.done.inj h1
  have hc : c' = c1 := congrArg Prod.fst hinj
  have hres : res = res1 := congrArg (fun r => r.2.1) hinj
  have herr : Egood = err1 := congrArg (fun r => r.2.2) hinj
  subst hc hres herr
  have hr0 : (FidAlloc c).1.fids r0 = c.fids r0 := by
    simp only [FidAlloc]
    rw [if_neg (by omega)]
  rw [hr0] at h10 h11
  obtain ⟨a1, -, -, a4, a5, -⟩ := h11 rfl
  have hnum : (c'.fids (FidAlloc c).2).Fid = freeId c.pool := h9
  refine ⟨a1, ?_, h5, h7 r0 (by omega), ?_, a5, h10, ?_⟩
  · rw [a1, hroot]
    intro hh
    have := Option.some.inj hh
    omega
  · rw [hnum]
    exact freeId_not_mem c.pool
  · intro hn
    rw [h2, a4, hnum, hn]
    cases fuel with
    | zero => omega
    | succ k => simp [Walk.reqs]

/-- The walk of the empty path on a server that answers every request: a new
handle, one request. -/
theorem Walk_fresh_handle_witness :
    ∃ c' res, Walk envOk clnt0 [] 1 = Run.done (c', res, Egood)
      ∧ res = some 1 ∧ res ≠ clnt0.Root ∧ (c'.fids 1).walked = true
      ∧ c'.rpcs = [Req.Twalk 0 1 []] := by
  refine ⟨_, _, rfl, ?_⟩
  obtain ⟨h1, h2, -, -, -, h6, -, h8⟩ :=
    Walk_fresh_handle envOk clnt0 _ [] 1 0 _ rfl (by decide) (by decide) rfl
  exact ⟨h1, h2, h6, h8 rfl⟩

/-- C19: the requests of a walk that returns no error. Each carries at most
16 names, each but the last one carries 16, their names in order are the names
of the path, the first is a `Twalk` from the number of the root handle to the
number of the new handle, and the others are `Twalk` requests from the number
of the new handle to itself. -/
theorem Walk_batches (e : Env) (c c' : Clnt) (path : GoString) (fuel r0 : Nat)
    (res : Option Nat) (hroot : c.Root = some r0) (hwf : r0 < c.top)
    (hfuel : (Walk.names path).length < fuel)
    (h : Walk e c path fuel = Run.done (c', res, Egood)) :
    ∃ rs, c'.rpcs = c.rpcs ++ rs
      ∧ (∀ r ∈ rs, r.wnames.length ≤ 16)
      ∧ (∀ r ∈ rs.dropLast, r.wnames.length = 16)
      ∧ (rs.map Req.wnames).flatten = Walk.names path
      ∧ ∃ ws rs1, rs = Req.Twalk (c.fids r0).Fid (c'.fids (FidAlloc c).2).Fid ws :: rs1
          ∧ ∀ r ∈ rs1, ∃ ws1,
              r = Req.Twalk (c'.fids (FidAlloc c).2).Fid (c'.fids (FidAlloc c).2).Fid ws1 := by
  obtain ⟨c1, res1, err1, rs, h1, h2, -, -, -, -, -, h9, -, h11, -⟩ :=
    Walk_spec e c path fuel r0 hroot hfuel
  rw [h] at h1
  have hinj := Run.done.inj h1
  have hc : c' = c1 := congrArg Prod.fst hinj
  have herr : Egood = err1 := congrArg (fun r => r.2.2) hinj
  subst hc herr
  have hr0 : (FidAlloc c).1.fids r0 = c.fids r0 := by
    simp only [FidAlloc]
    rw [if_neg (by omega)]
  rw [hr0] at h11
  obtain ⟨-, -, -, a4, -, -⟩ := h11 rfl
  have hnum : (c'.fids (FidAlloc c).2).Fid = freeId c.pool := h9
  obtain ⟨-, q2, q3, q4, rs1, q5, q6⟩ :=
    Walk.reqs_spec fuel (c.fids r0).Fid (freeId c.pool) (Walk.names path) hfuel
  rw [← a4] at q2 q3 q4 q5
  rw [hnum]
  exact ⟨rs, h2, q2, q3, q4, _, rs1, q5, q6⟩

/-- The walk of a path of 17 names on a server that answers every request: a
batch of 16 names from the root, then one name from the new handle. -/
theorem Walk_batches_witness :
    ∃ c' res, Walk envOk clnt0 path17 18 = Run.done (c', res, Egood)
      ∧ ∃ rs, c'.rpcs = clnt0.rpcs ++ rs
        ∧ (∀ r ∈ rs, r.wnames.length ≤ 16)
        ∧ (∀ r ∈ rs.dropLast, r.wnames.length = 16)
        ∧ (rs.map Req.wnames).flatten = Walk.names path17
        ∧ ∃ ws rs1, rs = Req.Twalk (clnt0.fids 0).Fid (c'.fids (FidAlloc clnt0).2).Fid ws :: rs1
            ∧ ∀ r ∈ rs1, ∃ ws1,
                r = Req.Twalk (c'.fids (FidAlloc clnt0).2).Fid
                  (c'.fids (FidAlloc clnt0).2).Fid ws1 :=
  ⟨_, _, rfl, Walk_batches envOk clnt0 _ path17 18 0 _ rfl (by decide) (by decide) rfl⟩

/-! ## Responding to a request -/

/-- The helper `packCommon` fails on a buffer shorter than the frame. -/
theorem packCommon_short (fc : Fcall) (size id : Nat) (h : fc.Buf.length < size + 7) :
    ∃ err, packCommon fc size id = Except.error err := by
  unfold packCommon
  simp only
  split_ifs with h1
  · exact ⟨_, rfl⟩
  · exact ⟨_, rfl⟩

/-- On a response buffer shorter than 9 bytes `RespondError` packs nothing:
`packRerror` fails, its error is dropped, and `Respond` hands over the buffer
as it was. -/
theorem RespondError_short (req : SrvReq) (err : GoError) (h : req.Rc.Buf.length < 9) :
    RespondError req err = Run.done { req with written := req.written ++ [req.Rc] } := by
  obtain ⟨e1, h1⟩ := packCommon_short req.Rc 2 Rerror (by omega)
  simp only [RespondError, packRerror, h1, Run.bind, Respond]

/-- On a response buffer shorter than 9 bytes, a packer that has failed
without touching the `Fcall` is followed by a `Respond` of the buffer as it
was. -/
theorem respondWith_short (req : SrvReq) (err : GoError) (h : req.Rc.Buf.length < 9) :
    respondWith req (Run.done (req.Rc, some err))
      = Run.done { req with written := req.written ++ [req.Rc] } := by
  simp only [respondWith, Run.bind]
  exact RespondError_short req err h

/-- C17 (the code does not pack the error): on a request whose response buffer
is shorter than 9 bytes, the packer of `RespondRwrite` fails, the `packRerror`
of `RespondError` fails as well and its error is dropped, and `Respond` hands
the buffer to the write path as it was before the call, without an `Rerror`;
so do `RespondError` itself and the other functions whose message has fields. -/
theorem Respond_no_Rerror (req : SrvReq) (h : req.Rc.Buf.length < 9) :
    (∀ count, (∃ err, packRwrite req.Rc count = Run.done (req.Rc, some err))
        ∧ RespondRwrite req count = Run.done { req with written := req.written ++ [req.Rc] })
      ∧ (∀ err, RespondError req err
          = Run.done { req with written := req.written ++ [req.Rc] })
      ∧ (∀ msize version, RespondRversion req msize version
          = Run.done { req with written := req.written ++ [req.Rc] })
      ∧ (∀ aqid, RespondRauth req aqid
          = Run.done { req with written := req.written ++ [req.Rc] })
      ∧ (∀ aqid, RespondRattach req aqid
          = Run.done { req with written := req.written ++ [req.Rc] })
      ∧ (∀ wqid, RespondRwalk req wqid
          = Run.done { req with written := req.written ++ [req.Rc] })
      ∧ (∀ qid iounit, RespondRopen req qid iounit
          = Run.done { req with written := req.written ++ [req.Rc] })
      ∧ (∀ qid iounit, RespondRcreate req qid iounit
          = Run.done { req with written := req.written ++ [req.Rc] })
      ∧ (∀ st, RespondRstat req st
          = Run.done { req with written := req.written ++ [req.Rc] }) := by
  refine ⟨fun count => ?_, fun err => RespondError_short req err h, fun msize version => ?_,
    fun aqid => ?_, fun aqid => ?_, fun wqid => ?_, fun qid iounit => ?_, fun qid iounit => ?_,
    fun st => ?_⟩
  · obtain ⟨e1, h1⟩ := packCommon_short req.Rc 4 Rwrite (by omega)
    have hp : packRwrite req.Rc count = Run.done (req.Rc, some e1) := by
      simp only [packRwrite, h1]
    exact ⟨⟨e1, hp⟩, by rw [RespondRwrite, hp]; exact respondWith_short req e1 h⟩
  · obtain ⟨e1, h1⟩ := packCommon_short req.Rc (4 + 2 + version.length) Rversion (by omega)
    have hp : packRversion req.Rc msize version = Run.done (req.Rc, some e1) := by
      simp only [packRversion, h1]
    rw [RespondRversion, hp]; exact respondWith_short req e1 h
  · obtain ⟨e1, h1⟩ := packCommon_short req.Rc 13 Rauth (by omega)
    have hp : packRauth req.Rc aqid = Run.done (req.Rc, some e1) := by
      simp only [packRauth, h1]
    rw [RespondRauth, hp]; exact respondWith_short req e1 h
  · obtain ⟨e1, h1⟩ := packCommon_short req.Rc 13 Rattach (by omega)
    have hp : packRattach req.Rc aqid = Run.done (req.Rc, some e1) := by
      simp only [packRattach, h1]
    rw [RespondRattach, hp]; exact respondWith_short req e1 h
  · obtain ⟨e1, h1⟩ := packCommon_short req.Rc 13 Rwalk (by omega)
    have hp : packRwalk req.Rc wqid = Run.done (req.Rc, some e1) := by
      simp only [packRwalk, h1]
    rw [RespondRwalk, hp]; exact respondWith_short req e1 h
  · obtain ⟨e1, h1⟩ := packCommon_short req.Rc (13 + 4) Ropen (by omega)
    have hp : packRopen req.Rc qid iounit = Run.done (req.Rc, some e1) := by
      simp only [packRopen, h1]
    rw [RespondRopen, hp]; exact respondWith_short req e1 h
  · obtain ⟨e1, h1⟩ := packCommon_short req.Rc (13 + 4) Rcreate (by omega)
    have hp : packRcreate req.Rc qid iounit = Run.done (req.Rc, some e1) := by
      simp only [packRcreate, h1]
    rw [RespondRcreate, hp]; exact respondWith_short req e1 h
  · obtain ⟨e1, h1⟩ := packCommon_short req.Rc (2 + statsz st) Rstat (by omega)
    have hp : packRstat req.Rc st = Run.done (req.Rc, some e1) := by
      simp only [packRstat, h1]
    rw [RespondRstat, hp]; exact respondWith_short req e1 h

/-- The call `RespondRwrite(1)` on a request with a zeroed response buffer of
8 bytes: the buffer handed to the write path is the zeroed one, it holds no
message and does not decode. -/
theorem Respond_no_Rerror_witness :
    RespondRwrite reqShort 1 = Run.done { reqShort with written := [reqShort.Rc] }
      ∧ packRwrite reqShort.Rc 1 = Run.done (reqShort.Rc, some ErrNoBuf)
      ∧ reqShort.Rc.msg = none ∧ Unpack (reqShort.Rc.bytes reqShort.Rc.Pkt) = none :=
  ⟨((Respond_no_Rerror reqShort (by decide)).1 1).2, by decide, by decide, by decide⟩

/-! ## Creating a named file -/

/-- C18 (the code faults): on the empty path `LastIndex` is -1, `n` is 0, the
walk of `path[0:0]` is a walk without names, and when it returns a handle and
no error the index expression `path[n]` is `path[0]` of an empty string:
`FCreate` faults, it returns neither a file nor an error. -/
theorem FCreate_empty_path_fault (e : Env) (c c1 : Clnt) (res : Option Nat)
    (perm mode fuel : Nat) (hw : Walk e c [] fuel = Run.done (c1, res, Egood)) :
    FCreate e c [] perm mode fuel = Run.fault := by
  simp [FCreate, LastIndex, hw, Run.bind]

/-- The call `FCreate("", 420, 1)` on a server that answers every request. -/
theorem FCreate_empty_path_fault_witness :
    (∃ c1 res, Walk envOk clnt0 [] 1 = Run.done (c1, res, Egood))
      ∧ FCreate envOk clnt0 [] 420 1 1 = Run.fault :=
  ⟨⟨_, _, rfl⟩, FCreate_empty_path_fault envOk clnt0 _ _ 420 1 1 rfl⟩

/-! ## The child lists under sequences of calls -/

/-- C20 (the code breaks the invariant): from the root with the one child
"etc" (address 1), `Add` links a second child "b" (address 3) and rejects the
node at address 2 under the name "etc", leaving its `Parent` set; `Remove` on
the rejected node empties the list of the root, and `Remove` on the child
"etc" then makes `cfirst` of the root the child "b" while `clast` stays nil.
So `cfirst` is not nil and `clast` is nil, and following `next` from `cfirst`
does not end at `clast`; the node "b" has the root as `Parent` and is not
flagged removed. -/
theorem Remove_breaks_child_list :
    ∃ s1 s2 s3 s4,
      Add storeEtc 3 (some 0) [98] none none 0o644 none 0 3 = Run.done (s1, none)
        ∧ Add s1 2 (some 0) etc none none 0o644 none 0 3 = Run.done (s2, some TreeErr.Eexist)
        ∧ Remove s2 2 = Run.done s3 ∧ Remove s3 1 = Run.done s4
        ∧ Children storeEtc 0 [1] ∧ Children s1 0 [1, 3] ∧ Children s2 0 [1, 3]
        ∧ (s2.files 2).Parent = some 0
        ∧ (s3.files 0).cfirst = none ∧ (s3.files 0).clast = none
        ∧ (s4.files 0).cfirst = some 3 ∧ (s4.files 0).clast = none
        ∧ (s4.files 3).next = none
        ∧ (s4.files 3).Parent = some 0 ∧ (s4.files 3).flags &&& Fremoved = 0
        ∧ ¬ ((s4.files 0).cfirst = none ↔ (s4.files 0).clast = none) := by
  refine ⟨_, _, _, _, rfl, rfl, rfl, rfl, by decide, by decide, by decide, rfl, rfl, rfl, rfl, rfl,
    rfl, rfl, rfl, fun h => ?_⟩
  have h1 := h.mpr rfl
  exact Option.noConfusion ((show _ = some 3 from rfl).symm.trans h1)

/-- A node that was removed and is added again is linked with the flag
`Fremoved` still set: `Add` does not clear it. -/
theorem Add_keeps_Fremoved :
    ∃ s1 s2 s3,
      Add storeEtc 3 (some 0) [98] none none 0o644 none 0 3 = Run.done (s1, none)
        ∧ Remove s1 3 = Run.done s2
        ∧ Add s2 3 (some 0) [98] none none 0o644 none 0 3 = Run.done (s3, none)
        ∧ Children s3 0 [1, 3] ∧ (s3.files 3).flags &&& Fremoved = Fremoved := by
  refine ⟨_, _, _, rfl, rfl, rfl, by decide, rfl⟩

/-! ## What the functions do where they do not fail -/

/-- On a valid message and a response buffer that holds its frame, the body
shared by the functions `RespondR...` hands one response to the write path:
the `Fcall` that holds the message, with the frame of the message in `Pkt`. -/
theorem respondWith_packed (req : SrvReq) (m : Msg) (hv : m.Valid)
    (hb : m.size + 7 ≤ req.Rc.Buf.length) :
    ∃ fc1, respondWith req (pack req.Rc m)
        = Run.done { Rc := fc1, written := req.written ++ [fc1] }
      ∧ fc1.msg = some m ∧ fc1.bytes fc1.Pkt = frame m.typ m.body := by
  obtain ⟨fc1, h1, h2, h3, -⟩ := pack_frame req.Rc m hv hb
  exact ⟨fc1, by simp only [respondWith, h1, Run.bind, Respond], h2, h3⟩

/-- On a response buffer of 9 bytes or more `RespondError` hands one response
to the write path, an `Rerror`: with the error itself when it is a
`*WarpError`, with the code `Eio` and the text of the error otherwise. -/
theorem RespondError_packed (req : SrvReq) (hb : 9 ≤ req.Rc.Buf.length) :
    (∀ w : WarpError, w.errcode < 2 ^ 16 →
        ∃ fc1, RespondError req (GoError.warp w)
            = Run.done { Rc := fc1, written := req.written ++ [fc1] }
          ∧ fc1.msg = some (Msg.Rerror w))
      ∧ ∀ msg : GoString,
        ∃ fc1, RespondError req (GoError.other msg)
            = Run.done { Rc := fc1, written := req.written ++ [fc1] }
          ∧ fc1.msg = some (Msg.Rerror ⟨Eio, msg⟩) := by
  constructor
  · intro w hw
    obtain ⟨fc1, h1, h2, -⟩ := pack_frame req.Rc (Msg.Rerror w) hw hb
    simp only [pack] at h1
    exact ⟨fc1, by simp only [RespondError, h1, Run.bind, Respond], h2⟩
  · intro msg
    obtain ⟨fc1, h1, h2, -⟩ := pack_frame req.Rc (Msg.Rerror ⟨Eio, msg⟩)
      (by simp [Msg.Valid, Eio]) hb
    simp only [pack] at h1
    exact ⟨fc1, by simp only [RespondError, h1, Run.bind, Respond], h2⟩

/-- The function `strings.LastIndex` on a string without separator. -/
theorem LastIndex_not_mem (s : GoString) (sep : Nat) (h : sep ∉ s) : LastIndex s sep = -1 := by
  induction s with
  | nil => rfl
  | cons c s ih =>
    have hc : c ≠ sep := fun hh => h (by simp [hh])
    have hs : sep ∉ s := fun hh => h (List.mem_cons_of_mem _ hh)
    simp [LastIndex, ih hs, hc]

/-- The function `strings.LastIndex` on a string with a separator: the length
of the part before the last one. -/
theorem LastIndex_append (d nm : GoString) (sep : Nat) (h : sep ∉ nm) :
    LastIndex (d ++ sep :: nm) sep = d.length := by
  induction d with
  | nil => simp [LastIndex, LastIndex_not_mem nm sep h]
  | cons c d ih =>
    have ih2 : LastIndex (d.append (sep :: nm)) sep = d.length := ih
    simp only [List.cons_append, LastIndex, ih2, List.length_cons]
    rw [if_pos (by omega)]
    push_cast
    rfl

/-- On a path with a '/', `FCreate` walks the part before the last '/' and
creates the part after it; on a non-empty path without '/' it walks the empty
path and creates the path. In both cases the name created has no '/'. -/
theorem FCreate_nonempty (e : Env) (c : Clnt) (perm mode fuel : Nat) (d nm : GoString)
    (hnm : 47 ∉ nm) :
    FCreate e c (d ++ 47 :: nm) perm mode fuel
        = (Walk e c d fuel).bind (FCreate.rest e nm perm mode)
      ∧ (nm ≠ [] → FCreate e c nm perm mode fuel
          = (Walk e c [] fuel).bind (FCreate.rest e nm perm mode)) := by
  constructor
  · have h1 : (d ++ 47 :: nm)[d.length]? = some 47 := by
      rw [List.getElem?_append_right (Nat.le_refl _), Nat.sub_self]
      exact List.getElem?_cons_zero
    have hn : (if (d.length : Int) < 0 then 0 else (d.length : Int)).toNat = d.length := by
      rw [if_neg (by omega)]
      exact Int.toNat_natCast _
    have h2 : ¬ (d ++ 47 :: nm).length < d.length := by
      simp
    have h3 : ¬ (d ++ 47 :: nm).length < d.length + 1 := by
      simp
    have h4 : (d ++ 47 :: nm).drop (d.length + 1) = nm := by
      rw [show d ++ 47 :: nm = (d ++ [47]) ++ nm by simp]
      exact List.drop_left' (by simp)
    have h5 : (d ++ 47 :: nm).take d.length = d := List.take_left' rfl
    unfold FCreate
    simp only [LastIndex_append d nm 47 hnm]
    simp only [hn, h1, h2, h3, h4, h5, if_true, if_false]
    congr 1
  · intro h0
    obtain ⟨b, nm1, rfl⟩ := List.exists_cons_of_ne_nil h0
    have hb : b ≠ 47 := fun hh => hnm (by simp [hh])
    have hL := LastIndex_not_mem _ 47 hnm
    unfold FCreate
    have hn : (if (-1 : Int) < 0 then 0 else (-1 : Int)).toNat = 0 := by decide
    simp only [hL, hn, Nat.not_lt_zero, if_false, List.take_zero, List.getElem?_cons_zero, hb,
      List.drop_zero]
    congr 1

/-! ## The iounit of an open handle -/

/-- The assignments at the end of `Open` and `Create` on a connection whose
`Msize`, a `uint32`, exceeds `IOHDRSZ`: the handle takes the qid of the
response and the mode; its iounit is that of the response when that is not 0
and at most `Msize - IOHDRSZ`, and `Msize - IOHDRSZ` otherwise; the rest of
the handle, the other handles and the rest of the client are unchanged. -/
theorem Clnt.opened_spec (e : Env) (c : Clnt) (a : Nat) (rc : Fcall) (mode : Nat)
    (hm : c.Msize < 2 ^ 32) (hio : e.IOHDRSZ < c.Msize) :
    (c.opened e a rc mode).fids a
        = { c.fids a with
            Qid := rc.Qid,
            Iounit := if rc.Iounit ≠ 0 ∧ rc.Iounit ≤ c.Msize - e.IOHDRSZ then rc.Iounit
              else c.Msize - e.IOHDRSZ,
            Mode := mode }
      ∧ (∀ b, b ≠ a → (c.opened e a rc mode).fids b = c.fids b)
      ∧ (c.opened e a rc mode).rpcs = c.rpcs ∧ (c.opened e a rc mode).pool = c.pool
      ∧ (c.opened e a rc mode).Msize = c.Msize := by
  have hp : (2 : Nat) ^ 32 = 4294967296 := by norm_num
  rw [hp] at hm
  have hlim : (c.Msize + 2 ^ 32 - e.IOHDRSZ % 2 ^ 32) % 2 ^ 32 = c.Msize - e.IOHDRSZ := by
    rw [hp, Nat.mod_eq_of_lt (show e.IOHDRSZ < 4294967296 by omega)]
    have : c.Msize + 4294967296 - e.IOHDRSZ = (c.Msize - e.IOHDRSZ) + 4294967296 := by omega
    rw [this, Nat.add_mod_right, Nat.mod_eq_of_lt (by omega)]
  refine ⟨?_, ?_, ?_, ?_, ?_⟩
  · unfold Clnt.opened
    simp only [Clnt.modify_fids, if_true]
    have hM : ∀ (g1 g2 : Fid → Fid), ((c.modify a g1).modify a g2).Msize = c.Msize :=
      fun _ _ => rfl
    rw [hM, hlim]
    by_cases h : rc.Iounit = 0 ∨ rc.Iounit > c.Msize - e.IOHDRSZ
    · rw [if_pos h]
      have h2 : ¬ (rc.Iounit ≠ 0 ∧ rc.Iounit ≤ c.Msize - e.IOHDRSZ) := by
        intro hh
        rcases h with h | h
        · exact hh.1 h
        · omega
      rw [if_neg h2]
      simp only [Clnt.modify_fids, if_true]
    · rw [if_neg h]
      have h2 : rc.Iounit ≠ 0 ∧ rc.Iounit ≤ c.Msize - e.IOHDRSZ := by
        constructor
        · intro h0; exact h (Or.inl h0)
        · by_contra h1; exact h (Or.inr (by omega))
      rw [if_pos h2]
      simp only [Clnt.modify_fids, if_true]
  · intro b hb
    unfold Clnt.opened
    simp only
    split_ifs <;> simp [Clnt.modify_fids, hb]
  · unfold Clnt.opened
    simp only
    split_ifs <;> rfl
  · unfold Clnt.opened
    simp only
    split_ifs <;> rfl
  · unfold Clnt.opened
    simp only
    split_ifs <;> rfl

/-- C21: on a connection whose `Msize`, a `uint32`, exceeds `IOHDRSZ`, `Open`
and `Create` on a handle return. The error is that of the packer, or else that
of `Rpc`. Without error the iounit of the handle is at least 1 and at most
`Msize - IOHDRSZ`: it is the iounit of the response when that is not 0 and at
most `Msize - IOHDRSZ`, and `Msize - IOHDRSZ` otherwise; the qid of the handle
is the qid of the response and its mode the requested mode. With an error of
the packer or of `Rpc` no handle has changed. -/
theorem Open_Create_iounit (e : Env) (c : Clnt) (a mode perm : Nat) (name extattr : GoString)
    (hm : c.Msize < 2 ^ 32) (hio : e.IOHDRSZ < c.Msize) :
    (∃ c' err, Open e c (some a) mode = Run.done (c', err)
      ∧ err = (if e.packTopen (c.fids a).Fid mode ≠ Egood then e.packTopen (c.fids a).Fid mode
          else (e.Rpc c.rpcs (Req.Topen (c.fids a).Fid mode)).1)
      ∧ (err = Egood →
          1 ≤ (c'.fids a).Iounit ∧ (c'.fids a).Iounit ≤ c.Msize - e.IOHDRSZ
          ∧ (c'.fids a).Iounit
              = (if (e.Rpc c.rpcs (Req.Topen (c.fids a).Fid mode)).2.Iounit ≠ 0
                    ∧ (e.Rpc c.rpcs (Req.Topen (c.fids a).Fid mode)).2.Iounit
                        ≤ c.Msize - e.IOHDRSZ
                then (e.Rpc c.rpcs (Req.Topen (c.fids a).Fid mode)).2.Iounit
                else c.Msize - e.IOHDRSZ)
          ∧ (c'.fids a).Qid = (e.Rpc c.rpcs (Req.Topen (c.fids a).Fid mode)).2.Qid
          ∧ (c'.fids a).Mode = mode)
      ∧ (err ≠ Egood → c'.fids = c.fids))
    ∧ (∃ c' err, Create e c (some a) name perm mode extattr = Run.done (c', err)
      ∧ err = (if e.packTcreate (c.fids a).Fid name perm mode extattr ≠ Egood
          then e.packTcreate (c.fids a).Fid name perm mode extattr
          else (e.Rpc c.rpcs (Req.Tcreate (c.fids a).Fid name perm mode extattr)).1)
      ∧ (err = Egood →
          1 ≤ (c'.fids a).Iounit ∧ (c'.fids a).Iounit ≤ c.Msize - e.IOHDRSZ
          ∧ (c'.fids a).Iounit
              = (if (e.Rpc c.rpcs (Req.Tcreate (c.fids a).Fid name perm mode extattr)).2.Iounit ≠ 0
                    ∧ (e.Rpc c.rpcs (Req.Tcreate (c.fids a).Fid name perm mode extattr)).2.Iounit
                        ≤ c.Msize - e.IOHDRSZ
                then (e.Rpc c.rpcs (Req.Tcreate (c.fids a).Fid name perm mode extattr)).2.Iounit
                else c.Msize - e.IOHDRSZ)
          ∧ (c'.fids a).Qid
              = (e.Rpc c.rpcs (Req.Tcreate (c.fids a).Fid name perm mode extattr)).2.Qid
          ∧ (c'.fids a).Mode = mode)
      ∧ (err ≠ Egood → c'.fids = c.fids)) := by
  have key : ∀ (tc : Req) (p : W9Err),
      ∃ c' err,
        (if p ≠ Egood then Run.done (c, p)
          else if (e.Rpc c.rpcs tc).1 ≠ Egood then
            Run.done ({ c with rpcs := c.rpcs ++ [tc] }, (e.Rpc c.rpcs tc).1)
          else Run.done (Clnt.opened e { c with rpcs := c.rpcs ++ [tc] } a (e.Rpc c.rpcs tc).2 mode,
            Egood)) = Run.done (c', err)
        ∧ err = (if p ≠ Egood then p else (e.Rpc c.rpcs tc).1)
        ∧ (err = Egood →
            1 ≤ (c'.fids a).Iounit ∧ (c'.fids a).Iounit ≤ c.Msize - e.IOHDRSZ
            ∧ (c'.fids a).Iounit
                = (if (e.Rpc c.rpcs tc).2.Iounit ≠ 0 ∧ (e.Rpc c.rpcs tc).2.Iounit
                      ≤ c.Msize - e.IOHDRSZ
                  then (e.Rpc c.rpcs tc).2.Iounit else c.Msize - e.IOHDRSZ)
            ∧ (c'.fids a).Qid = (e.Rpc c.rpcs tc).2.Qid ∧ (c'.fids a).Mode = mode)
        ∧ (err ≠ Egood → c'.fids = c.fids) := by
    intro tc p
    by_cases hp : p = Egood
    · rw [if_neg (not_not.mpr hp), if_neg (not_not.mpr hp)]
      by_cases hr : (e.Rpc c.rpcs tc).1 = Egood
      · rw [if_neg (not_not.mpr hr)]
        obtain ⟨h1, -⟩ := Clnt.opened_spec e { c with rpcs := c.rpcs ++ [tc] } a
          (e.Rpc c.rpcs tc).2 mode hm hio
        refine ⟨_, _, rfl, hr.symm, fun _ => ?_, fun h => absurd rfl h⟩
        rw [h1]
        refine ⟨?_, ?_, rfl, rfl, rfl⟩
        · show 1 ≤ (if _ then _ else _)
          split_ifs with h
          · exact Nat.pos_of_ne_zero h.1
          · show 1 ≤ c.Msize - e.IOHDRSZ
            omega
        · show (if _ then _ else _) ≤ _
          split_ifs with h
          · exact h.2
          · exact Nat.le_refl _
      · rw [if_pos hr]
        exact ⟨_, _, rfl, rfl, fun h => absurd h hr, fun _ => rfl⟩
    · rw [if_pos hp, if_pos hp]
      exact ⟨_, _, rfl, rfl, fun h => absurd h hp, fun _ => rfl⟩
  exact ⟨key _ _, key _ _⟩

/-- The calls `Open(root, 1)` and `Create(root, "b", 0644, 1, "")` on a
connection with `Msize` 8192 and `IOHDRSZ` 24, on a server that answers with the
iounit 4096: the handle takes it. -/
theorem Open_Create_iounit_witness :
    ∃ c' err, Open envIo clnt0 (some 0) 1 = Run.done (c', err) ∧ err = Egood
      ∧ (c'.fids 0).Iounit = 4096 ∧ (c'.fids 0).Qid = ⟨0, 0, 7⟩ ∧ (c'.fids 0).Mode = 1 := by
  obtain ⟨⟨c', err, h1, h2, h3, -⟩, -⟩ :=
    Open_Create_iounit envIo clnt0 0 1 420 [98] [] (by decide) (by decide)
  have he : err = Egood := h2
  obtain ⟨-, -, h4, h5, h6⟩ := h3 he
  exact ⟨c', err, h1, he, h4, h5, h6⟩

/-! ## Add on a list that Remove has broken -/

/-- C3 (the code drops a child): the store `storeBroken` is reached from the
root with the child "etc" by `b.Add(root, "b")`, the rejected
`g.Add(root, "etc")`, `g.Remove()` and `etc.Remove()`. There the child list of
the root, the chain from `cfirst`, is the node "b" alone, `Find` finds it, no
child is named "x" and `clast` is nil. `Add` of the fresh node at address 4 as
"x" returns nil and, finding `clast` nil, makes the new node `cfirst`: the
child list is the new node alone, not the old list followed by it, and `Find`
no longer finds "b". -/
theorem Add_drops_children :
    ((Add storeEtc 3 (some 0) [98] none none 0o644 none 0 3).bind fun r1 =>
        (Add r1.1 2 (some 0) etc none none 0o644 none 0 3).bind fun r2 =>
          (Remove r2.1 2).bind fun s3 => Remove s3 1) = Run.done storeBroken
      ∧ IsChain storeBroken.files (storeBroken.files 0).cfirst [3]
      ∧ (storeBroken.files 0).clast = none
      ∧ storeBroken.name 3 = [98] ∧ storeBroken.name 3 ≠ [120]
      ∧ (storeBroken.files 3).flags &&& Fremoved = 0
      ∧ storeBroken.files 4 = blank
      ∧ Find storeBroken 0 [98] 2 = Run.done (storeBroken, some 3)
      ∧ ∃ s5, Add storeBroken 4 (some 0) [120] none none 0o644 none 0 2 = Run.done (s5, none)
        ∧ IsChain s5.files (s5.files 0).cfirst [4]
        ∧ ¬ IsChain s5.files (s5.files 0).cfirst ([3] ++ [4])
        ∧ Find s5 0 [120] 2 = Run.done (s5, some 4)
        ∧ Find s5 0 [98] 2 = Run.done (s5, none) := by
  refine ⟨rfl, by decide, rfl, rfl, by decide, rfl, rfl, rfl, _, rfl, by decide, by decide, rfl,
    rfl⟩

end Warp9
